import Mathlib

/-!
Verification development for the `frogproto` message protocol library
(`frogproto/msglib.py`).  The Python source is shallowly embedded: Python
dictionaries become association lists in insertion order (keys of an actual
Python dict are unique, stated as `Nodup` hypotheses where relevant), Python
runtime values relevant to payloads become the inductive `PyValue`, raised
exceptions become `Except` errors carrying the same data as the Python
exception messages, and the mutable class-level state of `ProtoRuntime`
becomes an explicit `RuntimeState` threaded through `load`.  The external
`msgpack` library is modelled at byte level for the fragment of the format
that the library exercises (ints, bools, float64 bit patterns, str8/fixstr
with UTF-8 payloads, bin, arrays), with the same size-class selection and
overflow behaviour as `msgpack-python`.
-/

namespace Frogproto

/-- Python runtime values that can appear as payload field values.
`pfloat` carries the IEEE-754 bit pattern opaquely (no float arithmetic is
modelled).  `penum` is a member of the dynamically created `IntEnum` class
of the given name with the given integer code; Python enum aliases are the
same object as their canonical member, so a member is fully determined by
(class name, code). -/
inductive PyValue where
  | pint (n : Int)
  | pbool (b : Bool)
  | pfloat (bits : Nat)
  | pstr (s : String)
  | pbytes (bs : List Nat)
  | penum (ename : String) (code : Int)
  deriving DecidableEq, Repr

/-- The Python types appearing as values of `type_mapping` in msglib.py. -/
inductive PyType where
  | tint
  | tfloat
  | tstr
  | tbool
  | tenumBase
  | tbytes
  deriving DecidableEq, Repr

/-- msglib.py `type_mapping`: datatype string to Python type (`.get` on a
dict, so absent keys give `none`). -/
def type_mapping (s : String) : Option PyType :=
  if s = "int" then some .tint
  else if s = "float" then some .tfloat
  else if s = "string" then some .tstr
  else if s = "bool" then some .tbool
  else if s = "enum" then some .tenumBase
  else if s = "bytes" then some .tbytes
  else none

/-- Python `isinstance(value, t)` for the modelled values and types.
`bool` is a subclass of `int` in Python, and every `IntEnum` member is an
`int`, so both satisfy the `int` check. -/
def pyIsInstance : PyValue → PyType → Bool
  | .pint _, .tint => true
  | .pbool _, .tint => true
  | .penum _ _, .tint => true
  | .pbool _, .tbool => true
  | .pfloat _, .tfloat => true
  | .pstr _, .tstr => true
  | .pbytes _, .tbytes => true
  | .penum _ _, .tenumBase => true
  | _, _ => false

/-- Python `type(value).__name__` for the modelled values; the class of an
enum member is the dynamically created `IntEnum` class of that name. -/
def pyTypeName : PyValue → String
  | .pint _ => "int"
  | .pbool _ => "bool"
  | .pfloat _ => "float"
  | .pstr _ => "str"
  | .pbytes _ => "bytes"
  | .penum e _ => e

/-- `expected_type.__name__` for a `type_mapping` entry. -/
def ptypeName : PyType → String
  | .tint => "int"
  | .tfloat => "float"
  | .tstr => "str"
  | .tbool => "bool"
  | .tenumBase => "IntEnum"
  | .tbytes => "bytes"

/-- One field spec from a message's payload definition list: the JSON object
`{"name": ..., "datatype": ...}`.  `datatype` is read with `.get`, hence
`Option`. -/
structure FieldSpec where
  name : String
  datatype : Option String
  deriving DecidableEq, Repr

/-- The JSON value a message name maps to: either a list of field specs or
some other JSON value (rejected by `_build_messages`). -/
inductive MsgVal where
  | mlist (fields : List FieldSpec)
  | mnotlist
  deriving DecidableEq, Repr

/-- The JSON value a subcategory name maps to: a dict of messages or some
non-dict value. -/
inductive SubcatVal where
  | smap (msgs : List (String × MsgVal))
  | snotdict
  deriving DecidableEq, Repr

/-- The JSON value a category name maps to: a dict of subcategories or some
non-dict value. -/
inductive CatVal where
  | cmap (subs : List (String × SubcatVal))
  | cnotdict
  deriving DecidableEq, Repr

/-- A parsed protocol spec (the dict handed to `ProtoRuntime.load`).
`enums` maps enum name to its member dict (member name to integer code);
`messages` is the category tree.  Dicts are association lists in insertion
order. -/
structure ProtoSpec where
  PROTOCOL_NAME : Option String
  PROTOCOL_VERSION : Option Int
  enums : List (String × List (String × Int))
  messages : List (String × CatVal)
  deriving DecidableEq, Repr

/-- Errors raised by msglib.py, carrying the data that appears in the
corresponding Python exception message. -/
inductive PErr where
  | schemaError (msg : String)
  | runtimeNotLoaded
  | missingFields (missing : Finset String)
  | extraFields (extra : Finset String)
  | keyError (key : String)
  | enumClassNotFound (key : String)
  | unknownDatatype (datatype : Option String) (field : String)
  | fieldTypeError (field : String) (expected : String) (got : String)
  | invalidCategory (v : Int)
  | noSubcategory (v : Int) (cat : String)
  | noMessage (v : Int) (cat : String) (sub : String)
  | payloadLength (got : Nat) (expected : Nat)
  | enumCodeInvalid (key : String) (code : Int)
  | overflowError
  | decodeError (msg : String)
  deriving DecidableEq

/-- An `IntEnum` created by `_build_payload_enum`: its class name and its
members in definition order (underscore-prefixed schema keys already
filtered out). -/
structure EnumDef where
  ename : String
  members : List (String × Int)
  deriving DecidableEq, Repr

/-- One message enum member as produced by `_build_messages`, together with
the class-level attributes reachable from it (`category_value`,
`value_subcat`, names) and the `payload_def` attached at build time. -/
structure MsgEntry where
  category_name : String
  category_value : Nat
  subcategory_name : String
  value_subcat : Nat
  name : String
  value : Nat
  payload_def : List FieldSpec
  deriving DecidableEq, Repr

/-- One subcategory `IntEnum` class created by `_build_messages`. -/
structure SubEntry where
  name : String
  value_subcat : Nat
  msgs : List MsgEntry
  deriving DecidableEq, Repr

/-- One category class created by `_build_messages`. -/
structure CatEntry where
  name : String
  value_cat : Nat
  subs : List SubEntry
  deriving DecidableEq, Repr

/-- The mutable class-level state of `ProtoRuntime`. -/
structure RuntimeState where
  MessageCategory : Option (List (String × Nat))
  Messages : Option (List CatEntry)
  PayloadEnum : Option (List (String × EnumDef))
  PROTOCOL_NAME : Option String
  PROTOCOL_VERSION : Option Int
  deriving DecidableEq, Repr

/-- The state before any `load`. -/
def initialState : RuntimeState :=
  ⟨none, none, none, none, none⟩

/-- Association-list lookup with Python dict semantics (keys are unique in
an actual dict, so first match is the match). -/
def dlookup {α : Type} : List (String × α) → String → Option α
  | [], _ => none
  | (k', v) :: rest, k => if k' = k then some v else dlookup rest k

/-- Python dict assignment `d[k] = v`: overwrite in place if the key is
present, else append. -/
def dinsert {α : Type} : List (String × α) → String → α → List (String × α)
  | [], k, v => [(k, v)]
  | (k', v') :: rest, k, v =>
      if k' = k then (k, v) :: rest else (k', v') :: dinsert rest k v

/-- The member filter of `_build_payload_enum`: keep keys that do not
start with an underscore. -/
def notUnderscoreB (kv : String × Int) : Bool :=
  !("_".data.isPrefixOf kv.fst.data)

/-- `_build_payload_enum` for one enum: filter out underscore-prefixed
member keys, fail if nothing remains (`ValueError  "Enum ... has no
members"`). -/
def buildEnumDef (n : String) (mems : List (String × Int)) : Except PErr EnumDef :=
  let member_dict := mems.filter notUnderscoreB
  if member_dict = [] then .error (.schemaError ("Enum " ++ n ++ " has no members"))
  else .ok ⟨n, member_dict⟩

/-- `ProtoRuntime._build_payload_enum`: build each enum in order, attaching
it to the `PayloadEnum` holder class under the enum's name. -/
def _build_payload_enum : List (String × List (String × Int)) → Except PErr (List (String × EnumDef))
  | [] => .ok []
  | (n, mems) :: rest => do
      let d ← buildEnumDef n mems
      let tail ← _build_payload_enum rest
      .ok ((n, d) :: tail)

/-- The message loop of `_build_messages`: the messages of one subcategory
get values 1, 2, ... in encounter order, each checked to map to a list. -/
def buildMsgEntries (cat : String) (cv : Nat) (sub : String) (sv : Nat) :
    List (String × MsgVal) → Nat → Except PErr (List MsgEntry)
  | [], _ => .ok []
  | (mn, mv) :: rest, i =>
      match mv with
      | .mnotlist =>
          .error (.schemaError ("Protocol Error: Payload for " ++ cat ++ "." ++ sub ++ "." ++ mn ++ " must be a list"))
      | .mlist fs => do
          let tail ← buildMsgEntries cat cv sub sv rest (i + 1)
          .ok (⟨cat, cv, sub, sv, mn, i, fs⟩ :: tail)

/-- The subcategory loop of `_build_messages`: subcategories of one category
get `value_subcat` 1, 2, ... in encounter order; each must map to a
non-empty dict of messages. -/
def buildSubEntries (cat : String) (cv : Nat) :
    List (String × SubcatVal) → Nat → Except PErr (List SubEntry)
  | [], _ => .ok []
  | (sn, sv) :: rest, i =>
      match sv with
      | .snotdict =>
          .error (.schemaError ("Protocol Error: Subcategory " ++ cat ++ "." ++ sn ++ " must map to messages"))
      | .smap msgs =>
          if msgs = [] then
            .error (.schemaError ("Protocol Error: Subcategory " ++ cat ++ "." ++ sn ++ " must map to messages"))
          else do
            let ms ← buildMsgEntries cat cv sn i msgs 1
            let tail ← buildSubEntries cat cv rest (i + 1)
            .ok (⟨sn, i, ms⟩ :: tail)

/-- The category loop of `_build_messages`: categories get `value_cat`
1, 2, ... in encounter order; each must map to a dict (emptiness is NOT
checked at this level in the source). -/
def buildCatEntries : List (String × CatVal) → Nat → Except PErr (List CatEntry)
  | [], _ => .ok []
  | (cn, cv) :: rest, i =>
      match cv with
      | .cnotdict =>
          .error (.schemaError ("Protocol Error: Category " ++ cn ++ " must map to subcategories"))
      | .cmap subs => do
          let ss ← buildSubEntries cn i subs 1
          let tail ← buildCatEntries rest (i + 1)
          .ok (⟨cn, i, ss⟩ :: tail)

/-- `ProtoRuntime._build_messages`: returns the `MessageCategory` IntEnum
(category name to id) together with the `Messages` class tree. -/
def _build_messages (spec : List (String × CatVal)) :
    Except PErr (List (String × Nat) × List CatEntry) := do
  let cats ← buildCatEntries spec 1
  .ok (cats.map (fun c => (c.name, c.value_cat)), cats)

/-- `ProtoRuntime.load`: validates the top-level spec, then assigns
`cls.PayloadEnum` and only afterwards builds and assigns the message tree,
mirroring the source's assignment order (so a failure inside
`_build_messages` happens after `PayloadEnum` was already replaced).
Returns the state after the call together with the call's outcome. -/
def load (st : RuntimeState) (spec : ProtoSpec) : RuntimeState × Except PErr Unit :=
  if spec.messages = [] then
    (st, .error (.schemaError "Protocol Error: 'messages' missing or invalid in protocol JSON"))
  else
    match _build_payload_enum spec.enums with
    | .error e => (st, .error e)
    | .ok pe =>
        let st1 : RuntimeState := { st with PayloadEnum := some pe }
        match _build_messages spec.messages with
        | .error e => (st1, .error e)
        | .ok mcats =>
            ({ st1 with
                MessageCategory := some mcats.fst
                Messages := some mcats.snd
                PROTOCOL_NAME := spec.PROTOCOL_NAME
                PROTOCOL_VERSION := spec.PROTOCOL_VERSION }, .ok ())

/-- Python `field_name[len("PayloadEnum_"):] if
field_name.startswith("PayloadEnum_") else field_name`; Python strings are
sequences of code points, so slicing is `List Char` dropping. -/
def stripPayloadEnumKey (s : String) : String :=
  if ("PayloadEnum_".data).isPrefixOf s.data then ⟨s.data.drop 12⟩ else s

/-- The per-key information `create_payload` collects in `field_defs`. -/
structure FieldInfo where
  ftype : Option String
  is_enum : Bool
  deriving DecidableEq, Repr

/-- The `field_defs` dict built by `create_payload`: keyed by the
prefix-stripped field name; a later field with the same stripped name
overwrites the entry. -/
def field_defs_of (pd : List FieldSpec) : List (String × FieldInfo) :=
  pd.foldl
    (fun acc f =>
      dinsert acc (stripPayloadEnumKey f.name) ⟨f.datatype, f.datatype == some "enum"⟩)
    []

/-- `isinstance(value, enum_cls)` for the dynamically created enum class:
true exactly for members of the class of that name. -/
def pyIsEnumInstance (v : PyValue) (d : EnumDef) : Bool :=
  match v with
  | .penum e _ => e = d.ename
  | _ => false

/-- The per-field type check inside `create_payload`'s loop. -/
def validate_field (pe : List (String × EnumDef)) (key : String) (fi : FieldInfo)
    (value : PyValue) : Except PErr Unit :=
  if fi.is_enum then
    match dlookup pe key with
    | none => .error (.enumClassNotFound key)
    | some d =>
        if pyIsEnumInstance value d then .ok ()
        else .error (.fieldTypeError key key (pyTypeName value))
  else
    match fi.ftype.bind type_mapping with
    | none => .error (.unknownDatatype fi.ftype key)
    | some t =>
        if pyIsInstance value t then .ok ()
        else .error (.fieldTypeError key (ptypeName t) (pyTypeName value))

/-- The field loop of `create_payload`: walk `payload_def` in order, fetch
the provided value under the stripped key, validate it, and append it to
the positional list. -/
def payload_loop (pe : List (String × EnumDef)) (fdefs : List (String × FieldInfo))
    (kwargs : List (String × PyValue)) :
    List FieldSpec → Except PErr (List PyValue)
  | [] => .ok []
  | f :: rest =>
      let key := stripPayloadEnumKey f.name
      match dlookup kwargs key with
      | none => .error (.keyError key)
      | some value =>
          match dlookup fdefs key with
          | none => .error (.keyError key)
          | some fi => do
              validate_field pe key fi value
              let tail ← payload_loop pe fdefs kwargs rest
              .ok (value :: tail)

/-- `ProtoRuntime.create_payload`: requires a loaded protocol, builds
`field_defs` keyed by stripped names, compares the provided key set with
the required key set (raising for missing keys first, then for extra
keys), then validates the fields in payload-definition order. -/
def create_payload (st : RuntimeState) (m : MsgEntry) (kwargs : List (String × PyValue)) :
    Except PErr (List PyValue) :=
  match st.MessageCategory, st.Messages, st.PayloadEnum with
  | some _, some _, some pe =>
      let fdefs := field_defs_of m.payload_def
      let required_keys : Finset String := (fdefs.map Prod.fst).toFinset
      let provided_keys : Finset String := (kwargs.map Prod.fst).toFinset
      if required_keys = provided_keys then
        payload_loop pe fdefs kwargs m.payload_def
      else
        let missing := required_keys \ provided_keys
        let extra := provided_keys \ required_keys
        if missing.Nonempty then .error (.missingFields missing)
        else if extra.Nonempty then .error (.extraFields extra)
        else payload_loop pe fdefs kwargs m.payload_def
  | _, _, _ => .error .runtimeNotLoaded

/-- `ProtoRuntime.messageid`: the wire triple of a message enum member,
read from the member's class attributes. -/
def messageid (st : RuntimeState) (m : MsgEntry) : Except PErr (Nat × Nat × Nat) :=
  match st.MessageCategory, st.Messages, st.PayloadEnum with
  | some _, some _, some _ => .ok (m.category_value, m.value_subcat, m.value)
  | _, _, _ => .error .runtimeNotLoaded

/-- `ProtoRuntime.get_message_enum`: resolve a numeric triple back to the
message enum member.  The source scans `dir(category_class)` (alphabetical)
for the subcategory with the matching `value_subcat`; since `value_subcat`
values are unique within a category, scanning in schema order is
observationally the same. -/
def get_message_enum (st : RuntimeState) (c s t : Int) : Except PErr MsgEntry :=
  match st.MessageCategory, st.Messages, st.PayloadEnum with
  | some mc, some cats, some _ =>
      match mc.find? (fun nv => ((nv.snd : Int) == c)) with
      | none => .error (.invalidCategory c)
      | some nv =>
          match cats.find? (fun ce => ce.name == nv.fst) with
          | none => .error (.keyError nv.fst)
          | some ce =>
              match ce.subs.find? (fun se => ((se.value_subcat : Int) == s)) with
              | none => .error (.noSubcategory s ce.name)
              | some se =>
                  match se.msgs.find? (fun me => ((me.value : Int) == t)) with
                  | none => .error (.noMessage t ce.name se.name)
                  | some me => .ok me
  | _, _, _ => .error .runtimeNotLoaded

/-! ### The msgpack wire model

`msgpack.packb` / `msgpack.unpackb` (external library, default options:
`use_bin_type=True`, `raw=False`, `use_list=True`) modelled at byte level
for the fragment of the format the library produces: ints (with the same
size-class selection and the `[-2^63, 2^64)` overflow limit as
msgpack-python), bools, float64 (carried as an opaque 64-bit pattern),
str (fixstr/str8/16/32 with UTF-8 payload), bin, and arrays.  Bytes are
`Nat`s below 256. -/

/-- The msgpack value domain used by the library (Python values as the
packer sees them; `IntEnum` members are packed through their `int`
superclass). -/
inductive MPVal where
  | mint (n : Int)
  | mbool (b : Bool)
  | mfloat (bits : Nat)
  | mstr (s : String)
  | mbin (bs : List Nat)
  | marr (xs : List MPVal)

/-- Big-endian bytes of the low `k` bytes of `n`. -/
def toBE : Nat → Nat → List Nat
  | 0, _ => []
  | k + 1, n => toBE k (n / 256) ++ [n % 256]

/-- Big-endian value of a byte list. -/
def fromBE (bs : List Nat) : Nat :=
  bs.foldl (fun a b => a * 256 + b) 0

/-- UTF-8 encoding of one scalar value (every `Char` is a valid scalar). -/
def utf8EncodeChar (c : Char) : List Nat :=
  let v := c.toNat
  if v < 128 then [v]
  else if v < 2048 then [192 + v / 64, 128 + v % 64]
  else if v < 65536 then [224 + v / 4096, 128 + v / 64 % 64, 128 + v % 64]
  else [240 + v / 262144, 128 + v / 4096 % 64, 128 + v / 64 % 64, 128 + v % 64]

/-- UTF-8 encoding of a string. -/
def utf8Encode (s : String) : List Nat :=
  (s.data.map utf8EncodeChar).flatten

/-- Is `b` a UTF-8 continuation byte? -/
def contByte (b : Nat) : Bool :=
  128 ≤ b && b < 192

/-- One code point of a strict UTF-8 stream (as Python
`bytes.decode("utf-8")`): given the lead byte and the remaining bytes,
the scalar value and the bytes after it; `none` on stray or missing
continuation bytes, overlong encodings, surrogates and out-of-range
values. -/
def utf8Step (b0 : Nat) (rest : List Nat) : Option (Nat × List Nat) :=
  if b0 < 128 then some (b0, rest)
  else if b0 < 192 then none
  else if b0 < 224 then
    match rest with
    | b1 :: rest1 =>
        if contByte b1 then
          if 128 ≤ (b0 - 192) * 64 + (b1 - 128) then
            some ((b0 - 192) * 64 + (b1 - 128), rest1)
          else none
        else none
    | [] => none
  else if b0 < 240 then
    match rest with
    | b1 :: b2 :: rest2 =>
        if contByte b1 && contByte b2 then
          if 2048 ≤ (b0 - 224) * 4096 + (b1 - 128) * 64 + (b2 - 128) ∧
              ((b0 - 224) * 4096 + (b1 - 128) * 64 + (b2 - 128) < 55296 ∨
                57344 ≤ (b0 - 224) * 4096 + (b1 - 128) * 64 + (b2 - 128)) then
            some ((b0 - 224) * 4096 + (b1 - 128) * 64 + (b2 - 128), rest2)
          else none
        else none
    | _ => none
  else if b0 < 248 then
    match rest with
    | b1 :: b2 :: b3 :: rest3 =>
        if contByte b1 && contByte b2 && contByte b3 then
          if 65536 ≤ (b0 - 240) * 262144 + (b1 - 128) * 4096 + (b2 - 128) * 64 + (b3 - 128) ∧
              (b0 - 240) * 262144 + (b1 - 128) * 4096 + (b2 - 128) * 64 + (b3 - 128)
                < 1114112 then
            some ((b0 - 240) * 262144 + (b1 - 128) * 4096 + (b2 - 128) * 64 + (b3 - 128),
              rest3)
          else none
        else none
    | _ => none
  else none

/-- A successful step consumes bytes only from the given remainder. -/
theorem utf8Step_length (b0 : Nat) (rest : List Nat) (v : Nat) (rest' : List Nat)
    (h : utf8Step b0 rest = some (v, rest')) : rest'.length ≤ rest.length := by
  unfold utf8Step at h
  split_ifs at h with h1 h2 h3 h4 h5
  · exact le_of_eq (congrArg List.length (congrArg Prod.snd (Option.some.inj h))).symm
  · cases rest with
    | nil => cases h
    | cons b1 rest1 =>
        dsimp only at h
        split_ifs at h
        have : rest1 = rest' := congrArg Prod.snd (Option.some.inj h)
        subst this
        simp
  · cases rest with
    | nil => cases h
    | cons b1 r =>
        cases r with
        | nil => cases h
        | cons b2 rest2 =>
            dsimp only at h
            split_ifs at h
            have : rest2 = rest' := congrArg Prod.snd (Option.some.inj h)
            subst this
            simp
            omega
  · cases rest with
    | nil => cases h
    | cons b1 r =>
        cases r with
        | nil => cases h
        | cons b2 r2 =>
            cases r2 with
            | nil => cases h
            | cons b3 rest3 =>
                dsimp only at h
                split_ifs at h
                have : rest3 = rest' := congrArg Prod.snd (Option.some.inj h)
                subst this
                simp
                omega

/-- Strict UTF-8 decoding of a whole byte string. -/
def utf8Decode (l : List Nat) : Option (List Char) :=
  match l with
  | [] => some []
  | b0 :: rest =>
    match hstep : utf8Step b0 rest with
    | some vr => (utf8Decode vr.snd).map (fun cs => Char.ofNat vr.fst :: cs)
    | none => none
termination_by l.length
decreasing_by
  simp only [List.length_cons]
  exact Nat.lt_succ_of_le (utf8Step_length b0 rest vr.fst vr.snd (by rw [hstep]))

/-- msgpack int packing with msgpack-python's size-class selection;
integers outside `[-2^63, 2^64)` raise `OverflowError`. -/
def packInt (n : Int) : Except PErr (List Nat) :=
  if -32 ≤ n ∧ n ≤ 127 then .ok [(n % 256).toNat]
  else if 0 ≤ n ∧ n ≤ 255 then .ok [204, n.toNat]
  else if 0 ≤ n ∧ n ≤ 65535 then .ok (205 :: toBE 2 n.toNat)
  else if 0 ≤ n ∧ n < 4294967296 then .ok (206 :: toBE 4 n.toNat)
  else if 0 ≤ n ∧ n < 18446744073709551616 then .ok (207 :: toBE 8 n.toNat)
  else if -128 ≤ n ∧ n < 0 then .ok [208, (n + 256).toNat]
  else if -32768 ≤ n ∧ n < 0 then .ok (209 :: toBE 2 (n + 65536).toNat)
  else if -2147483648 ≤ n ∧ n < 0 then .ok (210 :: toBE 4 (n + 4294967296).toNat)
  else if -9223372036854775808 ≤ n ∧ n < 0 then
    .ok (211 :: toBE 8 (n + 18446744073709551616).toNat)
  else .error .overflowError

mutual

/-- `msgpack.packb` on one value. -/
def packVal : MPVal → Except PErr (List Nat)
  | .mint n => packInt n
  | .mbool false => .ok [194]
  | .mbool true => .ok [195]
  | .mfloat bits => .ok (203 :: toBE 8 bits)
  | .mstr s =>
      let bs := utf8Encode s
      let L := bs.length
      if L < 32 then .ok ((160 + L) :: bs)
      else if L < 256 then .ok (217 :: L :: bs)
      else if L < 65536 then .ok (218 :: (toBE 2 L ++ bs))
      else if L < 4294967296 then .ok (219 :: (toBE 4 L ++ bs))
      else .error .overflowError
  | .mbin bs =>
      let L := bs.length
      if L < 256 then .ok (196 :: L :: bs)
      else if L < 65536 then .ok (197 :: (toBE 2 L ++ bs))
      else if L < 4294967296 then .ok (198 :: (toBE 4 L ++ bs))
      else .error .overflowError
  | .marr xs => do
      let L := xs.length
      let header ←
        if L < 16 then pure [144 + L]
        else if L < 65536 then pure (220 :: toBE 2 L)
        else if L < 4294967296 then pure (221 :: toBE 4 L)
        else .error .overflowError
      let body ← packList xs
      .ok (header ++ body)

/-- `msgpack.packb` on the elements of an array, concatenated. -/
def packList : List MPVal → Except PErr (List Nat)
  | [] => .ok []
  | x :: xs => do
      let b ← packVal x
      let bs ← packList xs
      .ok (b ++ bs)

end

/-- Split off `k` bytes, failing when the buffer is too short. -/
def readBytes (k : Nat) (bs : List Nat) : Except PErr (List Nat × List Nat) :=
  if bs.length < k then .error (.decodeError "out of data")
  else .ok (bs.take k, bs.drop k)

mutual

/-- One value of the msgpack stream.  `fuel` bounds the nesting depth;
`unpackb` supplies more fuel than any parseable buffer can need.  Format
cases the library never produces (nil, maps, ext, float32) are model
boundaries reported as decode errors. -/
def parseVal : Nat → List Nat → Except PErr (MPVal × List Nat)
  | 0, _ => .error (.decodeError "depth limit")
  | _ + 1, [] => .error (.decodeError "out of data")
  | fuel + 1, b :: bs =>
    if b < 128 then .ok (.mint b, bs)
    else if b < 144 then .error (.decodeError "map outside modeled fragment")
    else if b < 160 then do
      let vr ← parseMany fuel (b - 144) bs
      .ok (.marr vr.fst, vr.snd)
    else if b < 192 then do
      let cr ← readBytes (b - 160) bs
      match utf8Decode cr.fst with
      | some cs => .ok (.mstr ⟨cs⟩, cr.snd)
      | none => .error (.decodeError "invalid utf-8")
    else if b = 194 then .ok (.mbool false, bs)
    else if b = 195 then .ok (.mbool true, bs)
    else if b = 196 then do
      let lr ← readBytes 1 bs
      let cr ← readBytes (fromBE lr.fst) lr.snd
      .ok (.mbin cr.fst, cr.snd)
    else if b = 197 then do
      let lr ← readBytes 2 bs
      let cr ← readBytes (fromBE lr.fst) lr.snd
      .ok (.mbin cr.fst, cr.snd)
    else if b = 198 then do
      let lr ← readBytes 4 bs
      let cr ← readBytes (fromBE lr.fst) lr.snd
      .ok (.mbin cr.fst, cr.snd)
    else if b = 203 then do
      let cr ← readBytes 8 bs
      .ok (.mfloat (fromBE cr.fst), cr.snd)
    else if b = 204 then do
      let cr ← readBytes 1 bs
      .ok (.mint (fromBE cr.fst), cr.snd)
    else if b = 205 then do
      let cr ← readBytes 2 bs
      .ok (.mint (fromBE cr.fst), cr.snd)
    else if b = 206 then do
      let cr ← readBytes 4 bs
      .ok (.mint (fromBE cr.fst), cr.snd)
    else if b = 207 then do
      let cr ← readBytes 8 bs
      .ok (.mint (fromBE cr.fst), cr.snd)
    else if b = 208 then do
      let cr ← readBytes 1 bs
      let v := fromBE cr.fst
      .ok (.mint (if v < 128 then (v : Int) else (v : Int) - 256), cr.snd)
    else if b = 209 then do
      let cr ← readBytes 2 bs
      let v := fromBE cr.fst
      .ok (.mint (if v < 32768 then (v : Int) else (v : Int) - 65536), cr.snd)
    else if b = 210 then do
      let cr ← readBytes 4 bs
      let v := fromBE cr.fst
      .ok (.mint (if v < 2147483648 then (v : Int) else (v : Int) - 4294967296), cr.snd)
    else if b = 211 then do
      let cr ← readBytes 8 bs
      let v := fromBE cr.fst
      .ok (.mint (if v < 9223372036854775808 then (v : Int)
                  else (v : Int) - 18446744073709551616), cr.snd)
    else if b = 217 then do
      let lr ← readBytes 1 bs
      let cr ← readBytes (fromBE lr.fst) lr.snd
      match utf8Decode cr.fst with
      | some cs => .ok (.mstr ⟨cs⟩, cr.snd)
      | none => .error (.decodeError "invalid utf-8")
    else if b = 218 then do
      let lr ← readBytes 2 bs
      let cr ← readBytes (fromBE lr.fst) lr.snd
      match utf8Decode cr.fst with
      | some cs => .ok (.mstr ⟨cs⟩, cr.snd)
      | none => .error (.decodeError "invalid utf-8")
    else if b = 219 then do
      let lr ← readBytes 4 bs
      let cr ← readBytes (fromBE lr.fst) lr.snd
      match utf8Decode cr.fst with
      | some cs => .ok (.mstr ⟨cs⟩, cr.snd)
      | none => .error (.decodeError "invalid utf-8")
    else if b = 220 then do
      let lr ← readBytes 2 bs
      let vr ← parseMany fuel (fromBE lr.fst) lr.snd
      .ok (.marr vr.fst, vr.snd)
    else if b = 221 then do
      let lr ← readBytes 4 bs
      let vr ← parseMany fuel (fromBE lr.fst) lr.snd
      .ok (.marr vr.fst, vr.snd)
    else if 224 ≤ b then .ok (.mint ((b : Int) - 256), bs)
    else .error (.decodeError "tag outside modeled fragment")
termination_by fuel _ => (fuel, 0)

/-- `n` consecutive values of the msgpack stream. -/
def parseMany : Nat → Nat → List Nat → Except PErr (List MPVal × List Nat)
  | _, 0, bs => .ok ([], bs)
  | fuel, n + 1, bs => do
      let vr ← parseVal fuel bs
      let wr ← parseMany fuel n vr.snd
      .ok (vr.fst :: wr.fst, wr.snd)
termination_by fuel n _ => (fuel, n + 1)

end

/-- `msgpack.unpackb`: parse one value and reject trailing bytes
(`ExtraData`). -/
def unpackb (data : List Nat) : Except PErr MPVal := do
  let vr ← parseVal (data.length + 1) data
  if vr.snd = [] then .ok vr.fst else .error (.decodeError "extra data")

/-- How the msgpack packer sees a Python payload value: enum members pass
through their `int` superclass, so only the code reaches the wire. -/
def pyToMP : PyValue → MPVal
  | .pint n => .mint n
  | .pbool b => .mbool b
  | .pfloat bits => .mfloat bits
  | .pstr s => .mstr s
  | .pbytes bs => .mbin bs
  | .penum _ c => .mint c

/-- `ProtoRuntime.encode_message`: `msgpack.packb([category, subcategory,
msgtype, payload])`. -/
def encode_message (st : RuntimeState) (m : MsgEntry) (payload : List PyValue) :
    Except PErr (List Nat) := do
  let ids ← messageid st m
  packVal (.marr [.mint ids.1, .mint ids.2.1, .mint ids.2.2,
                  .marr (payload.map pyToMP)])

/-- A decoded wire value handed back as a Python value.  Nested arrays
never arise from this library's encoder and fall outside the modelled
payload value domain. -/
def mpToPy : MPVal → Except PErr PyValue
  | .mint n => .ok (.pint n)
  | .mbool b => .ok (.pbool b)
  | .mfloat bits => .ok (.pfloat bits)
  | .mstr s => .ok (.pstr s)
  | .mbin bs => .ok (.pbytes bs)
  | .marr _ => .error (.decodeError "nested array outside modeled fragment")

/-- The per-field conversion of `decode_message`: an enum field converts
the integer code back to the member of the enum registered under the
stripped key (unknown codes raise `ValueError`), a string field UTF-8
decodes raw bytes, everything else passes through. -/
def decode_field_value (pe : List (String × EnumDef)) (f : FieldSpec) (w : MPVal) :
    Except PErr PyValue :=
  let key := stripPayloadEnumKey f.name
  if f.datatype == some "enum" then
    match dlookup pe key with
    | none => .error (.enumClassNotFound key)
    | some d =>
        match w with
        | .mint n =>
            if (d.members.map Prod.snd).contains n then .ok (.penum d.ename n)
            else .error (.enumCodeInvalid key n)
        | _ => .error (.decodeError "enum code outside modeled fragment")
  else if f.datatype == some "string" then
    match w with
    | .mbin bs =>
        match utf8Decode bs with
        | some cs => .ok (.pstr ⟨cs⟩)
        | none => .error (.decodeError "invalid utf-8")
    | _ => mpToPy w
  else mpToPy w

/-- The field conversion loop of `decode_message`: walk `payload_def` and
the decoded positional values pairwise, building the name-keyed dict with
stripped keys. -/
def decode_fields (pe : List (String × EnumDef)) :
    List FieldSpec → List MPVal → List (String × PyValue) →
    Except PErr (List (String × PyValue))
  | [], _, acc => .ok acc
  | _ :: _, [], acc => .ok acc
  | f :: fs, w :: ws, acc => do
      let value ← decode_field_value pe f w
      decode_fields pe fs ws (dinsert acc (stripPayloadEnumKey f.name) value)

/-- The frame destructuring of `decode_message`: `category, subcategory,
msgtype, payload_list = msgpack.unpackb(data)` — anything but a 4-element
sequence raises; the three ids must be the wire integers for the catalog
lookups that follow. -/
def decode_frame : MPVal → Except PErr (Int × Int × Int × List MPVal)
  | .marr [.mint c, .mint s, .mint t, .marr payload_list] => .ok (c, s, t, payload_list)
  | _ => .error (.decodeError "frame is not a 4-element sequence of ids and payload")

/-- `ProtoRuntime.decode_message`: unpack the 4-element frame, resolve the
triple to a message enum member, check the payload arity, then convert the
positional values into the name-keyed dict. -/
def decode_message (st : RuntimeState) (data : List Nat) :
    Except PErr (MsgEntry × List (String × PyValue)) :=
  match st.MessageCategory, st.Messages, st.PayloadEnum with
  | some _, some _, some pe => do
      let v ← unpackb data
      let fr ← decode_frame v
      let em ← get_message_enum st fr.1 fr.2.1 fr.2.2.1
      if em.payload_def.length ≠ fr.2.2.2.length then
        .error (.payloadLength fr.2.2.2.length em.payload_def.length)
      else
        let d ← decode_fields pe em.payload_def fr.2.2.2 []
        .ok (em, d)
  | _, _, _ => .error .runtimeNotLoaded

/-! ### Derived catalog views and specification predicates -/

/-- All message enum members of a built catalog. -/
def allMsgs (cats : List CatEntry) : List MsgEntry :=
  cats.flatMap (fun ce => ce.subs.flatMap (fun se => se.msgs))

/-- The wire triple of a message enum member. -/
def tripleOf (me : MsgEntry) : Nat × Nat × Nat :=
  (me.category_value, me.value_subcat, me.value)

/-- The dotted path of a message enum member, as `message_str_from_id`
renders it: `f"{category_name}.{subcategory_name}.{message_name}"`. -/
def pathOf (me : MsgEntry) : String :=
  me.category_name ++ "." ++ me.subcategory_name ++ "." ++ me.name

/-- The wire triples assigned to the catalog's messages. -/
def catalogTriples (cats : List CatEntry) : List (Nat × Nat × Nat) :=
  (allMsgs cats).map tripleOf

/-- The dotted paths of the catalog's messages. -/
def catalogPaths (cats : List CatEntry) : List String :=
  (allMsgs cats).map pathOf

/-- The messages of a runtime state (empty when not loaded). -/
def msgsOfState (st : RuntimeState) : List MsgEntry :=
  match st.Messages with
  | some cats => allMsgs cats
  | none => []

/-- The payload enums of a runtime state (empty when not loaded). -/
def peOfState (st : RuntimeState) : List (String × EnumDef) :=
  match st.PayloadEnum with
  | some pe => pe
  | none => []

/-- Keys are unique at every level of the message tree — automatically true
of the Python dicts this association list models. -/
def keysNodupB (messages : List (String × CatVal)) : Bool :=
  decide (messages.map Prod.fst).Nodup &&
  messages.all (fun p =>
    match p.snd with
    | .cnotdict => true
    | .cmap subs =>
        decide (subs.map Prod.fst).Nodup &&
        subs.all (fun q =>
          match q.snd with
          | .snotdict => true
          | .smap ms => decide (ms.map Prod.fst).Nodup))

/-- The shape check `_build_messages` applies to a message's value: it must
be a list (contents, in particular datatype strings, are not inspected). -/
def msgValOkB : MsgVal → Bool
  | .mnotlist => false
  | .mlist _ => true

/-- The shape check applied to a subcategory's value: a non-empty dict of
messages, each mapping to a list. -/
def subcatValOkB : SubcatVal → Bool
  | .snotdict => false
  | .smap ms => !ms.isEmpty && ms.all (fun r => msgValOkB r.snd)

/-- The shape check applied to a category's value: a dict of subcategories
(emptiness is NOT checked at this level). -/
def catValOkB : CatVal → Bool
  | .cnotdict => false
  | .cmap subs => subs.all (fun q => subcatValOkB q.snd)

/-- The check `_build_payload_enum` applies to one enum table entry: some
member remains after dropping underscore-prefixed keys. -/
def enumEntryOkB (p : String × List (String × Int)) : Bool :=
  !(p.snd.filter notUnderscoreB).isEmpty

/-- The structural conditions `load` actually checks: a non-empty messages
dict, every enum non-empty after filtering, every category a dict, every
subcategory a non-empty dict, every message a list.  Note it does NOT
require category dicts to be non-empty, does not look at datatype strings,
and does not resolve enum fields. -/
def structOkB (spec : ProtoSpec) : Bool :=
  !spec.messages.isEmpty &&
  spec.enums.all enumEntryOkB &&
  spec.messages.all (fun p => catValOkB p.snd)

/-- No category or subcategory name contains a dot (exactly what is needed
for the three components of a dotted path to be recoverable). -/
def noDotNamesB (messages : List (String × CatVal)) : Bool :=
  messages.all (fun p =>
    !p.fst.data.contains '.' &&
    match p.snd with
    | .cnotdict => true
    | .cmap subs => subs.all (fun q => !q.fst.data.contains '.'))

/-- A provided value satisfies the field's declared type in the strict
sense of the specification's data model: exactly the declared primitive
kind, or a member (with a valid code) of the enum registered under the
field's stripped name. -/
def strictFieldOkB (pe : List (String × EnumDef)) (f : FieldSpec) (v : PyValue) : Bool :=
  match f.datatype, v with
  | some "int", .pint _ => true
  | some "float", .pfloat _ => true
  | some "bool", .pbool _ => true
  | some "bytes", .pbytes _ => true
  | some "string", .pstr _ => true
  | some "enum", .penum e c =>
      (match dlookup pe (stripPayloadEnumKey f.name) with
       | some ed => e == ed.ename && (ed.members.map Prod.snd).contains c
       | none => false)
  | _, _ => false

/-- The value is representable on the msgpack wire: integers (including
enum codes) within `[-2^63, 2^64)`, float bit patterns within 64 bits,
byte strings of genuine bytes with a 32-bit length, text whose UTF-8 form
has a 32-bit length. -/
def representableB : PyValue → Bool
  | .pint n => decide (-9223372036854775808 ≤ n ∧ n < 18446744073709551616)
  | .penum _ c => decide (-9223372036854775808 ≤ c ∧ c < 18446744073709551616)
  | .pfloat bits => decide (bits < 18446744073709551616)
  | .pbytes bs => decide (bs.length < 4294967296) && bs.all (fun b => decide (b < 256))
  | .pstr s => decide ((utf8Encode s).length < 4294967296)
  | .pbool _ => true

/-- Scalar (non-array) msgpack values. -/
def MPVal.isScalar : MPVal → Bool
  | .marr _ => false
  | _ => true

/-- Well-formed wire value: float bit patterns fit in 64 bits (all other
scalars carry their own information losslessly). -/
def MPVal.wfB : MPVal → Bool
  | .mfloat bits => decide (bits < 18446744073709551616)
  | _ => true

/-! ### Lemmas: dictionaries -/

theorem dlookup_dinsert {α : Type} (d : List (String × α)) (k k' : String) (v : α) :
    dlookup (dinsert d k v) k' = if k = k' then some v else dlookup d k' := by
  induction d with
  | nil => simp [dinsert, dlookup]
  | cons hd tl ih =>
      obtain ⟨k0, v0⟩ := hd
      by_cases h0 : k0 = k
      · subst h0
        simp only [dinsert, if_pos rfl, dlookup]
        by_cases h1 : k0 = k' <;> simp [h1]
      · simp only [dinsert, if_neg h0, dlookup]
        by_cases h1 : k0 = k'
        · subst h1
          have : ¬ k = k0 := fun h => h0 h.symm
          simp [this]
        · simp [h1, ih]

theorem dlookup_mem_keys {α : Type} (d : List (String × α)) (k : String) (v : α)
    (h : dlookup d k = some v) : k ∈ d.map Prod.fst := by
  induction d with
  | nil => simp [dlookup] at h
  | cons hd tl ih =>
      obtain ⟨k0, v0⟩ := hd
      by_cases h0 : k0 = k
      · subst h0; simp
      · simp only [dlookup, if_neg h0] at h
        simpa using Or.inr (ih h)

theorem mem_keys_dlookup {α : Type} (d : List (String × α)) (k : String)
    (h : k ∈ d.map Prod.fst) : ∃ v, dlookup d k = some v := by
  induction d with
  | nil => simp at h
  | cons hd tl ih =>
      obtain ⟨k0, v0⟩ := hd
      by_cases h0 : k0 = k
      · subst h0; exact ⟨v0, by simp [dlookup]⟩
      · simp only [List.map_cons, List.mem_cons] at h
        rcases h with h | h
        · exact absurd h.symm h0
        · obtain ⟨v, hv⟩ := ih h
          exact ⟨v, by simp [dlookup, h0, hv]⟩

theorem dinsert_keys_toFinset {α : Type} (d : List (String × α)) (k : String) (v : α) :
    ((dinsert d k v).map Prod.fst).toFinset = insert k (d.map Prod.fst).toFinset := by
  induction d with
  | nil => simp [dinsert]
  | cons hd tl ih =>
      obtain ⟨k0, v0⟩ := hd
      by_cases h0 : k0 = k
      · subst h0; simp [dinsert]
      · simp only [dinsert, if_neg h0, List.map_cons, List.toFinset_cons, ih]
        exact Finset.Insert.comm k0 k _

/-- The keys of `field_defs` are exactly the stripped field names. -/
theorem field_defs_keys (pd : List FieldSpec) :
    ((field_defs_of pd).map Prod.fst).toFinset =
      (pd.map (fun f => stripPayloadEnumKey f.name)).toFinset := by
  have main : ∀ (l : List FieldSpec) (acc : List (String × FieldInfo)),
      ((l.foldl (fun acc f =>
          dinsert acc (stripPayloadEnumKey f.name) ⟨f.datatype, f.datatype == some "enum"⟩) acc).map
        Prod.fst).toFinset =
        (acc.map Prod.fst).toFinset ∪ (l.map (fun f => stripPayloadEnumKey f.name)).toFinset := by
    intro l
    induction l with
    | nil => intro acc; simp
    | cons f tl ih =>
        intro acc
        simp only [List.foldl_cons, ih, dinsert_keys_toFinset, List.map_cons,
          List.toFinset_cons]
        ext x
        simp only [Finset.mem_union, Finset.mem_insert]
        tauto
  simpa using main pd []

/-- A `field_defs` entry comes from some field with that stripped name. -/
theorem field_defs_entry (pd : List FieldSpec) (k : String) (fi : FieldInfo)
    (h : dlookup (field_defs_of pd) k = some fi) :
    ∃ f ∈ pd, stripPayloadEnumKey f.name = k ∧
      fi = ⟨f.datatype, f.datatype == some "enum"⟩ := by
  have main : ∀ (l : List FieldSpec) (acc : List (String × FieldInfo)),
      dlookup (l.foldl (fun acc f =>
          dinsert acc (stripPayloadEnumKey f.name) ⟨f.datatype, f.datatype == some "enum"⟩) acc) k
        = some fi →
      (∃ f ∈ l, stripPayloadEnumKey f.name = k ∧
        fi = ⟨f.datatype, f.datatype == some "enum"⟩) ∨ dlookup acc k = some fi := by
    intro l
    induction l with
    | nil => intro acc h; exact Or.inr h
    | cons f tl ih =>
        intro acc h
        simp only [List.foldl_cons] at h
        rcases ih _ h with hc | hacc
        · obtain ⟨g, hg, hk, hfi⟩ := hc
          exact Or.inl ⟨g, List.mem_cons_of_mem _ hg, hk, hfi⟩
        · rw [dlookup_dinsert] at hacc
          by_cases hk : stripPayloadEnumKey f.name = k
          · simp only [if_pos hk] at hacc
            exact Or.inl ⟨f, List.mem_cons_self _ _, hk, (Option.some_inj.mp hacc).symm⟩
          · simp only [if_neg hk] at hacc
            exact Or.inr hacc
  rcases main pd [] h with hc | hacc
  · exact hc
  · simp [dlookup] at hacc

/-! ### Lemmas: catalog construction -/

theorem except_ok_exists_iff {α : Type} (e : Except PErr α) :
    (∃ x, e = .ok x) ↔ e.isOk = true := by
  cases e <;> simp [Except.isOk, Except.toBool]

theorem isOk_bind {α β : Type} (x : Except PErr α) (f : α → Except PErr β) :
    (x >>= f).isOk =
      (match x with | .ok a => (f a).isOk | .error _ => false) := by
  cases x <;> rfl

theorem buildMsgEntries_isOk (cat : String) (cv : Nat) (sub : String) (sv : Nat)
    (l : List (String × MsgVal)) (i : Nat) :
    (buildMsgEntries cat cv sub sv l i).isOk = l.all (fun r => msgValOkB r.snd) := by
  induction l generalizing i with
  | nil => rfl
  | cons hd tl ih =>
      obtain ⟨mn, mv⟩ := hd
      cases mv with
      | mnotlist => simp [buildMsgEntries, Except.isOk, Except.toBool, msgValOkB]
      | mlist fs =>
          simp only [buildMsgEntries, isOk_bind]
          rw [List.all_cons]
          rw [show msgValOkB (mn, MsgVal.mlist fs).snd = true from rfl, Bool.true_and,
            ← ih (i + 1)]
          cases h : buildMsgEntries cat cv sub sv tl (i + 1) <;>
            simp [Except.isOk, Except.toBool]

theorem buildSubEntries_isOk (cat : String) (cv : Nat)
    (l : List (String × SubcatVal)) (i : Nat) :
    (buildSubEntries cat cv l i).isOk = l.all (fun q => subcatValOkB q.snd) := by
  induction l generalizing i with
  | nil => rfl
  | cons hd tl ih =>
      obtain ⟨sn, sv'⟩ := hd
      cases sv' with
      | snotdict => simp [buildSubEntries, Except.isOk, Except.toBool, subcatValOkB]
      | smap ms =>
          rw [List.all_cons]
          rw [show subcatValOkB (sn, SubcatVal.smap ms).snd =
            (!ms.isEmpty && ms.all (fun r => msgValOkB r.snd)) from rfl]
          by_cases hms : ms = []
          · subst hms
            simp [buildSubEntries, Except.isOk, Except.toBool]
          · simp only [buildSubEntries, if_neg hms, isOk_bind]
            have hne : (!ms.isEmpty) = true := by
              simp [List.isEmpty_iff, hms]
            rw [hne, Bool.true_and]
            rw [← buildMsgEntries_isOk cat cv sn i ms 1, ← ih (i + 1)]
            cases h1 : buildMsgEntries cat cv sn i ms 1 with
            | error e => simp [Except.isOk, Except.toBool]
            | ok x =>
                cases h2 : buildSubEntries cat cv tl (i + 1) <;>
                  simp [Except.isOk, Except.toBool, isOk_bind]

theorem buildCatEntries_isOk (l : List (String × CatVal)) (i : Nat) :
    (buildCatEntries l i).isOk = l.all (fun p => catValOkB p.snd) := by
  induction l generalizing i with
  | nil => rfl
  | cons hd tl ih =>
      obtain ⟨cn, cv'⟩ := hd
      cases cv' with
      | cnotdict => simp [buildCatEntries, Except.isOk, Except.toBool, catValOkB]
      | cmap subs =>
          rw [List.all_cons]
          rw [show catValOkB (cn, CatVal.cmap subs).snd =
            subs.all (fun q => subcatValOkB q.snd) from rfl]
          simp only [buildCatEntries, isOk_bind]
          rw [← buildSubEntries_isOk cn i subs 1, ← ih (i + 1)]
          cases h1 : buildSubEntries cn i subs 1 with
          | error e => simp [Except.isOk, Except.toBool]
          | ok x =>
              cases h2 : buildCatEntries tl (i + 1) <;>
                simp [Except.isOk, Except.toBool, isOk_bind]

theorem build_payload_enum_isOk (l : List (String × List (String × Int))) :
    (_build_payload_enum l).isOk = l.all enumEntryOkB := by
  induction l with
  | nil => rfl
  | cons hd tl ih =>
      obtain ⟨n, mems⟩ := hd
      rw [List.all_cons]
      rw [show enumEntryOkB (n, mems) =
        !(mems.filter notUnderscoreB).isEmpty from rfl]
      by_cases hm : mems.filter notUnderscoreB = []
      · simp [_build_payload_enum, buildEnumDef, hm, Except.isOk, Except.toBool,
          List.isEmpty_iff, Bind.bind, Except.bind]
      · simp only [_build_payload_enum, buildEnumDef, if_neg hm, isOk_bind]
        have hne : (!(mems.filter notUnderscoreB).isEmpty) = true := by
          simp [List.isEmpty_iff, hm]
        rw [hne, Bool.true_and, ← ih]
        cases ht : _build_payload_enum tl <;>
          simp [Except.isOk, Except.toBool, isOk_bind]

/-- `load` succeeds exactly on the structurally acceptable specs: the
emptiness, dict-shape and list-shape checks — nothing about datatype
strings or enum-field resolution. -/
theorem load_ok_iff_structOk (st : RuntimeState) (spec : ProtoSpec) :
    (load st spec).snd = .ok () ↔ structOkB spec = true := by
  have hok : ∀ e : Except PErr Unit, e = .ok () ↔ e.isOk = true := by
    intro e
    cases e with
    | ok u => cases u; simp [Except.isOk, Except.toBool]
    | error e' => simp [Except.isOk, Except.toBool]
  rw [hok]
  unfold load structOkB
  by_cases hm : spec.messages = []
  · simp [hm, Except.isOk, Except.toBool]
  · have hne : (!spec.messages.isEmpty) = true := by
      simp [List.isEmpty_iff, hm]
    rw [hne, Bool.true_and]
    cases he : _build_payload_enum spec.enums with
    | error e =>
        have h1 := build_payload_enum_isOk spec.enums
        rw [he] at h1
        simp only [if_neg hm, he]
        simp [Except.isOk, Except.toBool, ← h1]
    | ok pe =>
        have h1 := build_payload_enum_isOk spec.enums
        rw [he] at h1
        simp only [if_neg hm, he]
        have h1' : spec.enums.all enumEntryOkB = true := by
          rw [← h1]; rfl
        rw [h1', Bool.true_and]
        have h2 := buildCatEntries_isOk spec.messages 1
        cases hb : buildCatEntries spec.messages 1 with
        | error e =>
            rw [hb] at h2
            unfold _build_messages
            rw [hb]
            simp [Except.isOk, Except.toBool, Bind.bind, Except.bind, ← h2]
        | ok cats =>
            rw [hb] at h2
            unfold _build_messages
            rw [hb]
            simp [Except.isOk, Except.toBool, Bind.bind, Except.bind, ← h2]

theorem buildMsgEntries_error_schema (cat : String) (cv : Nat) (sub : String) (sv : Nat) :
    ∀ (l : List (String × MsgVal)) (i : Nat) (e : PErr),
      buildMsgEntries cat cv sub sv l i = .error e → ∃ s, e = .schemaError s := by
  intro l
  induction l with
  | nil => intro i e h; simp [buildMsgEntries] at h
  | cons hd tl ih =>
      intro i e h
      obtain ⟨mn, mv⟩ := hd
      cases mv with
      | mnotlist =>
          simp only [buildMsgEntries] at h
          exact ⟨_, (Except.error.inj h).symm⟩
      | mlist fs =>
          simp only [buildMsgEntries] at h
          cases hmt : buildMsgEntries cat cv sub sv tl (i + 1) with
          | error e4 =>
              simp only [hmt, Bind.bind, Except.bind] at h
              exact (Except.error.inj h) ▸ ih _ _ hmt
          | ok x => simp [hmt, Bind.bind, Except.bind] at h

theorem buildSubEntries_error_schema (cat : String) (cv : Nat) :
    ∀ (l : List (String × SubcatVal)) (i : Nat) (e : PErr),
      buildSubEntries cat cv l i = .error e → ∃ s, e = .schemaError s := by
  intro l
  induction l with
  | nil => intro i e h; simp [buildSubEntries] at h
  | cons hd tl ih =>
      intro i e h
      obtain ⟨sn, sv'⟩ := hd
      cases sv' with
      | snotdict =>
          simp only [buildSubEntries] at h
          exact ⟨_, (Except.error.inj h).symm⟩
      | smap ms =>
          by_cases hms : ms = []
          · simp only [buildSubEntries, hms, if_pos rfl] at h
            exact ⟨_, (Except.error.inj h).symm⟩
          · simp only [buildSubEntries, if_neg hms] at h
            cases hmm : buildMsgEntries cat cv sn i ms 1 with
            | error e3 =>
                simp only [hmm, Bind.bind, Except.bind] at h
                exact (Except.error.inj h) ▸ buildMsgEntries_error_schema cat cv sn i ms 1 _ hmm
            | ok x =>
                simp only [hmm, Bind.bind, Except.bind] at h
                cases hst : buildSubEntries cat cv tl (i + 1) with
                | error e4 =>
                    simp only [hst, Bind.bind, Except.bind] at h
                    exact (Except.error.inj h) ▸ ih _ _ hst
                | ok y => simp [hst, Bind.bind, Except.bind] at h

theorem buildCatEntries_error_schema :
    ∀ (l : List (String × CatVal)) (i : Nat) (e : PErr),
      buildCatEntries l i = .error e → ∃ s, e = .schemaError s := by
  intro l
  induction l with
  | nil => intro i e h; simp [buildCatEntries] at h
  | cons hd tl ih =>
      intro i e h
      obtain ⟨cn, cv'⟩ := hd
      cases cv' with
      | cnotdict =>
          simp only [buildCatEntries] at h
          exact ⟨_, (Except.error.inj h).symm⟩
      | cmap subs =>
          simp only [buildCatEntries] at h
          cases hs : buildSubEntries cn i subs 1 with
          | error e2 =>
              simp only [hs, Bind.bind, Except.bind] at h
              exact (Except.error.inj h) ▸ buildSubEntries_error_schema cn i subs 1 _ hs
          | ok x =>
              simp only [hs, Bind.bind, Except.bind] at h
              cases hct : buildCatEntries tl (i + 1) with
              | error e2 =>
                  simp only [hct, Bind.bind, Except.bind] at h
                  exact (Except.error.inj h) ▸ ih _ _ hct
              | ok z => simp [hct, Bind.bind, Except.bind] at h

theorem build_payload_enum_error_schema :
    ∀ (l : List (String × List (String × Int))) (e : PErr),
      _build_payload_enum l = .error e → ∃ s, e = .schemaError s := by
  intro l
  induction l with
  | nil => intro e h; simp [_build_payload_enum] at h
  | cons hd tl ih =>
      intro e h
      obtain ⟨n, mems⟩ := hd
      by_cases hf : mems.filter notUnderscoreB = []
      · simp only [_build_payload_enum, buildEnumDef, hf, if_pos rfl, Bind.bind,
          Except.bind] at h
        exact ⟨_, (Except.error.inj h).symm⟩
      · simp only [_build_payload_enum, buildEnumDef, if_neg hf, Bind.bind, Except.bind] at h
        cases ht : _build_payload_enum tl with
        | error e2 =>
            simp only [ht, Bind.bind, Except.bind] at h
            exact (Except.error.inj h) ▸ ih _ ht
        | ok y => simp [ht, Bind.bind, Except.bind] at h

/-- Every `load` failure is a `ValueError` of the schema kind. -/
theorem load_error_schemaError (st : RuntimeState) (spec : ProtoSpec) (e : PErr)
    (h : (load st spec).snd = .error e) : ∃ s, e = .schemaError s := by
  by_cases hm : spec.messages = []
  · simp only [load, hm, if_pos rfl] at h
    exact ⟨_, ((Except.error.inj h)).symm⟩
  · cases he : _build_payload_enum spec.enums with
    | error e' =>
        simp only [load, if_neg hm, he] at h
        exact (Except.error.inj h) ▸ build_payload_enum_error_schema spec.enums _ he
    | ok pe =>
        cases hb : _build_messages spec.messages with
        | error e' =>
            simp only [load, if_neg hm, he, hb] at h
            have he' : e' = e := Except.error.inj h
            subst he'
            unfold _build_messages at hb
            cases hc : buildCatEntries spec.messages 1 with
            | ok cats => simp [hc, Bind.bind, Except.bind] at hb
            | error e2 =>
                simp only [hc, Bind.bind, Except.bind] at hb
                exact (Except.error.inj hb) ▸ buildCatEntries_error_schema spec.messages 1 _ hc
        | ok mcats => simp [load, if_neg hm, he, hb] at h

/-- After a failed `load`, the state is either untouched (failure before
the `PayloadEnum` assignment) or has exactly `PayloadEnum` replaced by the
failed attempt's enums (failure inside `_build_messages`). -/
theorem load_error_state (st : RuntimeState) (spec : ProtoSpec) (e : PErr)
    (h : (load st spec).snd = .error e) :
    (load st spec).fst = st ∨
      ∃ pe, _build_payload_enum spec.enums = .ok pe ∧
        (load st spec).fst = { st with PayloadEnum := some pe } := by
  by_cases hm : spec.messages = []
  · left; simp [load, hm]
  · cases he : _build_payload_enum spec.enums with
    | error e' => left; simp [load, if_neg hm, he]
    | ok pe =>
        cases hb : _build_messages spec.messages with
        | error e2 =>
            right
            exact ⟨pe, rfl, by simp [load, if_neg hm, he, hb]⟩
        | ok mcats =>
            exfalso
            simp [load, if_neg hm, he, hb] at h

/-- On a successful `load`, the resulting state is fully determined by the
spec: messages from `buildCatEntries`, enums from `_build_payload_enum`. -/
theorem load_ok_state (st : RuntimeState) (spec : ProtoSpec)
    (h : (load st spec).snd = .ok ()) :
    ∃ pe cats,
      _build_payload_enum spec.enums = .ok pe ∧
      buildCatEntries spec.messages 1 = .ok cats ∧
      (load st spec).fst =
        { MessageCategory := some (cats.map (fun c => (c.name, c.value_cat)))
          Messages := some cats
          PayloadEnum := some pe
          PROTOCOL_NAME := spec.PROTOCOL_NAME
          PROTOCOL_VERSION := spec.PROTOCOL_VERSION } := by
  by_cases hm : spec.messages = []
  · simp [load, hm] at h
  · cases he : _build_payload_enum spec.enums with
    | error e' => simp [load, if_neg hm, he] at h
    | ok pe =>
        cases hb : buildCatEntries spec.messages 1 with
        | error e2 =>
            simp [load, if_neg hm, he, _build_messages, hb, Bind.bind, Except.bind] at h
        | ok cats =>
            refine ⟨pe, cats, rfl, rfl, ?_⟩
            simp [load, if_neg hm, he, _build_messages, hb, Bind.bind, Except.bind]

/-! ### Lemmas: payload construction -/

/-- `create_payload` on a loaded state and a single-field message reduces
to the field's type check. -/
theorem create_payload_single (st : RuntimeState) (mc : List (String × Nat))
    (msgs : List CatEntry) (pe : List (String × EnumDef))
    (hmc : st.MessageCategory = some mc) (hms : st.Messages = some msgs)
    (hpe : st.PayloadEnum = some pe) (m : MsgEntry) (nm : String) (dt : Option String)
    (v : PyValue) (hpd : m.payload_def = [⟨nm, dt⟩]) :
    create_payload st m [(stripPayloadEnumKey nm, v)] =
      (validate_field pe (stripPayloadEnumKey nm) ⟨dt, dt == some "enum"⟩ v).bind
        (fun _ => .ok [v]) := by
  cases hv : validate_field pe (stripPayloadEnumKey nm) ⟨dt, dt == some "enum"⟩ v with
  | error e =>
      simp [create_payload, hmc, hms, hpe, hpd, field_defs_of, dinsert, payload_loop,
        dlookup, hv, Bind.bind, Except.bind]
  | ok u =>
      cases u
      simp [create_payload, hmc, hms, hpe, hpd, field_defs_of, dinsert, payload_loop,
        dlookup, hv, Bind.bind, Except.bind]

/-! ### Claim theorems -/

/-- C3 counterexample: in the catalog built from a schema with a single
`int` field, supplying the boolean `True` for that field is accepted by
`create_payload` (Python's `bool` is a subclass of `int`), not rejected
with a `FieldTypeError` as the claim states. -/
theorem claim_C3_counterexample :
    (load initialState
        ⟨none, none, [], [("C", .cmap [("S", .smap [("M", .mlist [⟨"x", some "int"⟩])])])]⟩).snd
      = .ok () ∧
    msgsOfState (load initialState
        ⟨none, none, [], [("C", .cmap [("S", .smap [("M", .mlist [⟨"x", some "int"⟩])])])]⟩).fst
      = [⟨"C", 1, "S", 1, "M", 1, [⟨"x", some "int"⟩]⟩] ∧
    create_payload (load initialState
        ⟨none, none, [], [("C", .cmap [("S", .smap [("M", .mlist [⟨"x", some "int"⟩])])])]⟩).fst
        ⟨"C", 1, "S", 1, "M", 1, [⟨"x", some "int"⟩]⟩
        [("x", .pbool true)]
      = .ok [.pbool true] := by
  refine ⟨by rfl, by rfl, by rfl⟩

/-- C3 (amended): for a field declared with a primitive (non-enum)
datatype, `create_payload` accepts a provided value exactly when Python
`isinstance(value, type_mapping[datatype])` holds; because `bool` is a
subclass of `int` (and `IntEnum` members are `int`s), a boolean is
accepted where `int` is declared, while the other primitive kinds accept
exactly their own kind; on rejection the error is the `TypeError` naming
the field, the expected type and the actual type. -/
theorem claim_C3 (st : RuntimeState) (mc : List (String × Nat)) (msgs : List CatEntry)
    (pe : List (String × EnumDef)) (hmc : st.MessageCategory = some mc)
    (hms : st.Messages = some msgs) (hpe : st.PayloadEnum = some pe)
    (m : MsgEntry) (nm : String) (dt : String) (t : PyType) (v : PyValue)
    (hpd : m.payload_def = [⟨nm, some dt⟩]) (hdt : dt ≠ "enum")
    (hty : type_mapping dt = some t) :
    (create_payload st m [(stripPayloadEnumKey nm, v)] = .ok [v] ↔ pyIsInstance v t = true) ∧
    (pyIsInstance v t = false →
      create_payload st m [(stripPayloadEnumKey nm, v)] =
        .error (.fieldTypeError (stripPayloadEnumKey nm) (ptypeName t) (pyTypeName v))) ∧
    (∀ b : Bool, pyIsInstance (.pbool b) .tint = true) ∧
    (∀ n : Int, pyIsInstance (.pint n) .tbool = false) := by
  have hbne : (some dt == some "enum") = false := by
    simp [hdt]
  have hcp := create_payload_single st mc msgs pe hmc hms hpe m nm (some dt) v hpd
  rw [hbne] at hcp
  have hvf : validate_field pe (stripPayloadEnumKey nm) ⟨some dt, false⟩ v =
      (if pyIsInstance v t then .ok ()
       else .error (.fieldTypeError (stripPayloadEnumKey nm) (ptypeName t) (pyTypeName v))) := by
    simp [validate_field, Option.bind, hty]
  refine ⟨?_, ?_, fun b => rfl, fun n => rfl⟩
  · rw [hcp, hvf]
    by_cases hins : pyIsInstance v t = true
    · simp [hins, Bind.bind, Except.bind]
    · simp only [Bool.not_eq_true] at hins
      simp [hins, Bind.bind, Except.bind]
  · intro hins
    rw [hcp, hvf, hins]
    simp [Bind.bind, Except.bind]

/-- C3 witness. -/
theorem claim_C3_witness :
    (create_payload (load initialState
        ⟨none, none, [], [("C", .cmap [("S", .smap [("M", .mlist [⟨"x", some "int"⟩])])])]⟩).fst
        ⟨"C", 1, "S", 1, "M", 1, [⟨"x", some "int"⟩]⟩
        [(stripPayloadEnumKey "x", .pint 7)] = .ok [.pint 7]
      ↔ pyIsInstance (.pint 7) .tint = true) ∧
    (pyIsInstance (.pint 7) .tint = false →
      create_payload (load initialState
        ⟨none, none, [], [("C", .cmap [("S", .smap [("M", .mlist [⟨"x", some "int"⟩])])])]⟩).fst
        ⟨"C", 1, "S", 1, "M", 1, [⟨"x", some "int"⟩]⟩
        [(stripPayloadEnumKey "x", .pint 7)] =
        .error (.fieldTypeError (stripPayloadEnumKey "x") (ptypeName .tint)
          (pyTypeName (.pint 7)))) ∧
    (∀ b : Bool, pyIsInstance (.pbool b) .tint = true) ∧
    (∀ n : Int, pyIsInstance (.pint n) .tbool = false) := by
  exact claim_C3 (load initialState
        ⟨none, none, [], [("C", .cmap [("S", .smap [("M", .mlist [⟨"x", some "int"⟩])])])]⟩).fst
    [("C", 1)] [⟨"C", 1, [⟨"S", 1, [⟨"C", 1, "S", 1, "M", 1, [⟨"x", some "int"⟩]⟩]⟩]⟩] []
    (by rfl) (by rfl) (by rfl)
    ⟨"C", 1, "S", 1, "M", 1, [⟨"x", some "int"⟩]⟩ "x" "int" .tint (.pint 7)
    (by rfl) (by decide) (by rfl)

/-- C4 counterexample: with declared fields `{x, y}` and provided fields
`{x, z}` — one missing name and one extra name in the same call — the
source raises only the missing-fields error, which does not carry the
extra-name set, contradicting the claim that both sets are reported
independently. -/
theorem claim_C4_counterexample :
    create_payload (load initialState
        ⟨none, none, [],
          [("C", .cmap [("S", .smap [("M",
            .mlist [⟨"x", some "int"⟩, ⟨"y", some "int"⟩])])])]⟩).fst
        ⟨"C", 1, "S", 1, "M", 1, [⟨"x", some "int"⟩, ⟨"y", some "int"⟩]⟩
        [("x", .pint 1), ("z", .pint 2)]
      = .error (.missingFields {"y"}) := by
  rfl

/-- C4 (amended): when the provided key set differs from the required key
set, `create_payload` fails; if any required name is missing it raises the
missing-fields error carrying exactly the missing-name set (any extra
names go unreported), and only otherwise does it raise the extra-fields
error carrying the extra-name set. -/
theorem claim_C4 (st : RuntimeState) (mc : List (String × Nat)) (msgs : List CatEntry)
    (pe : List (String × EnumDef)) (hmc : st.MessageCategory = some mc)
    (hms : st.Messages = some msgs) (hpe : st.PayloadEnum = some pe)
    (m : MsgEntry) (kwargs : List (String × PyValue))
    (hne : ((field_defs_of m.payload_def).map Prod.fst).toFinset ≠
      (kwargs.map Prod.fst).toFinset) :
    ((((field_defs_of m.payload_def).map Prod.fst).toFinset \
        (kwargs.map Prod.fst).toFinset).Nonempty →
      create_payload st m kwargs =
        .error (.missingFields
          (((field_defs_of m.payload_def).map Prod.fst).toFinset \
            (kwargs.map Prod.fst).toFinset))) ∧
    (¬ (((field_defs_of m.payload_def).map Prod.fst).toFinset \
        (kwargs.map Prod.fst).toFinset).Nonempty →
      create_payload st m kwargs =
        .error (.extraFields
          ((kwargs.map Prod.fst).toFinset \
            ((field_defs_of m.payload_def).map Prod.fst).toFinset))) := by
  constructor
  · intro hmiss
    simp [create_payload, hmc, hms, hpe, if_neg hne, hmiss]
  · intro hmiss
    have hextra : ((kwargs.map Prod.fst).toFinset \
        ((field_defs_of m.payload_def).map Prod.fst).toFinset).Nonempty := by
      rw [Finset.not_nonempty_iff_eq_empty, Finset.sdiff_eq_empty_iff_subset] at hmiss
      rcases Finset.exists_of_ssubset (hmiss.ssubset_of_ne hne) with ⟨x, hx, hnx⟩
      exact ⟨x, Finset.mem_sdiff.mpr ⟨hx, hnx⟩⟩
    simp [create_payload, hmc, hms, hpe, if_neg hne, hmiss, hextra]

/-- C4 witness. -/
theorem claim_C4_witness :
    ((((field_defs_of [⟨"x", some "int"⟩, ⟨"y", some "int"⟩]).map Prod.fst).toFinset \
        (([("x", PyValue.pint 1)].map Prod.fst)).toFinset).Nonempty →
      create_payload (load initialState
        ⟨none, none, [],
          [("C", .cmap [("S", .smap [("M",
            .mlist [⟨"x", some "int"⟩, ⟨"y", some "int"⟩])])])]⟩).fst
        ⟨"C", 1, "S", 1, "M", 1, [⟨"x", some "int"⟩, ⟨"y", some "int"⟩]⟩
        [("x", PyValue.pint 1)] =
        .error (.missingFields
          (((field_defs_of [⟨"x", some "int"⟩, ⟨"y", some "int"⟩]).map Prod.fst).toFinset \
            (([("x", PyValue.pint 1)].map Prod.fst)).toFinset))) ∧
    (¬ (((field_defs_of [⟨"x", some "int"⟩, ⟨"y", some "int"⟩]).map Prod.fst).toFinset \
        (([("x", PyValue.pint 1)].map Prod.fst)).toFinset).Nonempty →
      create_payload (load initialState
        ⟨none, none, [],
          [("C", .cmap [("S", .smap [("M",
            .mlist [⟨"x", some "int"⟩, ⟨"y", some "int"⟩])])])]⟩).fst
        ⟨"C", 1, "S", 1, "M", 1, [⟨"x", some "int"⟩, ⟨"y", some "int"⟩]⟩
        [("x", PyValue.pint 1)] =
        .error (.extraFields
          ((([("x", PyValue.pint 1)].map Prod.fst)).toFinset \
            ((field_defs_of [⟨"x", some "int"⟩, ⟨"y", some "int"⟩]).map Prod.fst).toFinset))) := by
  exact claim_C4 (load initialState
        ⟨none, none, [],
          [("C", .cmap [("S", .smap [("M",
            .mlist [⟨"x", some "int"⟩, ⟨"y", some "int"⟩])])])]⟩).fst
    [("C", 1)]
    [⟨"C", 1, [⟨"S", 1, [⟨"C", 1, "S", 1, "M", 1,
      [⟨"x", some "int"⟩, ⟨"y", some "int"⟩]⟩]⟩]⟩] []
    (by rfl) (by rfl) (by rfl)
    ⟨"C", 1, "S", 1, "M", 1, [⟨"x", some "int"⟩, ⟨"y", some "int"⟩]⟩
    [("x", PyValue.pint 1)] (by decide)

/-- C5 counterexample: after a successful first load, a second load whose
schema fails inside `_build_messages` leaves the runtime changed — the
committed `PayloadEnum` has been replaced by the failed attempt's enums
(while `Messages` stays from the first load) — contradicting the claim
that a failed build leaves a committed catalog unchanged. -/
theorem claim_C5_counterexample :
    (load (load initialState
        ⟨none, none, [("E", [("A", 1)])],
          [("C", .cmap [("S", .smap [("M", .mlist [])])])]⟩).fst
      ⟨none, none, [("F", [("B", 2)])], [("C", .cnotdict)]⟩).snd
      = .error (.schemaError "Protocol Error: Category C must map to subcategories") ∧
    (load (load initialState
        ⟨none, none, [("E", [("A", 1)])],
          [("C", .cmap [("S", .smap [("M", .mlist [])])])]⟩).fst
      ⟨none, none, [("F", [("B", 2)])], [("C", .cnotdict)]⟩).fst
      ≠ (load initialState
        ⟨none, none, [("E", [("A", 1)])],
          [("C", .cmap [("S", .smap [("M", .mlist [])])])]⟩).fst := by
  refine ⟨by rfl, by decide⟩

/-- C5 (amended): a failed `load` leaves the runtime state unchanged only
when the failure happens during top-level validation or enum building;
when the failure happens inside `_build_messages`, the state keeps the
previously committed `Messages` but has `PayloadEnum` already replaced by
the failed attempt's enums — exactly the source's assignment order. -/
theorem claim_C5 (st : RuntimeState) (spec : ProtoSpec) (e : PErr)
    (h : (load st spec).snd = .error e) :
    (load st spec).fst = st ∨
      ∃ pe, _build_payload_enum spec.enums = .ok pe ∧
        (load st spec).fst = { st with PayloadEnum := some pe } := by
  exact load_error_state st spec e h

/-- C5 witness. -/
theorem claim_C5_witness :
    (load initialState ⟨none, none, [], [("C", .cnotdict)]⟩).fst = initialState ∨
      ∃ pe, _build_payload_enum ([] : List (String × List (String × Int))) = .ok pe ∧
        (load initialState ⟨none, none, [], [("C", .cnotdict)]⟩).fst
          = { initialState with PayloadEnum := some pe } := by
  exact claim_C5 initialState ⟨none, none, [], [("C", .cnotdict)]⟩
    (.schemaError "Protocol Error: Category C must map to subcategories") (by rfl)

/-- C6 counterexample: a schema whose only flaw is the unrecognized
datatype string `"frobnicate"` loads successfully — catalog construction
does not fail with a `SchemaError`, contradicting the claim of build-time
rejection. -/
theorem claim_C6_counterexample :
    (load initialState
        ⟨none, none, [],
          [("C", .cmap [("S", .smap [("M", .mlist [⟨"f", some "frobnicate"⟩])])])]⟩).snd
      = .ok () := by
  rfl

/-- C6 (amended): `load` never inspects datatype strings — it succeeds
exactly on the structural conditions (`structOkB`) — and an unrecognized
datatype is rejected only later, by `create_payload`, with the
unknown-datatype `ValueError` naming the field. -/
theorem claim_C6 :
    (∀ (st : RuntimeState) (spec : ProtoSpec),
      (load st spec).snd = .ok () ↔ structOkB spec = true) ∧
    (∀ (st : RuntimeState) (mc : List (String × Nat)) (msgs : List CatEntry)
      (pe : List (String × EnumDef)), st.MessageCategory = some mc →
      st.Messages = some msgs → st.PayloadEnum = some pe →
      ∀ (m : MsgEntry) (nm : String) (dt : Option String) (v : PyValue),
        m.payload_def = [⟨nm, dt⟩] → dt.bind type_mapping = none →
        create_payload st m [(stripPayloadEnumKey nm, v)] =
          .error (.unknownDatatype dt (stripPayloadEnumKey nm))) := by
  constructor
  · exact load_ok_iff_structOk
  · intro st mc msgs pe hmc hms hpe m nm dt v hpd hdt
    have hbne : (dt == some "enum") = false := by
      cases dt with
      | none => rfl
      | some d =>
          have : d ≠ "enum" := by
            intro hd
            subst hd
            simp [Option.bind, type_mapping] at hdt
          simp [this]
    have hcp := create_payload_single st mc msgs pe hmc hms hpe m nm dt v hpd
    rw [hbne] at hcp
    rw [hcp]
    simp [validate_field, hdt, Bind.bind, Except.bind]

/-- C6 witness. -/
theorem claim_C6_witness :
    ((load initialState
        ⟨none, none, [],
          [("C", .cmap [("S", .smap [("M", .mlist [⟨"f", some "frobnicate"⟩])])])]⟩).snd
      = .ok () ↔ structOkB
        ⟨none, none, [],
          [("C", .cmap [("S", .smap [("M", .mlist [⟨"f", some "frobnicate"⟩])])])]⟩ = true) ∧
    create_payload (load initialState
        ⟨none, none, [],
          [("C", .cmap [("S", .smap [("M", .mlist [⟨"f", some "frobnicate"⟩])])])]⟩).fst
        ⟨"C", 1, "S", 1, "M", 1, [⟨"f", some "frobnicate"⟩]⟩
        [("f", .pint 5)]
      = .error (.unknownDatatype (some "frobnicate") "f") := by
  constructor
  · exact claim_C6.1 initialState _
  · have h := claim_C6.2 (load initialState
        ⟨none, none, [],
          [("C", .cmap [("S", .smap [("M", .mlist [⟨"f", some "frobnicate"⟩])])])]⟩).fst
      [("C", 1)]
      [⟨"C", 1, [⟨"S", 1, [⟨"C", 1, "S", 1, "M", 1, [⟨"f", some "frobnicate"⟩]⟩]⟩]⟩]
      [] (by rfl) (by rfl) (by rfl)
      ⟨"C", 1, "S", 1, "M", 1, [⟨"f", some "frobnicate"⟩]⟩ "f" (some "frobnicate")
      (.pint 5) (by rfl) (by rfl)
    exact h

/-- C7 counterexample: a schema with an `enum`-datatype field named
`NoSuch` and an empty enum table loads successfully, and the built catalog
contains that unresolved enum field — contradicting both the claimed
build-time `SchemaError` and the claimed invariant that every enum field
of a successfully built catalog is bound. -/
theorem claim_C7_counterexample :
    (load initialState
        ⟨none, none, [],
          [("C", .cmap [("S", .smap [("M", .mlist [⟨"NoSuch", some "enum"⟩])])])]⟩).snd
      = .ok () ∧
    msgsOfState (load initialState
        ⟨none, none, [],
          [("C", .cmap [("S", .smap [("M", .mlist [⟨"NoSuch", some "enum"⟩])])])]⟩).fst
      = [⟨"C", 1, "S", 1, "M", 1, [⟨"NoSuch", some "enum"⟩]⟩] ∧
    dlookup (peOfState (load initialState
        ⟨none, none, [],
          [("C", .cmap [("S", .smap [("M", .mlist [⟨"NoSuch", some "enum"⟩])])])]⟩).fst)
      "NoSuch" = none := by
  refine ⟨by rfl, by rfl, by rfl⟩

/-- C7 (amended): `load` performs no enum resolution — success is exactly
the structural conditions — and an enum field whose stripped name does not
resolve in `PayloadEnum` is rejected only at payload-construction time,
with the enum-class-not-found `ValueError` naming the stripped field
name. -/
theorem claim_C7 :
    (∀ (st : RuntimeState) (spec : ProtoSpec),
      (load st spec).snd = .ok () ↔ structOkB spec = true) ∧
    (∀ (st : RuntimeState) (mc : List (String × Nat)) (msgs : List CatEntry)
      (pe : List (String × EnumDef)), st.MessageCategory = some mc →
      st.Messages = some msgs → st.PayloadEnum = some pe →
      ∀ (m : MsgEntry) (nm : String) (v : PyValue),
        m.payload_def = [⟨nm, some "enum"⟩] →
        dlookup pe (stripPayloadEnumKey nm) = none →
        create_payload st m [(stripPayloadEnumKey nm, v)] =
          .error (.enumClassNotFound (stripPayloadEnumKey nm))) := by
  constructor
  · exact load_ok_iff_structOk
  · intro st mc msgs pe hmc hms hpe m nm v hpd hnone
    have hcp := create_payload_single st mc msgs pe hmc hms hpe m nm (some "enum") v hpd
    rw [hcp]
    simp [validate_field, hnone, Bind.bind, Except.bind]

/-- C7 witness. -/
theorem claim_C7_witness :
    ((load initialState
        ⟨none, none, [],
          [("C", .cmap [("S", .smap [("M", .mlist [⟨"NoSuch", some "enum"⟩])])])]⟩).snd
      = .ok () ↔ structOkB
        ⟨none, none, [],
          [("C", .cmap [("S", .smap [("M", .mlist [⟨"NoSuch", some "enum"⟩])])])]⟩ = true) ∧
    create_payload (load initialState
        ⟨none, none, [],
          [("C", .cmap [("S", .smap [("M", .mlist [⟨"NoSuch", some "enum"⟩])])])]⟩).fst
        ⟨"C", 1, "S", 1, "M", 1, [⟨"NoSuch", some "enum"⟩]⟩
        [("NoSuch", .pint 1)]
      = .error (.enumClassNotFound "NoSuch") := by
  constructor
  · exact claim_C7.1 initialState _
  · exact claim_C7.2 (load initialState
        ⟨none, none, [],
          [("C", .cmap [("S", .smap [("M", .mlist [⟨"NoSuch", some "enum"⟩])])])]⟩).fst
      [("C", 1)]
      [⟨"C", 1, [⟨"S", 1, [⟨"C", 1, "S", 1, "M", 1, [⟨"NoSuch", some "enum"⟩]⟩]⟩]⟩]
      [] (by rfl) (by rfl) (by rfl)
      ⟨"C", 1, "S", 1, "M", 1, [⟨"NoSuch", some "enum"⟩]⟩ "NoSuch"
      (.pint 1) (by rfl) (by rfl)

/-- C9 counterexample: a category mapped to an empty dict of subcategories
is accepted — `load` succeeds — contradicting the claim that a category
whose value is not a *non-empty* mapping is rejected with `SchemaError`
(the source checks emptiness only at the subcategory level). -/
theorem claim_C9_counterexample :
    (load initialState ⟨none, none, [], [("Cat", .cmap [])]⟩).snd = .ok () := by
  rfl

/-- C9 (amended): `load` succeeds exactly on the structural conditions —
categories must be dicts (but may be empty), subcategories must be
non-empty dicts, messages must be lists — and every failure is the
schema-error kind of `ValueError`. -/
theorem claim_C9 (st : RuntimeState) (spec : ProtoSpec) :
    ((load st spec).snd = .ok () ↔ structOkB spec = true) ∧
    (∀ e, (load st spec).snd = .error e → ∃ s, e = .schemaError s) := by
  exact ⟨load_ok_iff_structOk st spec, fun e h => load_error_schemaError st spec e h⟩

/-- C9 witness. -/
theorem claim_C9_witness :
    ((load initialState ⟨none, none, [], [("Cat", .cmap []), ("D", .cnotdict)]⟩).snd = .ok ()
      ↔ structOkB ⟨none, none, [], [("Cat", .cmap []), ("D", .cnotdict)]⟩ = true) ∧
    (∀ e, (load initialState ⟨none, none, [], [("Cat", .cmap []), ("D", .cnotdict)]⟩).snd
        = .error e → ∃ s, e = .schemaError s) := by
  exact claim_C9 initialState ⟨none, none, [], [("Cat", .cmap []), ("D", .cnotdict)]⟩

/-! ### Lemmas: catalog shape (ids, names, triples, paths) -/

theorem buildMsgEntries_shape (cat : String) (cv : Nat) (sub : String) (sv : Nat) :
    ∀ (l : List (String × MsgVal)) (i : Nat) (ms : List MsgEntry),
      buildMsgEntries cat cv sub sv l i = .ok ms →
      ms.map (fun me => me.value) = List.range' i l.length ∧
      ms.map (fun me => me.name) = l.map Prod.fst ∧
      ∀ me ∈ ms, me.category_name = cat ∧ me.category_value = cv ∧
        me.subcategory_name = sub ∧ me.value_subcat = sv := by
  intro l
  induction l with
  | nil =>
      intro i ms h
      have hms : ([] : List MsgEntry) = ms := Except.ok.inj h
      subst hms
      simp
  | cons hd tl ih =>
      intro i ms h
      obtain ⟨mn, mv⟩ := hd
      cases mv with
      | mnotlist => simp [buildMsgEntries] at h
      | mlist fs =>
          simp only [buildMsgEntries] at h
          cases hrec : buildMsgEntries cat cv sub sv tl (i + 1) with
          | error e => simp [hrec, Bind.bind, Except.bind] at h
          | ok tail =>
              simp only [hrec, Bind.bind, Except.bind] at h
              have hms : (⟨cat, cv, sub, sv, mn, i, fs⟩ : MsgEntry) :: tail = ms :=
                Except.ok.inj h
              subst hms
              obtain ⟨h1, h2, h3⟩ := ih (i + 1) tail hrec
              refine ⟨?_, ?_, ?_⟩
              · simp [List.range'_succ, h1]
              · simp [h2]
              · intro me hme
                rcases List.mem_cons.mp hme with hh | ht
                · subst hh; exact ⟨rfl, rfl, rfl, rfl⟩
                · exact h3 me ht

theorem buildSubEntries_shape (cat : String) (cv : Nat) :
    ∀ (l : List (String × SubcatVal)) (i : Nat) (ss : List SubEntry),
      buildSubEntries cat cv l i = .ok ss →
      ss.map (fun se => se.value_subcat) = List.range' i l.length ∧
      ss.map (fun se => se.name) = l.map Prod.fst ∧
      ∀ se ∈ ss, ∃ ms, (se.name, SubcatVal.smap ms) ∈ l ∧
        buildMsgEntries cat cv se.name se.value_subcat ms 1 = .ok se.msgs := by
  intro l
  induction l with
  | nil =>
      intro i ss h
      have hss : ([] : List SubEntry) = ss := Except.ok.inj h
      subst hss
      simp
  | cons hd tl ih =>
      intro i ss h
      obtain ⟨sn, sv'⟩ := hd
      cases sv' with
      | snotdict => simp [buildSubEntries] at h
      | smap ms =>
          by_cases hms : ms = []
          · simp [buildSubEntries, hms] at h
          · simp only [buildSubEntries, if_neg hms] at h
            cases hm : buildMsgEntries cat cv sn i ms 1 with
            | error e => simp [hm, Bind.bind, Except.bind] at h
            | ok mse =>
                simp only [hm, Bind.bind, Except.bind] at h
                cases hrec : buildSubEntries cat cv tl (i + 1) with
                | error e => simp [hrec, Bind.bind, Except.bind] at h
                | ok tail =>
                    simp only [hrec, Bind.bind, Except.bind] at h
                    have hss : (⟨sn, i, mse⟩ : SubEntry) :: tail = ss := Except.ok.inj h
                    subst hss
                    obtain ⟨h1, h2, h3⟩ := ih (i + 1) tail hrec
                    refine ⟨?_, ?_, ?_⟩
                    · simp [List.range'_succ, h1]
                    · simp [h2]
                    · intro se hse
                      rcases List.mem_cons.mp hse with hh | ht
                      · subst hh
                        exact ⟨ms, List.mem_cons_self _ _, hm⟩
                      · obtain ⟨ms', hmem, hb⟩ := h3 se ht
                        exact ⟨ms', List.mem_cons_of_mem _ hmem, hb⟩

theorem buildCatEntries_shape :
    ∀ (l : List (String × CatVal)) (i : Nat) (cs : List CatEntry),
      buildCatEntries l i = .ok cs →
      cs.map (fun ce => ce.value_cat) = List.range' i l.length ∧
      cs.map (fun ce => ce.name) = l.map Prod.fst ∧
      ∀ ce ∈ cs, ∃ subs, (ce.name, CatVal.cmap subs) ∈ l ∧
        buildSubEntries ce.name ce.value_cat subs 1 = .ok ce.subs := by
  intro l
  induction l with
  | nil =>
      intro i cs h
      have hcs : ([] : List CatEntry) = cs := Except.ok.inj h
      subst hcs
      simp
  | cons hd tl ih =>
      intro i cs h
      obtain ⟨cn, cv'⟩ := hd
      cases cv' with
      | cnotdict => simp [buildCatEntries] at h
      | cmap subs =>
          simp only [buildCatEntries] at h
          cases hs : buildSubEntries cn i subs 1 with
          | error e => simp [hs, Bind.bind, Except.bind] at h
          | ok sse =>
              simp only [hs, Bind.bind, Except.bind] at h
              cases hrec : buildCatEntries tl (i + 1) with
              | error e => simp [hrec, Bind.bind, Except.bind] at h
              | ok tail =>
                  simp only [hrec, Bind.bind, Except.bind] at h
                  have hcs : (⟨cn, i, sse⟩ : CatEntry) :: tail = cs := Except.ok.inj h
                  subst hcs
                  obtain ⟨h1, h2, h3⟩ := ih (i + 1) tail hrec
                  refine ⟨?_, ?_, ?_⟩
                  · simp [List.range'_succ, h1]
                  · simp [h2]
                  · intro ce hce
                    rcases List.mem_cons.mp hce with hh | ht
                    · subst hh
                      exact ⟨subs, List.mem_cons_self _ _, hs⟩
                    · obtain ⟨subs', hmem, hb⟩ := h3 ce ht
                      exact ⟨subs', List.mem_cons_of_mem _ hmem, hb⟩

theorem buildMsgEntries_triples (cat : String) (cv : Nat) (sub : String) (sv : Nat) :
    ∀ (l : List (String × MsgVal)) (i : Nat) (ms : List MsgEntry),
      buildMsgEntries cat cv sub sv l i = .ok ms →
      (ms.map tripleOf).Nodup ∧
      ∀ me ∈ ms, i ≤ me.value ∧ me.category_value = cv ∧ me.value_subcat = sv := by
  intro l
  induction l with
  | nil =>
      intro i ms h
      have hms : ([] : List MsgEntry) = ms := Except.ok.inj h
      subst hms
      simp
  | cons hd tl ih =>
      intro i ms h
      obtain ⟨mn, mv⟩ := hd
      cases mv with
      | mnotlist => simp [buildMsgEntries] at h
      | mlist fs =>
          simp only [buildMsgEntries] at h
          cases hrec : buildMsgEntries cat cv sub sv tl (i + 1) with
          | error e => simp [hrec, Bind.bind, Except.bind] at h
          | ok tail =>
              simp only [hrec, Bind.bind, Except.bind] at h
              have hms : (⟨cat, cv, sub, sv, mn, i, fs⟩ : MsgEntry) :: tail = ms :=
                Except.ok.inj h
              subst hms
              obtain ⟨h1, h2⟩ := ih (i + 1) tail hrec
              refine ⟨?_, ?_⟩
              · rw [List.map_cons, List.nodup_cons]
                refine ⟨?_, h1⟩
                intro hmem
                rcases List.mem_map.mp hmem with ⟨me, hme, htr⟩
                have hge := (h2 me hme).1
                have : me.value = i := by
                  have := congrArg (fun t => t.2.2) htr
                  simpa [tripleOf] using this
                omega
              · intro me hme
                rcases List.mem_cons.mp hme with hh | ht
                · subst hh; exact ⟨Nat.le_refl i, rfl, rfl⟩
                · obtain ⟨ha, hb, hc⟩ := h2 me ht
                  exact ⟨Nat.le_of_succ_le ha, hb, hc⟩

theorem buildSubEntries_triples (cat : String) (cv : Nat) :
    ∀ (l : List (String × SubcatVal)) (i : Nat) (ss : List SubEntry),
      buildSubEntries cat cv l i = .ok ss →
      (((ss.flatMap (fun se => se.msgs)).map tripleOf)).Nodup ∧
      ∀ me ∈ ss.flatMap (fun se => se.msgs), i ≤ me.value_subcat ∧ me.category_value = cv := by
  intro l
  induction l with
  | nil =>
      intro i ss h
      have hss : ([] : List SubEntry) = ss := Except.ok.inj h
      subst hss
      simp
  | cons hd tl ih =>
      intro i ss h
      obtain ⟨sn, sv'⟩ := hd
      cases sv' with
      | snotdict => simp [buildSubEntries] at h
      | smap ms =>
          by_cases hms : ms = []
          · simp [buildSubEntries, hms] at h
          · simp only [buildSubEntries, if_neg hms] at h
            cases hm : buildMsgEntries cat cv sn i ms 1 with
            | error e => simp [hm, Bind.bind, Except.bind] at h
            | ok mse =>
                simp only [hm, Bind.bind, Except.bind] at h
                cases hrec : buildSubEntries cat cv tl (i + 1) with
                | error e => simp [hrec, Bind.bind, Except.bind] at h
                | ok tail =>
                    simp only [hrec, Bind.bind, Except.bind] at h
                    have hss : (⟨sn, i, mse⟩ : SubEntry) :: tail = ss := Except.ok.inj h
                    subst hss
                    obtain ⟨hn1, hp1⟩ := buildMsgEntries_triples cat cv sn i ms 1 mse hm
                    obtain ⟨hn2, hp2⟩ := ih (i + 1) tail hrec
                    rw [List.flatMap_cons, List.map_append]
                    refine ⟨?_, ?_⟩
                    · refine List.Nodup.append hn1 hn2 ?_
                      intro t ht1 ht2
                      rcases List.mem_map.mp ht1 with ⟨me, hme, htr⟩
                      rcases List.mem_map.mp ht2 with ⟨me', hme', htr'⟩
                      have hsv : me.value_subcat = i := (hp1 me hme).2.2
                      have hsv' : i + 1 ≤ me'.value_subcat := (hp2 me' hme').1
                      have : me.value_subcat = me'.value_subcat := by
                        have := congrArg (fun t => t.2.1) (htr.trans htr'.symm)
                        simpa [tripleOf] using this
                      omega
                    · intro me hme
                      rcases List.mem_append.mp hme with hh | ht
                      · exact ⟨le_of_eq ((hp1 me hh).2.2).symm, (hp1 me hh).2.1⟩
                      · obtain ⟨ha, hb⟩ := hp2 me ht
                        exact ⟨Nat.le_of_succ_le ha, hb⟩

theorem buildCatEntries_triples :
    ∀ (l : List (String × CatVal)) (i : Nat) (cs : List CatEntry),
      buildCatEntries l i = .ok cs →
      (catalogTriples cs).Nodup ∧ ∀ me ∈ allMsgs cs, i ≤ me.category_value := by
  intro l
  induction l with
  | nil =>
      intro i cs h
      have hcs : ([] : List CatEntry) = cs := Except.ok.inj h
      subst hcs
      simp [catalogTriples, allMsgs]
  | cons hd tl ih =>
      intro i cs h
      obtain ⟨cn, cv'⟩ := hd
      cases cv' with
      | cnotdict => simp [buildCatEntries] at h
      | cmap subs =>
          simp only [buildCatEntries] at h
          cases hs : buildSubEntries cn i subs 1 with
          | error e => simp [hs, Bind.bind, Except.bind] at h
          | ok sse =>
              simp only [hs, Bind.bind, Except.bind] at h
              cases hrec : buildCatEntries tl (i + 1) with
              | error e => simp [hrec, Bind.bind, Except.bind] at h
              | ok tail =>
                  simp only [hrec, Bind.bind, Except.bind] at h
                  have hcs : (⟨cn, i, sse⟩ : CatEntry) :: tail = cs := Except.ok.inj h
                  subst hcs
                  obtain ⟨hn1, hp1⟩ := buildSubEntries_triples cn i subs 1 sse hs
                  obtain ⟨hn2, hp2⟩ := ih (i + 1) tail hrec
                  simp only [catalogTriples, allMsgs, List.flatMap_cons,
                    List.map_append] at hn2 ⊢
                  refine ⟨?_, ?_⟩
                  · refine List.Nodup.append hn1 hn2 ?_
                    intro t ht1 ht2
                    rcases List.mem_map.mp ht1 with ⟨me, hme, htr⟩
                    rcases List.mem_map.mp ht2 with ⟨me', hme', htr'⟩
                    have hcv : me.category_value = i := (hp1 me hme).2
                    have hcv' : i + 1 ≤ me'.category_value := hp2 me' hme'
                    have : me.category_value = me'.category_value := by
                      have := congrArg (fun t => t.1) (htr.trans htr'.symm)
                      simpa [tripleOf] using this
                    omega
                  · intro me hme
                    rcases List.mem_append.mp hme with hh | ht
                    · exact le_of_eq ((hp1 me hh).2).symm
                    · exact Nat.le_of_succ_le (hp2 me ht)

/-- Joining with a separator that occurs in neither left part is
injective in both parts. -/
theorem sepJoin_inj : ∀ (u v x y : List Char), '.' ∉ u → '.' ∉ v →
    u ++ '.' :: x = v ++ '.' :: y → u = v ∧ x = y := by
  intro u
  induction u with
  | nil =>
      intro v x y _ hv h
      cases v with
      | nil => simpa using h
      | cons c v' =>
          exfalso
          simp only [List.nil_append, List.cons_append, List.cons.injEq] at h
          exact hv (h.1 ▸ List.mem_cons_self _ _)
  | cons c u' ih =>
      intro v x y hu hv h
      cases v with
      | nil =>
          exfalso
          simp only [List.nil_append, List.cons_append, List.cons.injEq] at h
          exact hu (h.1 ▸ List.mem_cons_self _ _)
      | cons c' v' =>
          simp only [List.cons_append, List.cons.injEq] at h
          obtain ⟨hc, hrest⟩ := h
          have hu' : '.' ∉ u' := fun hm => hu (List.mem_cons_of_mem _ hm)
          have hv' : '.' ∉ v' := fun hm => hv (List.mem_cons_of_mem _ hm)
          obtain ⟨h1, h2⟩ := ih v' x y hu' hv' hrest
          exact ⟨by rw [hc, h1], h2⟩

/-- The dotted-path data of a message entry, associated to the right. -/
theorem pathOf_data (me : MsgEntry) :
    (pathOf me).data =
      me.category_name.data ++ '.' :: (me.subcategory_name.data ++ '.' :: me.name.data) := by
  simp [pathOf, String.data_append]

/-- Two equal dotted paths with dot-free category and subcategory names
have equal components. -/
theorem pathOf_inj (me me' : MsgEntry)
    (hc : '.' ∉ me.category_name.data) (hc' : '.' ∉ me'.category_name.data)
    (hs : '.' ∉ me.subcategory_name.data) (hs' : '.' ∉ me'.subcategory_name.data)
    (h : pathOf me = pathOf me') :
    me.category_name = me'.category_name ∧ me.subcategory_name = me'.subcategory_name ∧
      me.name = me'.name := by
  have hd : (pathOf me).data = (pathOf me').data := congrArg String.data h
  rw [pathOf_data, pathOf_data] at hd
  obtain ⟨h1, h2⟩ := sepJoin_inj _ _ _ _ hc hc' hd
  obtain ⟨h3, h4⟩ := sepJoin_inj _ _ _ _ hs hs' h2
  exact ⟨String.ext h1, String.ext h3, String.ext h4⟩

theorem buildMsgEntries_paths (cat : String) (cv : Nat) (sub : String) (sv : Nat)
    (l : List (String × MsgVal)) (i : Nat) (ms : List MsgEntry)
    (h : buildMsgEntries cat cv sub sv l i = .ok ms)
    (hnd : (l.map Prod.fst).Nodup) :
    (ms.map pathOf).Nodup := by
  obtain ⟨_, hnames, hfix⟩ := buildMsgEntries_shape cat cv sub sv l i ms h
  have hmap : ms.map pathOf = (ms.map (fun me => me.name)).map
      (fun x => cat ++ "." ++ sub ++ "." ++ x) := by
    rw [List.map_map]
    refine List.map_congr_left ?_
    intro me hme
    obtain ⟨h1, _, h3, _⟩ := hfix me hme
    simp [pathOf, h1, h3]
  rw [hmap, hnames]
  refine List.Nodup.map ?_ hnd
  intro a b hab
  have := congrArg String.data hab
  simp only [String.data_append] at this
  exact String.ext (List.append_cancel_left this)

theorem buildSubEntries_paths (cat : String) (cv : Nat) :
    ∀ (l : List (String × SubcatVal)) (i : Nat) (ss : List SubEntry),
      buildSubEntries cat cv l i = .ok ss →
      (l.map Prod.fst).Nodup →
      (∀ q ∈ l, ∀ ms, q.snd = SubcatVal.smap ms → (ms.map Prod.fst).Nodup) →
      (∀ q ∈ l, '.' ∉ (q.fst : String).data) →
      ((ss.flatMap (fun se => se.msgs)).map pathOf).Nodup ∧
      ∀ me ∈ ss.flatMap (fun se => se.msgs),
        me.category_name = cat ∧ me.subcategory_name ∈ l.map Prod.fst ∧
          '.' ∉ me.subcategory_name.data := by
  intro l
  induction l with
  | nil =>
      intro i ss h _ _ _
      have hss : ([] : List SubEntry) = ss := Except.ok.inj h
      subst hss
      simp
  | cons hd tl ih =>
      intro i ss h hnd hmsnd hdots
      obtain ⟨sn, sv'⟩ := hd
      cases sv' with
      | snotdict => simp [buildSubEntries] at h
      | smap ms =>
          by_cases hms : ms = []
          · simp [buildSubEntries, hms] at h
          · simp only [buildSubEntries, if_neg hms] at h
            cases hm : buildMsgEntries cat cv sn i ms 1 with
            | error e => simp [hm, Bind.bind, Except.bind] at h
            | ok mse =>
                simp only [hm, Bind.bind, Except.bind] at h
                cases hrec : buildSubEntries cat cv tl (i + 1) with
                | error e => simp [hrec, Bind.bind, Except.bind] at h
                | ok tail =>
                    simp only [hrec, Bind.bind, Except.bind] at h
                    have hss : (⟨sn, i, mse⟩ : SubEntry) :: tail = ss := Except.ok.inj h
                    subst hss
                    have hndtl : (tl.map Prod.fst).Nodup := (List.nodup_cons.mp hnd).2
                    have hsn_not : sn ∉ tl.map Prod.fst := by
                      simpa using (List.nodup_cons.mp hnd).1
                    have hmsnd_tl : ∀ q ∈ tl, ∀ ms', q.snd = SubcatVal.smap ms' →
                        (ms'.map Prod.fst).Nodup :=
                      fun q hq => hmsnd q (List.mem_cons_of_mem _ hq)
                    have hdots_tl : ∀ q ∈ tl, '.' ∉ (q.fst : String).data :=
                      fun q hq => hdots q (List.mem_cons_of_mem _ hq)
                    have hsn_dot : '.' ∉ sn.data := hdots _ (List.mem_cons_self _ _)
                    obtain ⟨ihn, ihp⟩ := ih (i + 1) tail hrec hndtl hmsnd_tl hdots_tl
                    have hmse_nd : (mse.map pathOf).Nodup :=
                      buildMsgEntries_paths cat cv sn i ms 1 mse hm
                        (hmsnd _ (List.mem_cons_self _ _) ms rfl)
                    obtain ⟨_, _, hfix⟩ := buildMsgEntries_shape cat cv sn i ms 1 mse hm
                    simp only [List.flatMap_cons, List.map_append]
                    constructor
                    · refine List.Nodup.append hmse_nd ihn ?_
                      intro p hp1 hp2
                      rcases List.mem_map.mp hp1 with ⟨me, hme, hpa⟩
                      rcases List.mem_map.mp hp2 with ⟨me', hme', hpa'⟩
                      obtain ⟨hc1, _, hs1, _⟩ := hfix me hme
                      obtain ⟨hc2, hsmem, hsdot'⟩ := ihp me' hme'
                      have hpe : pathOf me = pathOf me' := hpa.trans hpa'.symm
                      have hd := congrArg String.data hpe
                      rw [pathOf_data, pathOf_data, hc1, hc2] at hd
                      obtain ⟨hsub, _⟩ := sepJoin_inj _ _ _ _ (hs1 ▸ hsn_dot) hsdot'
                        (by simpa using hd)
                      rw [hs1] at hsub
                      have hsn_eq : sn = me'.subcategory_name := String.ext hsub
                      exact hsn_not (hsn_eq ▸ hsmem)
                    · intro me hme
                      rcases List.mem_append.mp hme with hh | ht
                      · obtain ⟨hc1, _, hs1, _⟩ := hfix me hh
                        exact ⟨hc1, by simp [hs1], hs1 ▸ hsn_dot⟩
                      · obtain ⟨hc2, hsmem, hsdot'⟩ := ihp me ht
                        exact ⟨hc2, by simp [hsmem], hsdot'⟩

theorem buildCatEntries_paths :
    ∀ (l : List (String × CatVal)) (i : Nat) (cs : List CatEntry),
      buildCatEntries l i = .ok cs →
      (l.map Prod.fst).Nodup →
      (∀ p ∈ l, '.' ∉ (p.fst : String).data) →
      (∀ p ∈ l, ∀ subs, p.snd = CatVal.cmap subs →
        (subs.map Prod.fst).Nodup ∧ (∀ q ∈ subs, '.' ∉ (q.fst : String).data) ∧
        ∀ q ∈ subs, ∀ ms, q.snd = SubcatVal.smap ms → (ms.map Prod.fst).Nodup) →
      (catalogPaths cs).Nodup ∧
      ∀ me ∈ allMsgs cs,
        me.category_name ∈ l.map Prod.fst ∧ '.' ∉ me.category_name.data := by
  intro l
  induction l with
  | nil =>
      intro i cs h _ _ _
      have hcs : ([] : List CatEntry) = cs := Except.ok.inj h
      subst hcs
      simp [catalogPaths, allMsgs]
  | cons hd tl ih =>
      intro i cs h hnd hdots hsub
      obtain ⟨cn, cv'⟩ := hd
      cases cv' with
      | cnotdict => simp [buildCatEntries] at h
      | cmap subs =>
          simp only [buildCatEntries] at h
          cases hs : buildSubEntries cn i subs 1 with
          | error e => simp [hs, Bind.bind, Except.bind] at h
          | ok sse =>
              simp only [hs, Bind.bind, Except.bind] at h
              cases hrec : buildCatEntries tl (i + 1) with
              | error e => simp [hrec, Bind.bind, Except.bind] at h
              | ok tail =>
                  simp only [hrec, Bind.bind, Except.bind] at h
                  have hcs : (⟨cn, i, sse⟩ : CatEntry) :: tail = cs := Except.ok.inj h
                  subst hcs
                  have hndtl : (tl.map Prod.fst).Nodup := (List.nodup_cons.mp hnd).2
                  have hcn_not : cn ∉ tl.map Prod.fst := by
                    simpa using (List.nodup_cons.mp hnd).1
                  have hcn_dot : '.' ∉ cn.data := hdots _ (List.mem_cons_self _ _)
                  obtain ⟨hsnd, hsdots, hmsnd⟩ := hsub _ (List.mem_cons_self _ _) subs rfl
                  obtain ⟨ihn, ihp⟩ := ih (i + 1) tail hrec hndtl
                    (fun p hp => hdots p (List.mem_cons_of_mem _ hp))
                    (fun p hp => hsub p (List.mem_cons_of_mem _ hp))
                  obtain ⟨hcatn, hcatp⟩ := buildSubEntries_paths cn i subs 1 sse hs
                    hsnd hmsnd hsdots
                  simp only [catalogPaths, allMsgs, List.flatMap_cons,
                    List.map_append] at ihn ⊢
                  constructor
                  · refine List.Nodup.append hcatn ihn ?_
                    intro p hp1 hp2
                    rcases List.mem_map.mp hp1 with ⟨me, hme, hpa⟩
                    rcases List.mem_map.mp hp2 with ⟨me', hme', hpa'⟩
                    obtain ⟨hc1, _, hs1⟩ := hcatp me hme
                    obtain ⟨hcmem, hcdot'⟩ := ihp me' hme'
                    have hpe : pathOf me = pathOf me' := hpa.trans hpa'.symm
                    have hd := congrArg String.data hpe
                    rw [pathOf_data, pathOf_data] at hd
                    obtain ⟨hcat, _⟩ := sepJoin_inj _ _ _ _ (hc1 ▸ hcn_dot) hcdot' hd
                    rw [hc1] at hcat
                    have hcn_eq : cn = me'.category_name := String.ext hcat
                    exact hcn_not (hcn_eq ▸ hcmem)
                  · intro me hme
                    rcases List.mem_append.mp hme with hh | ht
                    · obtain ⟨hc1, _, _⟩ := hcatp me hh
                      exact ⟨by simp [hc1], hc1 ▸ hcn_dot⟩
                    · obtain ⟨hcmem, hcdot'⟩ := ihp me ht
                      exact ⟨by simp [hcmem], hcdot'⟩

/-! ### C2: addressing invariants -/

/-- C2 counterexample: with dots allowed in names, two distinct messages
of an accepted schema share the dotted path `"A.B.C.D"` (categories `"A"`
with subcategory `"B.C"`, and `"A.B"` with subcategory `"C"`), so the
dotted paths of a loaded catalog are not pairwise distinct as claimed. -/
theorem claim_C2_counterexample :
    _build_messages
        [("A", .cmap [("B.C", .smap [("D", .mlist [])])]),
         ("A.B", .cmap [("C", .smap [("D", .mlist [])])])]
      = .ok ([("A", 1), ("A.B", 2)],
          [⟨"A", 1, [⟨"B.C", 1, [⟨"A", 1, "B.C", 1, "D", 1, []⟩]⟩]⟩,
           ⟨"A.B", 2, [⟨"C", 1, [⟨"A.B", 2, "C", 1, "D", 1, []⟩]⟩]⟩]) ∧
    keysNodupB
        [("A", .cmap [("B.C", .smap [("D", .mlist [])])]),
         ("A.B", .cmap [("C", .smap [("D", .mlist [])])])] = true ∧
    ¬ (catalogPaths
        [⟨"A", 1, [⟨"B.C", 1, [⟨"A", 1, "B.C", 1, "D", 1, []⟩]⟩]⟩,
         ⟨"A.B", 2, [⟨"C", 1, [⟨"A.B", 2, "C", 1, "D", 1, []⟩]⟩]⟩]).Nodup := by
  refine ⟨by rfl, by rfl, by decide⟩

/-- C2 (amended): for every schema accepted by `_build_messages` (with the
unique dict keys every Python dict has), the assigned triples are pairwise
distinct and all three id levels are dense, 1-based and assigned in
first-occurrence order of the schema's keys; the dotted paths are pairwise
distinct provided additionally that no category or subcategory name
contains a `'.'` character (a dotted name can make two paths collide). -/
theorem claim_C2 (spec : List (String × CatVal)) (mc : List (String × Nat))
    (cats : List CatEntry) (h : _build_messages spec = .ok (mc, cats))
    (hkeys : keysNodupB spec = true) :
    (catalogTriples cats).Nodup ∧
    cats.map (fun ce => ce.value_cat) = List.range' 1 cats.length ∧
    cats.map (fun ce => ce.name) = spec.map Prod.fst ∧
    (∀ ce ∈ cats, ∃ subs, (ce.name, CatVal.cmap subs) ∈ spec ∧
      ce.subs.map (fun se => se.value_subcat) = List.range' 1 ce.subs.length ∧
      ce.subs.map (fun se => se.name) = subs.map Prod.fst) ∧
    (∀ ce ∈ cats, ∀ se ∈ ce.subs, ∃ ms, se.msgs.map (fun me => me.value)
        = List.range' 1 se.msgs.length ∧
      se.msgs.map (fun me => me.name) = ms.map Prod.fst ∧
        (se.name, SubcatVal.smap ms) ∈ (spec.flatMap (fun p =>
          match p.snd with | .cmap subs => subs | .cnotdict => []))) ∧
    (noDotNamesB spec = true → (catalogPaths cats).Nodup) := by
  have hb : buildCatEntries spec 1 = .ok cats := by
    unfold _build_messages at h
    cases hc : buildCatEntries spec 1 with
    | error e => simp [hc, Bind.bind, Except.bind] at h
    | ok cs =>
        simp only [hc, Bind.bind, Except.bind] at h
        have := Except.ok.inj h
        have hcs : cs = cats := congrArg Prod.snd this
        rw [← hcs]
  simp only [keysNodupB, Bool.and_eq_true, List.all_eq_true, decide_eq_true_eq] at hkeys
  obtain ⟨hknd, hkrest⟩ := hkeys
  obtain ⟨hvals, hnames, hlink⟩ := buildCatEntries_shape spec 1 cats hb
  obtain ⟨htrip, _⟩ := buildCatEntries_triples spec 1 cats hb
  have hlen : cats.length = spec.length := by
    have := congrArg List.length hnames
    simpa using this
  refine ⟨htrip, by rw [hlen]; simpa using hvals, hnames, ?_, ?_, ?_⟩
  · intro ce hce
    obtain ⟨subs, hmem, hbs⟩ := hlink ce hce
    obtain ⟨hsv, hsn, _⟩ := buildSubEntries_shape ce.name ce.value_cat subs 1 ce.subs hbs
    have hlen2 : ce.subs.length = subs.length := by
      have := congrArg List.length hsn
      simpa using this
    exact ⟨subs, hmem, by rw [hlen2]; simpa using hsv, hsn⟩
  · intro ce hce se hse
    obtain ⟨subs, hmem, hbs⟩ := hlink ce hce
    obtain ⟨_, _, hlink2⟩ := buildSubEntries_shape ce.name ce.value_cat subs 1 ce.subs hbs
    obtain ⟨ms, hmem2, hbm⟩ := hlink2 se hse
    obtain ⟨hmv, hmn, _⟩ :=
      buildMsgEntries_shape ce.name ce.value_cat se.name se.value_subcat ms 1 se.msgs hbm
    have hlen3 : se.msgs.length = ms.length := by
      have := congrArg List.length hmn
      simpa using this
    refine ⟨ms, by rw [hlen3]; simpa using hmv, hmn, ?_⟩
    exact List.mem_flatMap.mpr ⟨(ce.name, CatVal.cmap subs), hmem, by simpa using hmem2⟩
  · intro hdots
    simp only [noDotNamesB, Bool.and_eq_true, List.all_eq_true, Bool.not_eq_true'] at hdots
    have hcontains : ∀ (s : String), s.data.contains '.' = false → '.' ∉ s.data := by
      intro s hs hmem
      have : s.data.contains '.' = true := by
        exact List.elem_eq_true_of_mem hmem
      rw [this] at hs
      cases hs
    refine (buildCatEntries_paths spec 1 cats hb hknd ?_ ?_).1
    · intro p hp
      exact hcontains _ (hdots p hp).1
    · intro p hp subs hps
      have hk := hkrest p hp
      have hd := (hdots p hp).2
      rw [hps] at hk hd
      simp only [Bool.and_eq_true, List.all_eq_true, decide_eq_true_eq,
        Bool.not_eq_true'] at hk hd
      refine ⟨hk.1, ?_, ?_⟩
      · intro q hq
        exact hcontains _ (hd q hq)
      · intro q hq ms hqs
        have h2 := hk.2 q hq
        rw [hqs] at h2
        simpa using h2

/-- C2 witness. -/
theorem claim_C2_witness :
    (catalogTriples
        [⟨"A", 1, [⟨"S", 1, [⟨"A", 1, "S", 1, "M", 1, []⟩, ⟨"A", 1, "S", 1, "N", 2, []⟩]⟩,
            ⟨"T", 2, [⟨"A", 1, "T", 2, "P", 1, []⟩]⟩]⟩,
         ⟨"B", 2, [⟨"U", 1, [⟨"B", 2, "U", 1, "Q", 1, []⟩]⟩]⟩]).Nodup ∧
    ([⟨"A", 1, [⟨"S", 1, [⟨"A", 1, "S", 1, "M", 1, []⟩, ⟨"A", 1, "S", 1, "N", 2, []⟩]⟩,
            ⟨"T", 2, [⟨"A", 1, "T", 2, "P", 1, []⟩]⟩]⟩,
      (⟨"B", 2, [⟨"U", 1, [⟨"B", 2, "U", 1, "Q", 1, []⟩]⟩]⟩ : CatEntry)].map
        (fun ce => ce.value_cat))
      = List.range' 1 ([⟨"A", 1, [⟨"S", 1, [⟨"A", 1, "S", 1, "M", 1, []⟩,
            ⟨"A", 1, "S", 1, "N", 2, []⟩]⟩,
            ⟨"T", 2, [⟨"A", 1, "T", 2, "P", 1, []⟩]⟩]⟩,
          (⟨"B", 2, [⟨"U", 1, [⟨"B", 2, "U", 1, "Q", 1, []⟩]⟩]⟩ : CatEntry)] :
            List CatEntry).length ∧
    ([⟨"A", 1, [⟨"S", 1, [⟨"A", 1, "S", 1, "M", 1, []⟩, ⟨"A", 1, "S", 1, "N", 2, []⟩]⟩,
            ⟨"T", 2, [⟨"A", 1, "T", 2, "P", 1, []⟩]⟩]⟩,
      (⟨"B", 2, [⟨"U", 1, [⟨"B", 2, "U", 1, "Q", 1, []⟩]⟩]⟩ : CatEntry)].map
        (fun ce => ce.name))
      = ([("A", CatVal.cmap [("S", .smap [("M", .mlist []), ("N", .mlist [])]),
            ("T", .smap [("P", .mlist [])])]),
          ("B", CatVal.cmap [("U", .smap [("Q", .mlist [])])])].map Prod.fst) ∧
    (∀ ce ∈ ([⟨"A", 1, [⟨"S", 1, [⟨"A", 1, "S", 1, "M", 1, []⟩,
            ⟨"A", 1, "S", 1, "N", 2, []⟩]⟩,
            ⟨"T", 2, [⟨"A", 1, "T", 2, "P", 1, []⟩]⟩]⟩,
          (⟨"B", 2, [⟨"U", 1, [⟨"B", 2, "U", 1, "Q", 1, []⟩]⟩]⟩ : CatEntry)] :
            List CatEntry),
      ∃ subs, (ce.name, CatVal.cmap subs) ∈
          [("A", CatVal.cmap [("S", .smap [("M", .mlist []), ("N", .mlist [])]),
            ("T", .smap [("P", .mlist [])])]),
           ("B", CatVal.cmap [("U", .smap [("Q", .mlist [])])])] ∧
        ce.subs.map (fun se => se.value_subcat) = List.range' 1 ce.subs.length ∧
        ce.subs.map (fun se => se.name) = subs.map Prod.fst) ∧
    (∀ ce ∈ ([⟨"A", 1, [⟨"S", 1, [⟨"A", 1, "S", 1, "M", 1, []⟩,
            ⟨"A", 1, "S", 1, "N", 2, []⟩]⟩,
            ⟨"T", 2, [⟨"A", 1, "T", 2, "P", 1, []⟩]⟩]⟩,
          (⟨"B", 2, [⟨"U", 1, [⟨"B", 2, "U", 1, "Q", 1, []⟩]⟩]⟩ : CatEntry)] :
            List CatEntry),
      ∀ se ∈ ce.subs, ∃ ms, se.msgs.map (fun me => me.value)
          = List.range' 1 se.msgs.length ∧
        se.msgs.map (fun me => me.name) = ms.map Prod.fst ∧
        (se.name, SubcatVal.smap ms) ∈
          (([("A", CatVal.cmap [("S", .smap [("M", .mlist []), ("N", .mlist [])]),
              ("T", .smap [("P", .mlist [])])]),
            ("B", CatVal.cmap [("U", .smap [("Q", .mlist [])])])]).flatMap (fun p =>
            match p.snd with | .cmap subs => subs | .cnotdict => []))) ∧
    (noDotNamesB
        [("A", CatVal.cmap [("S", .smap [("M", .mlist []), ("N", .mlist [])]),
          ("T", .smap [("P", .mlist [])])]),
         ("B", CatVal.cmap [("U", .smap [("Q", .mlist [])])])] = true →
      (catalogPaths
        [⟨"A", 1, [⟨"S", 1, [⟨"A", 1, "S", 1, "M", 1, []⟩, ⟨"A", 1, "S", 1, "N", 2, []⟩]⟩,
            ⟨"T", 2, [⟨"A", 1, "T", 2, "P", 1, []⟩]⟩]⟩,
         ⟨"B", 2, [⟨"U", 1, [⟨"B", 2, "U", 1, "Q", 1, []⟩]⟩]⟩]).Nodup) := by
  exact claim_C2
    [("A", CatVal.cmap [("S", .smap [("M", .mlist []), ("N", .mlist [])]),
      ("T", .smap [("P", .mlist [])])]),
     ("B", CatVal.cmap [("U", .smap [("Q", .mlist [])])])]
    [("A", 1), ("B", 2)]
    [⟨"A", 1, [⟨"S", 1, [⟨"A", 1, "S", 1, "M", 1, []⟩, ⟨"A", 1, "S", 1, "N", 2, []⟩]⟩,
        ⟨"T", 2, [⟨"A", 1, "T", 2, "P", 1, []⟩]⟩]⟩,
     ⟨"B", 2, [⟨"U", 1, [⟨"B", 2, "U", 1, "Q", 1, []⟩]⟩]⟩]
    (by rfl) (by rfl)

/-! ### C8: enum field strictness -/

/-- If some field's effective check (the `field_defs` entry under its
stripped key) rejects the provided value, the field loop cannot
succeed. -/
theorem payload_loop_not_ok (pe : List (String × EnumDef))
    (fdefs : List (String × FieldInfo)) (kwargs : List (String × PyValue)) :
    ∀ (pd : List FieldSpec) (f : FieldSpec) (v : PyValue) (fi : FieldInfo),
      f ∈ pd →
      dlookup kwargs (stripPayloadEnumKey f.name) = some v →
      dlookup fdefs (stripPayloadEnumKey f.name) = some fi →
      (∃ e, validate_field pe (stripPayloadEnumKey f.name) fi v = .error e) →
      ∀ pl, payload_loop pe fdefs kwargs pd ≠ .ok pl := by
  intro pd
  induction pd with
  | nil => intro f v fi hf; simp at hf
  | cons f0 tl ih =>
      intro f v fi hf hkw hfd hverr pl hok
      rcases List.mem_cons.mp hf with hh | ht
      · subst hh
        simp only [payload_loop, hkw, hfd] at hok
        obtain ⟨e, he⟩ := hverr
        rw [he] at hok
        simp [Bind.bind, Except.bind] at hok
      · simp only [payload_loop] at hok
        cases h0 : dlookup kwargs (stripPayloadEnumKey f0.name) with
        | none => rw [h0] at hok; simp at hok
        | some v0 =>
            rw [h0] at hok
            cases h1 : dlookup fdefs (stripPayloadEnumKey f0.name) with
            | none => rw [h1] at hok; simp at hok
            | some fi0 =>
                rw [h1] at hok
                dsimp only at hok
                cases h2 : validate_field pe (stripPayloadEnumKey f0.name) fi0 v0 with
                | error e => rw [h2] at hok; simp [Bind.bind, Except.bind] at hok
                | ok u =>
                    cases u
                    rw [h2] at hok
                    cases h3 : payload_loop pe fdefs kwargs tl with
                    | error e => rw [h3] at hok; simp [Bind.bind, Except.bind] at hok
                    | ok tailv =>
                        exact ih f v fi ht hkw hfd hverr tailv h3

/-- C8 counterexample: in a schema whose message declares the enum field
`PayloadEnum_x` followed by an `int` field `x`, both fields collapse to the
stripped key `x` and the later (int) spec wins in `field_defs`; supplying
the plain integer 5 — a valid code of the registered enum `x` — then
SUCCEEDS, so construction does not always reject a plain integer for a
field declared with an enum type. -/
theorem claim_C8_counterexample :
    msgsOfState (load initialState
        ⟨none, none, [("x", [("A", 5)])],
          [("C", .cmap [("S", .smap [("M",
            .mlist [⟨"PayloadEnum_x", some "enum"⟩, ⟨"x", some "int"⟩])])])]⟩).fst
      = [⟨"C", 1, "S", 1, "M", 1, [⟨"PayloadEnum_x", some "enum"⟩, ⟨"x", some "int"⟩]⟩] ∧
    dlookup (peOfState (load initialState
        ⟨none, none, [("x", [("A", 5)])],
          [("C", .cmap [("S", .smap [("M",
            .mlist [⟨"PayloadEnum_x", some "enum"⟩, ⟨"x", some "int"⟩])])])]⟩).fst) "x"
      = some ⟨"x", [("A", 5)]⟩ ∧
    create_payload (load initialState
        ⟨none, none, [("x", [("A", 5)])],
          [("C", .cmap [("S", .smap [("M",
            .mlist [⟨"PayloadEnum_x", some "enum"⟩, ⟨"x", some "int"⟩])])])]⟩).fst
        ⟨"C", 1, "S", 1, "M", 1, [⟨"PayloadEnum_x", some "enum"⟩, ⟨"x", some "int"⟩]⟩
        [("x", .pint 5)]
      = .ok [.pint 5, .pint 5] := by
  refine ⟨by rfl, by rfl, by rfl⟩

/-- C8 (amended): when the field's stripped name effectively resolves to an
enum check (its `field_defs` entry is the enum kind — in particular when no
later field spec shadows its stripped name), a provided value that is not
an instance of that specific enum class never passes: construction cannot
succeed with a plain integer (even one equal to a valid code) or with a
member of a different enum; in the single-field case the error is exactly
the `TypeError` naming the field, the expected enum and the actual type. -/
theorem claim_C8 :
    (∀ (st : RuntimeState) (mc : List (String × Nat)) (msgs : List CatEntry)
      (pe : List (String × EnumDef)), st.MessageCategory = some mc →
      st.Messages = some msgs → st.PayloadEnum = some pe →
      ∀ (m : MsgEntry) (kwargs : List (String × PyValue)) (f : FieldSpec)
        (v : PyValue) (fi : FieldInfo),
        f ∈ m.payload_def →
        dlookup kwargs (stripPayloadEnumKey f.name) = some v →
        dlookup (field_defs_of m.payload_def) (stripPayloadEnumKey f.name) = some fi →
        fi.is_enum = true →
        (∀ ed, dlookup pe (stripPayloadEnumKey f.name) = some ed →
          pyIsEnumInstance v ed = false) →
        ∀ pl, create_payload st m kwargs ≠ .ok pl) ∧
    (∀ (st : RuntimeState) (mc : List (String × Nat)) (msgs : List CatEntry)
      (pe : List (String × EnumDef)), st.MessageCategory = some mc →
      st.Messages = some msgs → st.PayloadEnum = some pe →
      ∀ (m : MsgEntry) (nm : String) (ed : EnumDef) (v : PyValue),
        m.payload_def = [⟨nm, some "enum"⟩] →
        dlookup pe (stripPayloadEnumKey nm) = some ed →
        pyIsEnumInstance v ed = false →
        create_payload st m [(stripPayloadEnumKey nm, v)] =
          .error (.fieldTypeError (stripPayloadEnumKey nm) (stripPayloadEnumKey nm)
            (pyTypeName v))) := by
  constructor
  · intro st mc msgs pe hmc hms hpe m kwargs f v fi hf hkw hfd hienum hbad pl hok
    have hverr : ∃ e, validate_field pe (stripPayloadEnumKey f.name) fi v = .error e := by
      unfold validate_field
      rw [hienum]
      simp only [if_true]
      cases hed : dlookup pe (stripPayloadEnumKey f.name) with
      | none => exact ⟨_, rfl⟩
      | some ed =>
          dsimp only
          rw [hbad ed hed]
          exact ⟨.fieldTypeError (stripPayloadEnumKey f.name) (stripPayloadEnumKey f.name)
            (pyTypeName v), by simp⟩
    simp only [create_payload, hmc, hms, hpe] at hok
    by_cases heq : ((field_defs_of m.payload_def).map Prod.fst).toFinset =
        (kwargs.map Prod.fst).toFinset
    · rw [if_pos heq] at hok
      exact payload_loop_not_ok pe _ kwargs m.payload_def f v fi hf hkw hfd hverr pl hok
    · rw [if_neg heq] at hok
      by_cases hmiss : (((field_defs_of m.payload_def).map Prod.fst).toFinset \
          (kwargs.map Prod.fst).toFinset).Nonempty
      · rw [if_pos hmiss] at hok; cases hok
      · rw [if_neg hmiss] at hok
        by_cases hext : ((kwargs.map Prod.fst).toFinset \
            ((field_defs_of m.payload_def).map Prod.fst).toFinset).Nonempty
        · rw [if_pos hext] at hok; cases hok
        · rw [if_neg hext] at hok
          exact payload_loop_not_ok pe _ kwargs m.payload_def f v fi hf hkw hfd hverr pl hok
  · intro st mc msgs pe hmc hms hpe m nm ed v hpd hed hbad
    have hcp := create_payload_single st mc msgs pe hmc hms hpe m nm (some "enum") v hpd
    rw [hcp]
    simp [validate_field, hed, hbad, Bind.bind, Except.bind]

/-- C8 witness. -/
theorem claim_C8_witness :
    create_payload (load initialState
        ⟨none, none, [("FlightMode", [("LOITER", 1)])],
          [("C", .cmap [("S", .smap [("M",
            .mlist [⟨"FlightMode", some "enum"⟩])])])]⟩).fst
        ⟨"C", 1, "S", 1, "M", 1, [⟨"FlightMode", some "enum"⟩]⟩
        [(stripPayloadEnumKey "FlightMode", .pint 1)]
      = .error (.fieldTypeError (stripPayloadEnumKey "FlightMode")
          (stripPayloadEnumKey "FlightMode") (pyTypeName (.pint 1))) := by
  exact claim_C8.2 (load initialState
        ⟨none, none, [("FlightMode", [("LOITER", 1)])],
          [("C", .cmap [("S", .smap [("M",
            .mlist [⟨"FlightMode", some "enum"⟩])])])]⟩).fst
    [("C", 1)]
    [⟨"C", 1, [⟨"S", 1, [⟨"C", 1, "S", 1, "M", 1, [⟨"FlightMode", some "enum"⟩]⟩]⟩]⟩]
    [("FlightMode", ⟨"FlightMode", [("LOITER", 1)]⟩)]
    (by rfl) (by rfl) (by rfl)
    ⟨"C", 1, "S", 1, "M", 1, [⟨"FlightMode", some "enum"⟩]⟩ "FlightMode"
    ⟨"FlightMode", [("LOITER", 1)]⟩ (.pint 1)
    (by rfl) (by rfl) (by rfl)

/-! ### C10: prefix stripping at the public interface -/

/-- A successful construction forces the provided keys to be exactly the
stripped field names. -/
theorem create_payload_keys (st : RuntimeState) (mc : List (String × Nat))
    (msgs : List CatEntry) (pe : List (String × EnumDef))
    (hmc : st.MessageCategory = some mc) (hms : st.Messages = some msgs)
    (hpe : st.PayloadEnum = some pe) (m : MsgEntry) (kwargs : List (String × PyValue))
    (pl : List PyValue) (h : create_payload st m kwargs = .ok pl) :
    (kwargs.map Prod.fst).toFinset =
      (m.payload_def.map (fun f => stripPayloadEnumKey f.name)).toFinset := by
  simp only [create_payload, hmc, hms, hpe] at h
  by_cases heq : ((field_defs_of m.payload_def).map Prod.fst).toFinset =
      (kwargs.map Prod.fst).toFinset
  · rw [← heq, field_defs_keys]
  · exfalso
    rw [if_neg heq] at h
    by_cases hmiss : (((field_defs_of m.payload_def).map Prod.fst).toFinset \
        (kwargs.map Prod.fst).toFinset).Nonempty
    · rw [if_pos hmiss] at h; cases h
    · rw [if_neg hmiss] at h
      by_cases hext : ((kwargs.map Prod.fst).toFinset \
          ((field_defs_of m.payload_def).map Prod.fst).toFinset).Nonempty
      · rw [if_pos hext] at h; cases h
      · rw [Finset.not_nonempty_iff_eq_empty, Finset.sdiff_eq_empty_iff_subset] at hmiss hext
        exact heq (Finset.Subset.antisymm hmiss hext)

/-- The keys of the dict built by the decode field loop are the stripped
field names (together with whatever was already in the accumulator). -/
theorem decode_fields_keys (pe : List (String × EnumDef)) :
    ∀ (pd : List FieldSpec) (ws : List MPVal) (acc d : List (String × PyValue)),
      decode_fields pe pd ws acc = .ok d → pd.length = ws.length →
      (d.map Prod.fst).toFinset =
        (acc.map Prod.fst).toFinset ∪
          (pd.map (fun f => stripPayloadEnumKey f.name)).toFinset := by
  intro pd
  induction pd with
  | nil =>
      intro ws acc d h _
      have : acc = d := Except.ok.inj h
      subst this
      simp
  | cons f fs ih =>
      intro ws acc d h hlen
      cases ws with
      | nil => simp at hlen
      | cons w ws' =>
          simp only [decode_fields] at h
          cases hv : decode_field_value pe f w with
          | error e => rw [hv] at h; simp [Bind.bind, Except.bind] at h
          | ok value =>
              rw [hv] at h
              simp only [Bind.bind, Except.bind] at h
              have hrec := ih ws' (dinsert acc (stripPayloadEnumKey f.name) value) d h
                (by simpa using hlen)
              rw [hrec, dinsert_keys_toFinset]
              ext x
              simp only [Finset.mem_union, Finset.mem_insert, List.map_cons,
                List.toFinset_cons]
              tauto

/-- A successful decode returns a dict keyed exactly by the stripped field
names of the resolved descriptor. -/
theorem decode_message_keys (st : RuntimeState) (data : List Nat) (em : MsgEntry)
    (d : List (String × PyValue)) (h : decode_message st data = .ok (em, d)) :
    (d.map Prod.fst).toFinset =
      (em.payload_def.map (fun f => stripPayloadEnumKey f.name)).toFinset := by
  unfold decode_message at h
  cases hmc : st.MessageCategory with
  | none => rw [hmc] at h; cases h
  | some mc =>
      cases hms : st.Messages with
      | none => rw [hmc, hms] at h; cases h
      | some msgs =>
          cases hpe : st.PayloadEnum with
          | none => rw [hmc, hms, hpe] at h; cases h
          | some pe =>
              rw [hmc, hms, hpe] at h
              cases hu : unpackb data with
              | error e => rw [hu] at h; simp [Bind.bind, Except.bind] at h
              | ok v =>
                  rw [hu] at h
                  simp only [Bind.bind, Except.bind] at h
                  cases hf : decode_frame v with
                  | error e => rw [hf] at h; simp [Bind.bind, Except.bind] at h
                  | ok fr =>
                      rw [hf] at h
                      simp only [Bind.bind, Except.bind] at h
                      cases hg : get_message_enum st fr.1 fr.2.1 fr.2.2.1 with
                      | error e => rw [hg] at h; simp [Bind.bind, Except.bind] at h
                      | ok em' =>
                          rw [hg] at h
                          simp only [Bind.bind, Except.bind] at h
                          by_cases hlen : em'.payload_def.length ≠ fr.2.2.2.length
                          · rw [if_pos hlen] at h; cases h
                          · rw [if_neg hlen] at h
                            push_neg at hlen
                            cases hd : decode_fields pe em'.payload_def fr.2.2.2 [] with
                            | error e =>
                                rw [hd] at h; simp [Bind.bind, Except.bind] at h
                            | ok d' =>
                                rw [hd] at h
                                simp only [Bind.bind, Except.bind] at h
                                have hpair := Except.ok.inj h
                                have hem : em' = em := congrArg Prod.fst hpair
                                have hdd : d' = d := congrArg Prod.snd hpair
                                rw [← hem, ← hdd]
                                have := decode_fields_keys pe em'.payload_def fr.2.2.2 [] d' hd hlen
                                simpa using this

/-- C10: both construction and decoding address a `PayloadEnum_`-prefixed
field by its stripped name: a successful construction's provided key set
is exactly the stripped names, the enum class of a single
`PayloadEnum_`-prefixed enum field is resolved under the stripped name
(and the member of that enum is accepted under it), and a successful
decode's name-keyed map is keyed by exactly the stripped names — the
prefixed spelling never appears at the public interface. -/
theorem claim_C10 :
    (∀ (st : RuntimeState) (mc : List (String × Nat)) (msgs : List CatEntry)
      (pe : List (String × EnumDef)), st.MessageCategory = some mc →
      st.Messages = some msgs → st.PayloadEnum = some pe →
      ∀ (m : MsgEntry) (kwargs : List (String × PyValue)) (pl : List PyValue),
        create_payload st m kwargs = .ok pl →
        (kwargs.map Prod.fst).toFinset =
          (m.payload_def.map (fun f => stripPayloadEnumKey f.name)).toFinset) ∧
    (∀ (st : RuntimeState) (mc : List (String × Nat)) (msgs : List CatEntry)
      (pe : List (String × EnumDef)), st.MessageCategory = some mc →
      st.Messages = some msgs → st.PayloadEnum = some pe →
      ∀ (m : MsgEntry) (x : String) (ed : EnumDef) (c : Int),
        m.payload_def = [⟨"PayloadEnum_" ++ x, some "enum"⟩] →
        dlookup pe (stripPayloadEnumKey ("PayloadEnum_" ++ x)) = some ed →
        create_payload st m [(stripPayloadEnumKey ("PayloadEnum_" ++ x), .penum ed.ename c)]
          = .ok [.penum ed.ename c]) ∧
    (∀ (st : RuntimeState) (data : List Nat) (em : MsgEntry)
      (d : List (String × PyValue)),
        decode_message st data = .ok (em, d) →
        (d.map Prod.fst).toFinset =
          (em.payload_def.map (fun f => stripPayloadEnumKey f.name)).toFinset) := by
  refine ⟨?_, ?_, ?_⟩
  · intro st mc msgs pe hmc hms hpe m kwargs pl h
    exact create_payload_keys st mc msgs pe hmc hms hpe m kwargs pl h
  · intro st mc msgs pe hmc hms hpe m x ed c hpd hed
    have hcp := create_payload_single st mc msgs pe hmc hms hpe m ("PayloadEnum_" ++ x)
      (some "enum") (.penum ed.ename c) hpd
    rw [hcp]
    simp [validate_field, hed, pyIsEnumInstance, Bind.bind, Except.bind]
  · intro st data em d h
    exact decode_message_keys st data em d h

/-- C10 witness. -/
theorem claim_C10_witness :
    create_payload (load initialState
        ⟨none, none, [("FlightMode", [("LOITER", 1)])],
          [("C", .cmap [("S", .smap [("M",
            .mlist [⟨"PayloadEnum_FlightMode", some "enum"⟩])])])]⟩).fst
        ⟨"C", 1, "S", 1, "M", 1, [⟨"PayloadEnum_FlightMode", some "enum"⟩]⟩
        [(stripPayloadEnumKey ("PayloadEnum_" ++ "FlightMode"),
          .penum (EnumDef.ename ⟨"FlightMode", [("LOITER", 1)]⟩) 1)]
      = .ok [.penum (EnumDef.ename ⟨"FlightMode", [("LOITER", 1)]⟩) 1] := by
  exact claim_C10.2.1 (load initialState
        ⟨none, none, [("FlightMode", [("LOITER", 1)])],
          [("C", .cmap [("S", .smap [("M",
            .mlist [⟨"PayloadEnum_FlightMode", some "enum"⟩])])])]⟩).fst
    [("C", 1)]
    [⟨"C", 1, [⟨"S", 1, [⟨"C", 1, "S", 1, "M", 1,
      [⟨"PayloadEnum_FlightMode", some "enum"⟩]⟩]⟩]⟩]
    [("FlightMode", ⟨"FlightMode", [("LOITER", 1)]⟩)]
    (by rfl) (by rfl) (by rfl)
    ⟨"C", 1, "S", 1, "M", 1, [⟨"PayloadEnum_FlightMode", some "enum"⟩]⟩
    "FlightMode" ⟨"FlightMode", [("LOITER", 1)]⟩ 1
    (by rfl) (by rfl)

/-! ### Lemmas: bytes and UTF-8 -/

theorem toBE_length (k n : Nat) : (toBE k n).length = k := by
  induction k generalizing n with
  | zero => rfl
  | succ k ih => simp [toBE, ih]

theorem fromBE_append_singleton (xs : List Nat) (y : Nat) :
    fromBE (xs ++ [y]) = 256 * fromBE xs + y := by
  simp [fromBE, List.foldl_append]
  ring

theorem fromBE_toBE (k n : Nat) (h : n < 256 ^ k) : fromBE (toBE k n) = n := by
  induction k generalizing n with
  | zero =>
      simp [pow_zero] at h
      simp [toBE, fromBE, h]
  | succ k ih =>
      have hdiv : n / 256 < 256 ^ k := by
        rw [Nat.div_lt_iff_lt_mul (by norm_num : 0 < 256)]
        calc n < 256 ^ (k + 1) := h
        _ = 256 ^ k * 256 := by rw [pow_succ]
      rw [toBE, fromBE_append_singleton, ih _ hdiv]
      omega

theorem readBytes_exact (k : Nat) (xs rest : List Nat) (h : xs.length = k) :
    readBytes k (xs ++ rest) = .ok (xs, rest) := by
  subst h
  simp [readBytes, List.take_left, List.drop_left]

/-- The UTF-8 encoding of a character steps back to its scalar value. -/
theorem utf8Step_encodeChar (c : Char) (bs : List Nat) :
    ∃ b0 tail, utf8EncodeChar c = b0 :: tail ∧
      utf8Step b0 (tail ++ bs) = some (c.toNat, bs) := by
  have hval : c.toNat < 55296 ∨ (57344 ≤ c.toNat ∧ c.toNat < 1114112) := by
    have hv := c.valid
    rcases hv with h | ⟨h1, h2⟩
    · left
      have : c.val.toNat < 55296 := h
      simpa [Char.toNat] using this
    · right
      constructor
      · have : 57343 < c.val.toNat := h1
        simp only [Char.toNat]
        omega
      · simpa [Char.toNat] using h2
  by_cases h1 : c.toNat < 128
  · refine ⟨c.toNat, [], by simp [utf8EncodeChar, h1], ?_⟩
    rw [List.nil_append]
    unfold utf8Step
    rw [if_pos h1]
  · by_cases h2 : c.toNat < 2048
    · refine ⟨192 + c.toNat / 64, [128 + c.toNat % 64],
        by simp [utf8EncodeChar, h1, h2], ?_⟩
      have hb0a : ¬ 192 + c.toNat / 64 < 128 := by omega
      have hb0b : ¬ 192 + c.toNat / 64 < 192 := by omega
      have hb0c : 192 + c.toNat / 64 < 224 := by omega
      have hcont : contByte (128 + c.toNat % 64) = true := by
        simp only [contByte, Bool.and_eq_true, decide_eq_true_eq]
        omega
      rw [List.cons_append, List.nil_append]
      unfold utf8Step
      rw [if_neg hb0a, if_neg hb0b, if_pos hb0c]
      dsimp only
      rw [if_pos hcont,
        if_pos (by omega :
          128 ≤ (192 + c.toNat / 64 - 192) * 64 + (128 + c.toNat % 64 - 128))]
      rw [show (192 + c.toNat / 64 - 192) * 64 + (128 + c.toNat % 64 - 128) = c.toNat from
        by omega]
    · by_cases h3 : c.toNat < 65536
      · refine ⟨224 + c.toNat / 4096, [128 + c.toNat / 64 % 64, 128 + c.toNat % 64],
          by simp [utf8EncodeChar, h1, h2, h3], ?_⟩
        have hb0a : ¬ 224 + c.toNat / 4096 < 128 := by omega
        have hb0b : ¬ 224 + c.toNat / 4096 < 192 := by omega
        have hb0c : ¬ 224 + c.toNat / 4096 < 224 := by omega
        have hb0d : 224 + c.toNat / 4096 < 240 := by omega
        have hcont : (contByte (128 + c.toNat / 64 % 64) &&
            contByte (128 + c.toNat % 64)) = true := by
          simp only [contByte, Bool.and_eq_true, decide_eq_true_eq]
          omega
        have hcond : 2048 ≤ (224 + c.toNat / 4096 - 224) * 4096
            + (128 + c.toNat / 64 % 64 - 128) * 64 + (128 + c.toNat % 64 - 128) ∧
            ((224 + c.toNat / 4096 - 224) * 4096 + (128 + c.toNat / 64 % 64 - 128) * 64
              + (128 + c.toNat % 64 - 128) < 55296 ∨
             57344 ≤ (224 + c.toNat / 4096 - 224) * 4096
              + (128 + c.toNat / 64 % 64 - 128) * 64 + (128 + c.toNat % 64 - 128)) := by
          have harith : (224 + c.toNat / 4096 - 224) * 4096
              + (128 + c.toNat / 64 % 64 - 128) * 64 + (128 + c.toNat % 64 - 128)
              = c.toNat := by omega
          rw [harith]
          refine ⟨by omega, ?_⟩
          rcases hval with h | ⟨ha, _⟩
          · exact Or.inl h
          · exact Or.inr ha
        rw [List.cons_append, List.cons_append, List.nil_append]
        unfold utf8Step
        rw [if_neg hb0a, if_neg hb0b, if_neg hb0c, if_pos hb0d]
        dsimp only
        rw [if_pos hcont, if_pos hcond]
        rw [show (224 + c.toNat / 4096 - 224) * 4096
          + (128 + c.toNat / 64 % 64 - 128) * 64 + (128 + c.toNat % 64 - 128)
          = c.toNat from by omega]
      · have hup : c.toNat < 1114112 := by
          rcases hval with h | ⟨_, h⟩
          · omega
          · exact h
        refine ⟨240 + c.toNat / 262144,
          [128 + c.toNat / 4096 % 64, 128 + c.toNat / 64 % 64, 128 + c.toNat % 64],
          by simp [utf8EncodeChar, h1, h2, h3], ?_⟩
        have hb0a : ¬ 240 + c.toNat / 262144 < 128 := by omega
        have hb0b : ¬ 240 + c.toNat / 262144 < 192 := by omega
        have hb0c : ¬ 240 + c.toNat / 262144 < 224 := by omega
        have hb0d : ¬ 240 + c.toNat / 262144 < 240 := by omega
        have hb0e : 240 + c.toNat / 262144 < 248 := by omega
        have hcont : (contByte (128 + c.toNat / 4096 % 64) &&
            contByte (128 + c.toNat / 64 % 64) && contByte (128 + c.toNat % 64)) = true := by
          simp only [contByte, Bool.and_eq_true, decide_eq_true_eq]
          omega
        have hcond : 65536 ≤ (240 + c.toNat / 262144 - 240) * 262144
            + (128 + c.toNat / 4096 % 64 - 128) * 4096
            + (128 + c.toNat / 64 % 64 - 128) * 64 + (128 + c.toNat % 64 - 128) ∧
            (240 + c.toNat / 262144 - 240) * 262144
            + (128 + c.toNat / 4096 % 64 - 128) * 4096
            + (128 + c.toNat / 64 % 64 - 128) * 64 + (128 + c.toNat % 64 - 128)
              < 1114112 := by
          constructor
          · omega
          · omega
        rw [List.cons_append, List.cons_append, List.cons_append, List.nil_append]
        unfold utf8Step
        rw [if_neg hb0a, if_neg hb0b, if_neg hb0c, if_neg hb0d, if_pos hb0e]
        dsimp only
        rw [if_pos hcont, if_pos hcond]
        rw [show (240 + c.toNat / 262144 - 240) * 262144
          + (128 + c.toNat / 4096 % 64 - 128) * 4096
          + (128 + c.toNat / 64 % 64 - 128) * 64 + (128 + c.toNat % 64 - 128)
          = c.toNat from by omega]

/-- Decoding the UTF-8 bytes of one character consumes exactly them. -/
theorem utf8Decode_encodeChar (c : Char) (bs : List Nat) :
    utf8Decode (utf8EncodeChar c ++ bs) = (utf8Decode bs).map (fun cs => c :: cs) := by
  obtain ⟨b0, tail, henc, hstep⟩ := utf8Step_encodeChar c bs
  rw [henc, List.cons_append, utf8Decode.eq_def]
  dsimp only
  split
  · rename_i vr heq
    rw [hstep] at heq
    have hvr : (c.toNat, bs) = vr := Option.some.inj heq
    rw [← hvr]
    rw [Char.ofNat_toNat c]
  · rename_i heq
    rw [hstep] at heq
    cases heq

/-- UTF-8 decoding inverts UTF-8 encoding. -/
theorem utf8Decode_encode (s : String) : utf8Decode (utf8Encode s) = some s.data := by
  rw [utf8Encode]
  induction s.data with
  | nil =>
      rw [show (List.map utf8EncodeChar []).flatten = ([] : List Nat) from rfl,
        utf8Decode.eq_def]
  | cons c cs ih =>
      simp only [List.map_cons, List.flatten_cons]
      rw [utf8Decode_encodeChar c _, ih]
      rfl

/-! ### Lemmas: msgpack roundtrip -/

theorem parseVal_packInt (n : Int) (bs : List Nat) (h : packInt n = .ok bs)
    (fuel : Nat) (rest : List Nat) :
    parseVal (fuel + 1) (bs ++ rest) = .ok (.mint n, rest) := by
  unfold packInt at h
  split_ifs at h with h1 h2 h3 h4 h5 h6 h7 h8 h9
  · -- fixint
    have hbs : [(n % 256).toNat] = bs := Except.ok.inj h
    subst hbs
    by_cases hn : 0 ≤ n
    · have hb : (n % 256).toNat = n.toNat := by omega
      rw [List.cons_append, List.nil_append, hb, parseVal.eq_def]
      dsimp only
      rw [if_pos (show n.toNat < 128 by omega)]
      have : ((n.toNat : Int)) = n := by omega
      rw [this]
    · rw [List.cons_append, List.nil_append, parseVal.eq_def]
      dsimp only
      rw [if_neg (show ¬ (n % 256).toNat < 128 by omega),
        if_neg (show ¬ (n % 256).toNat < 144 by omega),
        if_neg (show ¬ (n % 256).toNat < 160 by omega),
        if_neg (show ¬ (n % 256).toNat < 192 by omega),
        if_neg (show ¬ (n % 256).toNat = 194 by omega),
        if_neg (show ¬ (n % 256).toNat = 195 by omega),
        if_neg (show ¬ (n % 256).toNat = 196 by omega),
        if_neg (show ¬ (n % 256).toNat = 197 by omega),
        if_neg (show ¬ (n % 256).toNat = 198 by omega),
        if_neg (show ¬ (n % 256).toNat = 203 by omega),
        if_neg (show ¬ (n % 256).toNat = 204 by omega),
        if_neg (show ¬ (n % 256).toNat = 205 by omega),
        if_neg (show ¬ (n % 256).toNat = 206 by omega),
        if_neg (show ¬ (n % 256).toNat = 207 by omega),
        if_neg (show ¬ (n % 256).toNat = 208 by omega),
        if_neg (show ¬ (n % 256).toNat = 209 by omega),
        if_neg (show ¬ (n % 256).toNat = 210 by omega),
        if_neg (show ¬ (n % 256).toNat = 211 by omega),
        if_neg (show ¬ (n % 256).toNat = 217 by omega),
        if_neg (show ¬ (n % 256).toNat = 218 by omega),
        if_neg (show ¬ (n % 256).toNat = 219 by omega),
        if_neg (show ¬ (n % 256).toNat = 220 by omega),
        if_neg (show ¬ (n % 256).toNat = 221 by omega),
        if_pos (show 224 ≤ (n % 256).toNat by omega)]
      have : (((n % 256).toNat : Int)) - 256 = n := by omega
      rw [this]
  · -- uint8
    have hbs : [204, n.toNat] = bs := Except.ok.inj h
    subst hbs
    rw [List.cons_append, List.cons_append, List.nil_append, parseVal.eq_def]
    dsimp only
    norm_num [readBytes, Bind.bind, Except.bind, fromBE]
    omega
  · -- uint16
    have hbs : 205 :: toBE 2 n.toNat = bs := Except.ok.inj h
    subst hbs
    have hlt : n.toNat < 256 ^ 2 := by
      have : (256 : Nat) ^ 2 = 65536 := by norm_num
      omega
    rw [List.cons_append, parseVal.eq_def]
    dsimp only
    norm_num
    rw [readBytes_exact 2 _ rest (toBE_length 2 n.toNat)]
    simp only [Bind.bind, Except.bind, fromBE_toBE 2 n.toNat hlt]
    have : ((n.toNat : Int)) = n := by omega
    rw [this]
  · -- uint32
    have hbs : 206 :: toBE 4 n.toNat = bs := Except.ok.inj h
    subst hbs
    have hlt : n.toNat < 256 ^ 4 := by
      have : (256 : Nat) ^ 4 = 4294967296 := by norm_num
      omega
    rw [List.cons_append, parseVal.eq_def]
    dsimp only
    norm_num
    rw [readBytes_exact 4 _ rest (toBE_length 4 n.toNat)]
    simp only [Bind.bind, Except.bind, fromBE_toBE 4 n.toNat hlt]
    have : ((n.toNat : Int)) = n := by omega
    rw [this]
  · -- uint64
    have hbs : 207 :: toBE 8 n.toNat = bs := Except.ok.inj h
    subst hbs
    have hlt : n.toNat < 256 ^ 8 := by
      have : (256 : Nat) ^ 8 = 18446744073709551616 := by norm_num
      omega
    rw [List.cons_append, parseVal.eq_def]
    dsimp only
    norm_num
    rw [readBytes_exact 8 _ rest (toBE_length 8 n.toNat)]
    simp only [Bind.bind, Except.bind, fromBE_toBE 8 n.toNat hlt]
    have : ((n.toNat : Int)) = n := by omega
    rw [this]
  · -- int8
    have hbs : [208, (n + 256).toNat] = bs := Except.ok.inj h
    subst hbs
    rw [List.cons_append, List.cons_append, List.nil_append, parseVal.eq_def]
    dsimp only
    norm_num [readBytes, Bind.bind, Except.bind, fromBE]
    rw [if_neg (by omega : ¬ (n + 256).toNat < 128)]
    rw [max_eq_left (by omega : (0 : Int) ≤ n + 256)]
    omega
  · -- int16
    have hbs : 209 :: toBE 2 (n + 65536).toNat = bs := Except.ok.inj h
    subst hbs
    have hlt : (n + 65536).toNat < 256 ^ 2 := by
      have : (256 : Nat) ^ 2 = 65536 := by norm_num
      omega
    rw [List.cons_append, parseVal.eq_def]
    dsimp only
    norm_num
    rw [readBytes_exact 2 _ rest (toBE_length 2 (n + 65536).toNat)]
    simp only [Bind.bind, Except.bind, fromBE_toBE 2 _ hlt]
    rw [if_neg (by omega : ¬ (n + 65536).toNat < 32768)]
    have : (((n + 65536).toNat : Int)) - 65536 = n := by omega
    rw [this]
  · -- int32
    have hbs : 210 :: toBE 4 (n + 4294967296).toNat = bs := Except.ok.inj h
    subst hbs
    have hlt : (n + 4294967296).toNat < 256 ^ 4 := by
      have : (256 : Nat) ^ 4 = 4294967296 := by norm_num
      omega
    rw [List.cons_append, parseVal.eq_def]
    dsimp only
    norm_num
    rw [readBytes_exact 4 _ rest (toBE_length 4 (n + 4294967296).toNat)]
    simp only [Bind.bind, Except.bind, fromBE_toBE 4 _ hlt]
    rw [if_neg (by omega : ¬ (n + 4294967296).toNat < 2147483648)]
    have : (((n + 4294967296).toNat : Int)) - 4294967296 = n := by omega
    rw [this]
  · -- int64
    have hbs : 211 :: toBE 8 (n + 18446744073709551616).toNat = bs := Except.ok.inj h
    subst hbs
    have hlt : (n + 18446744073709551616).toNat < 256 ^ 8 := by
      have : (256 : Nat) ^ 8 = 18446744073709551616 := by norm_num
      omega
    rw [List.cons_append, parseVal.eq_def]
    dsimp only
    norm_num
    rw [readBytes_exact 8 _ rest (toBE_length 8 (n + 18446744073709551616).toNat)]
    simp only [Bind.bind, Except.bind, fromBE_toBE 8 _ hlt]
    rw [if_neg (by omega : ¬ (n + 18446744073709551616).toNat < 9223372036854775808)]
    have : (((n + 18446744073709551616).toNat : Int)) - 18446744073709551616 = n := by
      omega
    rw [this]

theorem parseVal_packVal_scalar (v : MPVal) (hs : v.isScalar = true) (hwf : v.wfB = true)
    (bs : List Nat) (h : packVal v = .ok bs) (fuel : Nat) (rest : List Nat) :
    parseVal (fuel + 1) (bs ++ rest) = .ok (v, rest) := by
  cases v with
  | marr xs => simp [MPVal.isScalar] at hs
  | mint n =>
      refine parseVal_packInt n bs ?_ fuel rest
      simpa [packVal] using h
  | mbool b =>
      cases b with
      | false =>
          simp only [packVal, Except.ok.injEq] at h
          subst h
          rw [List.cons_append, List.nil_append, parseVal.eq_def]
          dsimp only
          norm_num
      | true =>
          simp only [packVal, Except.ok.injEq] at h
          subst h
          rw [List.cons_append, List.nil_append, parseVal.eq_def]
          dsimp only
          norm_num
  | mfloat bits =>
      simp only [packVal, Except.ok.injEq] at h
      subst h
      have hlt : bits < 256 ^ 8 := by
        have h1 : (256 : Nat) ^ 8 = 18446744073709551616 := by norm_num
        have h2 : bits < 18446744073709551616 := by
          simpa [MPVal.wfB] using hwf
        omega
      rw [List.cons_append, parseVal.eq_def]
      dsimp only
      norm_num
      rw [readBytes_exact 8 _ rest (toBE_length 8 bits)]
      simp only [Bind.bind, Except.bind, fromBE_toBE 8 bits hlt]
  | mstr s =>
      simp only [packVal] at h
      split_ifs at h with h1 h2 h3 h4
      · rw [Except.ok.injEq] at h
        subst h
        rw [List.cons_append, parseVal.eq_def]
        dsimp only
        rw [if_neg (by omega), if_neg (by omega), if_neg (by omega), if_pos (by omega :
          160 + (utf8Encode s).length < 192)]
        rw [show 160 + (utf8Encode s).length - 160 = (utf8Encode s).length from by omega]
        rw [readBytes_exact (utf8Encode s).length (utf8Encode s) rest rfl]
        simp only [Bind.bind, Except.bind]
        rw [utf8Decode_encode]
      · rw [Except.ok.injEq] at h
        subst h
        rw [List.cons_append, List.cons_append, parseVal.eq_def]
        dsimp only
        norm_num
        rw [show ((utf8Encode s).length :: (utf8Encode s ++ rest))
          = [(utf8Encode s).length] ++ (utf8Encode s ++ rest) from rfl]
        rw [readBytes_exact 1 [(utf8Encode s).length] (utf8Encode s ++ rest) rfl]
        simp only [Bind.bind, Except.bind]
        rw [show fromBE [(utf8Encode s).length] = (utf8Encode s).length from by
          simp [fromBE]]
        rw [readBytes_exact (utf8Encode s).length (utf8Encode s) rest rfl]
        simp only [Bind.bind, Except.bind]
        rw [utf8Decode_encode]
      · rw [Except.ok.injEq] at h
        subst h
        have hlt : (utf8Encode s).length < 256 ^ 2 := by
          have : (256 : Nat) ^ 2 = 65536 := by norm_num
          omega
        rw [List.cons_append, List.append_assoc, parseVal.eq_def]
        dsimp only
        norm_num
        rw [readBytes_exact 2 _ _ (toBE_length 2 _)]
        simp only [Bind.bind, Except.bind]
        rw [fromBE_toBE 2 _ hlt,
          readBytes_exact (utf8Encode s).length (utf8Encode s) rest rfl]
        simp only [Bind.bind, Except.bind]
        rw [utf8Decode_encode]
      · rw [Except.ok.injEq] at h
        subst h
        have hlt : (utf8Encode s).length < 256 ^ 4 := by
          have : (256 : Nat) ^ 4 = 4294967296 := by norm_num
          omega
        rw [List.cons_append, List.append_assoc, parseVal.eq_def]
        dsimp only
        norm_num
        rw [readBytes_exact 4 _ _ (toBE_length 4 _)]
        simp only [Bind.bind, Except.bind]
        rw [fromBE_toBE 4 _ hlt,
          readBytes_exact (utf8Encode s).length (utf8Encode s) rest rfl]
        simp only [Bind.bind, Except.bind]
        rw [utf8Decode_encode]
  | mbin data =>
      simp only [packVal] at h
      split_ifs at h with h1 h2 h3
      · rw [Except.ok.injEq] at h
        subst h
        rw [List.cons_append, List.cons_append, parseVal.eq_def]
        dsimp only
        norm_num
        rw [show (data.length :: (data ++ rest)) = [data.length] ++ (data ++ rest) from rfl]
        rw [readBytes_exact 1 [data.length] (data ++ rest) rfl]
        simp only [Bind.bind, Except.bind]
        rw [show fromBE [data.length] = data.length from by simp [fromBE]]
        rw [readBytes_exact data.length data rest rfl]
      · rw [Except.ok.injEq] at h
        subst h
        have hlt : data.length < 256 ^ 2 := by
          have : (256 : Nat) ^ 2 = 65536 := by norm_num
          omega
        rw [List.cons_append, List.append_assoc, parseVal.eq_def]
        dsimp only
        norm_num
        rw [readBytes_exact 2 _ _ (toBE_length 2 _)]
        simp only [Bind.bind, Except.bind]
        rw [fromBE_toBE 2 _ hlt, readBytes_exact data.length data rest rfl]
      · rw [Except.ok.injEq] at h
        subst h
        have hlt : data.length < 256 ^ 4 := by
          have : (256 : Nat) ^ 4 = 4294967296 := by norm_num
          omega
        rw [List.cons_append, List.append_assoc, parseVal.eq_def]
        dsimp only
        norm_num
        rw [readBytes_exact 4 _ _ (toBE_length 4 _)]
        simp only [Bind.bind, Except.bind]
        rw [fromBE_toBE 4 _ hlt, readBytes_exact data.length data rest rfl]

theorem parseMany_packList (xs : List MPVal)
    (hs : ∀ x ∈ xs, x.isScalar = true ∧ x.wfB = true) (bss : List Nat)
    (h : packList xs = .ok bss) (fuel : Nat) (rest : List Nat) :
    parseMany (fuel + 1) xs.length (bss ++ rest) = .ok (xs, rest) := by
  induction xs generalizing bss rest with
  | nil =>
      simp only [packList, Except.ok.injEq] at h
      subst h
      simp [parseMany]
  | cons x xs ih =>
      simp only [packList] at h
      cases hx : packVal x with
      | error e => rw [hx] at h; simp [Bind.bind, Except.bind] at h
      | ok b =>
          rw [hx] at h
          simp only [Bind.bind, Except.bind] at h
          cases hxs : packList xs with
          | error e => rw [hxs] at h; simp [Bind.bind, Except.bind] at h
          | ok bs =>
              rw [hxs] at h
              simp only [Bind.bind, Except.bind, Except.ok.injEq] at h
              subst h
              rw [List.length_cons, parseMany, List.append_assoc]
              rw [parseVal_packVal_scalar x (hs x (List.mem_cons_self _ _)).1
                (hs x (List.mem_cons_self _ _)).2 b hx fuel (bs ++ rest)]
              simp only [Bind.bind, Except.bind]
              rw [ih (fun y hy => hs y (List.mem_cons_of_mem _ hy)) bs hxs rest]

/-- Parsing a packed array of scalars needs one extra level of depth
budget. -/
theorem parseVal_packVal_arr (xs : List MPVal)
    (hs : ∀ x ∈ xs, x.isScalar = true ∧ x.wfB = true) (bs : List Nat)
    (h : packVal (.marr xs) = .ok bs) (fuel : Nat) (rest : List Nat) :
    parseVal (fuel + 2) (bs ++ rest) = .ok (.marr xs, rest) := by
  simp only [packVal] at h
  cases hbody : packList xs with
  | error e =>
      rw [hbody] at h
      split_ifs at h <;>
        simp [Bind.bind, Except.bind, pure, Except.pure] at h
  | ok body =>
      rw [hbody] at h
      split_ifs at h with h1 h2 h3 <;>
        simp only [Bind.bind, Except.bind, pure, Except.pure, Except.ok.injEq] at h
      · subst h
        rw [show ([144 + xs.length] ++ body) ++ rest
            = (144 + xs.length) :: (body ++ rest) from by simp,
          parseVal.eq_def]
        dsimp only
        rw [if_neg (by omega : ¬ 144 + xs.length < 128),
          if_neg (by omega : ¬ 144 + xs.length < 144),
          if_pos (by omega : 144 + xs.length < 160)]
        rw [show 144 + xs.length - 144 = xs.length from by omega]
        simp only [Bind.bind, Except.bind]
        rw [parseMany_packList xs hs body hbody fuel rest]
      · subst h
        have hlt : xs.length < 256 ^ 2 := by
          have : (256 : Nat) ^ 2 = 65536 := by norm_num
          omega
        rw [show ((220 :: toBE 2 xs.length) ++ body) ++ rest
            = 220 :: (toBE 2 xs.length ++ (body ++ rest)) from by simp,
          parseVal.eq_def]
        dsimp only
        norm_num
        rw [readBytes_exact 2 (toBE 2 xs.length) (body ++ rest) (toBE_length 2 _)]
        simp only [Bind.bind, Except.bind]
        rw [fromBE_toBE 2 _ hlt, parseMany_packList xs hs body hbody fuel rest]
      · subst h
        have hlt : xs.length < 256 ^ 4 := by
          have : (256 : Nat) ^ 4 = 4294967296 := by norm_num
          omega
        rw [show ((221 :: toBE 4 xs.length) ++ body) ++ rest
            = 221 :: (toBE 4 xs.length ++ (body ++ rest)) from by simp,
          parseVal.eq_def]
        dsimp only
        norm_num
        rw [readBytes_exact 4 (toBE 4 xs.length) (body ++ rest) (toBE_length 4 _)]
        simp only [Bind.bind, Except.bind]
        rw [fromBE_toBE 4 _ hlt, parseMany_packList xs hs body hbody fuel rest]
      · exact Except.noConfusion h

theorem packInt_length_pos (n : Int) (bs : List Nat) (h : packInt n = .ok bs) :
    0 < bs.length := by
  unfold packInt at h
  split_ifs at h <;>
    first
    | (rw [Except.ok.injEq] at h; subst h; simp [toBE_length])

/-- Parsing the packed 4-element frame `[cat, sub, msg, payload]` back. -/
theorem unpackb_pack_frame (a b c : Int) (pl : List MPVal)
    (hpl : ∀ x ∈ pl, x.isScalar = true ∧ x.wfB = true) (bs : List Nat)
    (h : packVal (.marr [.mint a, .mint b, .mint c, .marr pl]) = .ok bs) :
    unpackb bs = .ok (.marr [.mint a, .mint b, .mint c, .marr pl]) := by
  -- decompose the packed frame into its four packed pieces
  obtain ⟨b1, hb1, b2, hb2, b3, hb3, b4, hb4, hbs⟩ :
      ∃ b1, packInt a = .ok b1 ∧ ∃ b2, packInt b = .ok b2 ∧
      ∃ b3, packInt c = .ok b3 ∧ ∃ b4, packVal (.marr pl) = .ok b4 ∧
      bs = 148 :: (b1 ++ (b2 ++ (b3 ++ b4))) := by
    rw [packVal.eq_def] at h
    dsimp only at h
    simp only [packList, List.length_cons, List.length_nil] at h
    norm_num at h
    have hmint : ∀ n : Int, packVal (MPVal.mint n) = packInt n := fun _ => rfl
    rw [hmint, hmint, hmint] at h
    cases ha : packInt a with
    | error e =>
        rw [ha] at h
        simp [Bind.bind, Except.bind, pure, Except.pure] at h
    | ok b1 =>
    cases hb : packInt b with
    | error e =>
        rw [ha, hb] at h
        simp [Bind.bind, Except.bind, pure, Except.pure] at h
    | ok b2 =>
    cases hc : packInt c with
    | error e =>
        rw [ha, hb, hc] at h
        simp [Bind.bind, Except.bind, pure, Except.pure] at h
    | ok b3 =>
    cases hp : packVal (.marr pl) with
    | error e =>
        rw [ha, hb, hc, hp] at h
        simp [Bind.bind, Except.bind, pure, Except.pure] at h
    | ok b4 =>
        rw [ha, hb, hc, hp] at h
        simp only [Bind.bind, Except.bind, pure, Except.pure,
          Except.ok.injEq] at h
        exact ⟨b1, rfl, b2, rfl, b3, rfl, b4, rfl, by rw [← h]; simp⟩
  subst hbs
  have hpos := packInt_length_pos a b1 hb1
  obtain ⟨k, hk⟩ : ∃ k, (b1 ++ (b2 ++ (b3 ++ b4))).length = k + 1 :=
    ⟨(b1 ++ (b2 ++ (b3 ++ b4))).length - 1, by
      rw [List.length_append]; omega⟩
  have hparse : parseVal (k + 3) (148 :: (b1 ++ (b2 ++ (b3 ++ b4))))
      = .ok (.marr [.mint a, .mint b, .mint c, .marr pl], []) := by
    rw [show k + 3 = (k + 2) + 1 from rfl, parseVal.eq_def]
    dsimp only
    norm_num
    rw [show (4 : Nat) = 3 + 1 from by norm_num]
    rw [show k + 2 = (k + 1) + 1 from rfl]
    rw [parseMany, parseVal_packInt a b1 hb1 (k + 1) (b2 ++ (b3 ++ b4))]
    simp only [Bind.bind, Except.bind]
    rw [show (3 : Nat) = 2 + 1 from by norm_num]
    rw [parseMany, parseVal_packInt b b2 hb2 (k + 1) (b3 ++ b4)]
    simp only [Bind.bind, Except.bind]
    rw [show (2 : Nat) = 1 + 1 from by norm_num]
    rw [parseMany, parseVal_packInt c b3 hb3 (k + 1) b4]
    simp only [Bind.bind, Except.bind]
    rw [show (1 : Nat) = 0 + 1 from by norm_num]
    rw [parseMany]
    rw [show (k + 1) + 1 = k + 2 from rfl,
      show b4 = b4 ++ [] from (List.append_nil b4).symm]
    rw [parseVal_packVal_arr pl hpl b4 hb4 k []]
    simp only [Bind.bind, Except.bind]
    rw [parseMany]
  unfold unpackb
  have hlen : (148 :: (b1 ++ (b2 ++ (b3 ++ b4)))).length + 1 = k + 3 := by
    simp only [List.length_cons]
    omega
  rw [hlen, hparse]
  rfl

/-- In a list whose images under `f` are distinct, searching for the image
of a member finds exactly that member. -/
theorem find_unique {α β : Type} (l : List α) (f : α → β) (a : α) (p : α → Bool)
    (ha : a ∈ l) (hnd : (l.map f).Nodup)
    (hp : ∀ x ∈ l, (p x = true ↔ f x = f a)) :
    l.find? p = some a := by
  induction l with
  | nil => cases ha
  | cons b l ih =>
      rw [List.map_cons, List.nodup_cons] at hnd
      by_cases hb : p b = true
      · rw [List.find?_cons_of_pos _ hb]
        have hfb : f b = f a := (hp b (List.mem_cons_self _ _)).1 hb
        rcases List.mem_cons.mp ha with h | h
        · rw [h]
        · exact absurd (hfb.symm ▸ List.mem_map_of_mem f h) hnd.1
      · rw [List.find?_cons_of_neg _ hb]
        rcases List.mem_cons.mp ha with h | h
        · exact absurd ((hp b (List.mem_cons_self _ _)).2 (by rw [h])) hb
        · exact ih h hnd.2 (fun x hx => hp x (List.mem_cons_of_mem _ hx))

/-- `packInt` succeeds on every int within msgpack-python's packing range. -/
theorem packInt_ok (n : Int) (h1 : -9223372036854775808 ≤ n)
    (h2 : n < 18446744073709551616) : ∃ bs, packInt n = .ok bs := by
  unfold packInt
  split_ifs with a1 a2 a3 a4 a5 a6 a7 a8 a9 <;>
    first
    | exact ⟨_, rfl⟩
    | omega

/-- `pyToMP` only produces scalar, well-formed wire values from
representable Python values. -/
theorem pyToMP_scalar_wf (v : PyValue) (hv : representableB v = true) :
    (pyToMP v).isScalar = true ∧ (pyToMP v).wfB = true := by
  cases v <;> simp_all [pyToMP, MPVal.isScalar, MPVal.wfB, representableB]

/-- `packVal` succeeds on the wire image of every representable Python
value. -/
theorem packVal_ok_of_representable (v : PyValue) (hv : representableB v = true) :
    ∃ bs, packVal (pyToMP v) = .ok bs := by
  cases v with
  | pint n =>
      simp only [representableB, decide_eq_true_eq] at hv
      exact packInt_ok n hv.1 hv.2
  | penum e c =>
      simp only [representableB, decide_eq_true_eq] at hv
      exact packInt_ok c hv.1 hv.2
  | pbool b => cases b <;> exact ⟨_, rfl⟩
  | pfloat bits => exact ⟨_, rfl⟩
  | pstr s =>
      simp only [representableB, decide_eq_true_eq] at hv
      simp only [pyToMP, packVal]
      split_ifs <;> first | exact ⟨_, rfl⟩ | omega
  | pbytes bs =>
      simp only [representableB, Bool.and_eq_true, decide_eq_true_eq] at hv
      simp only [pyToMP, packVal]
      split_ifs <;> first | exact ⟨_, rfl⟩ | (exact absurd hv.1 (by omega))

/-- `packList` succeeds on the wire image of a representable payload. -/
theorem packList_ok_of_representable (pl : List PyValue)
    (h : ∀ v ∈ pl, representableB v = true) :
    ∃ bss, packList (pl.map pyToMP) = .ok bss := by
  induction pl with
  | nil => exact ⟨[], rfl⟩
  | cons v vs ih =>
      obtain ⟨b, hb⟩ := packVal_ok_of_representable v (h v (List.mem_cons_self _ _))
      obtain ⟨bs, hbs⟩ := ih (fun w hw => h w (List.mem_cons_of_mem _ hw))
      refine ⟨b ++ bs, ?_⟩
      simp [packList, hb, hbs, Bind.bind, Except.bind]

/-- A strictly conforming value passes `create_payload`'s per-field type
check against the field's own declaration. -/
theorem validate_field_of_strict (pe : List (String × EnumDef)) (f : FieldSpec)
    (v : PyValue) (h : strictFieldOkB pe f v = true) :
    validate_field pe (stripPayloadEnumKey f.name)
      ⟨f.datatype, f.datatype == some "enum"⟩ v = .ok () := by
  unfold strictFieldOkB at h
  unfold validate_field
  cases hdt : f.datatype with
  | none => rw [hdt] at h; cases v <;> simp at h
  | some dt =>
      rw [hdt] at h
      cases v with
      | pint n =>
          by_cases hd : dt = "int"
          · subst hd
            simp [type_mapping, Option.bind, pyIsInstance]
          · exfalso
            revert h
            split <;> simp_all
      | pfloat bits =>
          by_cases hd : dt = "float"
          · subst hd
            simp [type_mapping, Option.bind, pyIsInstance]
          · exfalso; revert h; split <;> simp_all
      | pbool b =>
          by_cases hd : dt = "bool"
          · subst hd
            simp [type_mapping, Option.bind, pyIsInstance]
          · exfalso; revert h; split <;> simp_all
      | pbytes bs =>
          by_cases hd : dt = "bytes"
          · subst hd
            simp [type_mapping, Option.bind, pyIsInstance]
          · exfalso; revert h; split <;> simp_all
      | pstr s =>
          by_cases hd : dt = "string"
          · subst hd
            simp [type_mapping, Option.bind, pyIsInstance]
          · exfalso; revert h; split <;> simp_all
      | penum e c =>
          by_cases hd : dt = "enum"
          · subst hd
            simp only at h
            cases hpe : dlookup pe (stripPayloadEnumKey f.name) with
            | none => rw [hpe] at h; simp at h
            | some ed =>
                rw [hpe] at h
                simp only [Bool.and_eq_true, beq_iff_eq] at h
                simp [hpe, pyIsEnumInstance, h.1]
          · exfalso; revert h; split <;> simp_all

/-- Looking up a key in a fold of overwriting inserts: the first list item
with that key wins (keys are distinct), otherwise the accumulator
decides. -/
theorem foldl_dinsert_lookup {ι α : Type} (key : ι → String) (g : ι → α) :
    ∀ (l : List ι) (acc : List (String × α)) (k : String),
      (l.map key).Nodup →
      dlookup (l.foldl (fun a f => dinsert a (key f) (g f)) acc) k =
        (match l.find? (fun f => key f == k) with
         | some f => some (g f)
         | none => dlookup acc k) := by
  intro l
  induction l with
  | nil => intro acc k _; simp [List.find?]
  | cons f rest ih =>
      intro acc k hnd
      rw [List.map_cons, List.nodup_cons] at hnd
      rw [List.foldl_cons, ih _ k hnd.2]
      by_cases hk : key f = k
      · have hfind : rest.find? (fun f' => key f' == k) = none := by
          apply List.find?_eq_none.mpr
          intro x hx
          simp only [beq_iff_eq]
          intro hxk
          exact hnd.1 ((hxk.trans hk.symm) ▸ List.mem_map_of_mem key hx)
        rw [hfind, List.find?_cons_of_pos _ (by simp [hk]),
          dlookup_dinsert, if_pos hk]
      · cases hfind : rest.find? (fun f' => key f' == k) with
        | some f' => rw [List.find?_cons_of_neg _ (by simp [hk]), hfind]
        | none =>
            rw [List.find?_cons_of_neg _ (by simp [hk]), hfind,
              dlookup_dinsert, if_neg hk]

/-- With distinct stripped field names, `field_defs` maps each field's
stripped name to that field's own type information. -/
theorem field_defs_lookup_of_nodup (pd : List FieldSpec) (f : FieldSpec)
    (hf : f ∈ pd)
    (hnd : (pd.map (fun f => stripPayloadEnumKey f.name)).Nodup) :
    dlookup (field_defs_of pd) (stripPayloadEnumKey f.name) =
      some ⟨f.datatype, f.datatype == some "enum"⟩ := by
  unfold field_defs_of
  rw [foldl_dinsert_lookup (fun f => stripPayloadEnumKey f.name)
    (fun f => (⟨f.datatype, f.datatype == some "enum"⟩ : FieldInfo)) pd [] _ hnd]
  rw [find_unique pd (fun f => stripPayloadEnumKey f.name) f _ hf hnd
    (fun x hx => by simp)]

/-- The field loop of `create_payload` succeeds and returns the provided
values in payload-definition order when every field's lookups and type
check go through. -/
theorem payload_loop_map (pe : List (String × EnumDef))
    (fdefs : List (String × FieldInfo)) (kwargs : List (String × PyValue)) :
    ∀ pd : List FieldSpec,
      (∀ f ∈ pd, ∃ v fi,
          dlookup kwargs (stripPayloadEnumKey f.name) = some v ∧
          dlookup fdefs (stripPayloadEnumKey f.name) = some fi ∧
          validate_field pe (stripPayloadEnumKey f.name) fi v = .ok ()) →
      payload_loop pe fdefs kwargs pd =
        .ok (pd.map (fun f =>
          (dlookup kwargs (stripPayloadEnumKey f.name)).getD (.pint 0))) := by
  intro pd
  induction pd with
  | nil => intro _; rfl
  | cons f rest ih =>
      intro h
      obtain ⟨v, fi, hv, hfi, hval⟩ := h f (List.mem_cons_self _ _)
      rw [List.map_cons]
      simp only [payload_loop]
      rw [hv, hfi]
      simp only [Bind.bind, Except.bind, hval]
      rw [ih (fun x hx => h x (List.mem_cons_of_mem _ hx))]
      rfl

/-- Decoding undoes the wire conversion of a strictly conforming field
value: the enum code maps back to the same member, strings and primitives
pass through. -/
theorem decode_field_value_roundtrip (pe : List (String × EnumDef))
    (f : FieldSpec) (v : PyValue) (h : strictFieldOkB pe f v = true) :
    decode_field_value pe f (pyToMP v) = .ok v := by
  unfold strictFieldOkB at h
  unfold decode_field_value
  cases hdt : f.datatype with
  | none => rw [hdt] at h; cases v <;> simp at h
  | some dt =>
      rw [hdt] at h
      cases v with
      | pint n =>
          by_cases hd : dt = "int"
          · subst hd; simp [pyToMP, mpToPy]
          · exfalso; revert h; split <;> simp_all
      | pfloat bits =>
          by_cases hd : dt = "float"
          · subst hd; simp [pyToMP, mpToPy]
          · exfalso; revert h; split <;> simp_all
      | pbool b =>
          by_cases hd : dt = "bool"
          · subst hd; simp [pyToMP, mpToPy]
          · exfalso; revert h; split <;> simp_all
      | pbytes bs =>
          by_cases hd : dt = "bytes"
          · subst hd; simp [pyToMP, mpToPy]
          · exfalso; revert h; split <;> simp_all
      | pstr s =>
          by_cases hd : dt = "string"
          · subst hd; simp [pyToMP, mpToPy]
          · exfalso; revert h; split <;> simp_all
      | penum e c =>
          by_cases hd : dt = "enum"
          · subst hd
            simp only at h
            cases hpe : dlookup pe (stripPayloadEnumKey f.name) with
            | none => rw [hpe] at h; simp at h
            | some ed =>
                rw [hpe] at h
                simp only [Bool.and_eq_true, beq_iff_eq] at h
                have hc : c ∈ ed.members.map Prod.snd := by simpa using h.2
                simp [pyToMP, hpe, h.1, hc]
          · exfalso; revert h; split <;> simp_all

/-- The field conversion loop of `decode_message` on the wire image of a
positional payload: it rebuilds exactly the fold of overwriting inserts of
the decoded values under the stripped names. -/
theorem decode_fields_map (pe : List (String × EnumDef)) (g : FieldSpec → PyValue) :
    ∀ (pd : List FieldSpec) (acc : List (String × PyValue)),
      (∀ f ∈ pd, decode_field_value pe f (pyToMP (g f)) = .ok (g f)) →
      decode_fields pe pd (pd.map (fun f => pyToMP (g f))) acc =
        .ok (pd.foldl (fun a f => dinsert a (stripPayloadEnumKey f.name) (g f)) acc) := by
  intro pd
  induction pd with
  | nil => intro acc _; rfl
  | cons f rest ih =>
      intro acc h
      rw [List.map_cons, List.foldl_cons]
      simp only [decode_fields]
      rw [h f (List.mem_cons_self _ _)]
      simp only [Bind.bind, Except.bind]
      exact ih _ (fun x hx => h x (List.mem_cons_of_mem _ hx))

/-- Membership in the catalog's message list decomposes through a category
and a subcategory entry. -/
theorem allMsgs_entry (cats : List CatEntry) (m : MsgEntry) (hm : m ∈ allMsgs cats) :
    ∃ ce ∈ cats, ∃ se ∈ ce.subs, m ∈ se.msgs := by
  simp only [allMsgs, List.mem_flatMap] at hm
  obtain ⟨ce, hce, se, hse, hmm⟩ := hm
  exact ⟨ce, hce, se, hse, hmm⟩

/-- `get_message_enum` inverts `messageid` on every member of a catalog
built from a schema with distinct category names. -/
theorem get_message_enum_roundtrip (spec : List (String × CatVal))
    (cats : List CatEntry) (hb : buildCatEntries spec 1 = .ok cats)
    (hnames : (spec.map Prod.fst).Nodup)
    (st : RuntimeState)
    (hmc : st.MessageCategory = some (cats.map (fun c => (c.name, c.value_cat))))
    (hms : st.Messages = some cats)
    (pe : List (String × EnumDef)) (hpe : st.PayloadEnum = some pe)
    (m : MsgEntry) (hm : m ∈ allMsgs cats) :
    get_message_enum st (m.category_value : Int) (m.value_subcat : Int)
      (m.value : Int) = .ok m := by
  obtain ⟨ce, hce, se, hse, hmm⟩ := allMsgs_entry cats m hm
  obtain ⟨hvc, hnc, hsub⟩ := buildCatEntries_shape spec 1 cats hb
  obtain ⟨subs, hsubs, hbs⟩ := hsub ce hce
  obtain ⟨hvs, hns, hmsg⟩ :=
    buildSubEntries_shape ce.name ce.value_cat subs 1 ce.subs hbs
  obtain ⟨ms, hmsl, hbm⟩ := hmsg se hse
  obtain ⟨hvm, hnm, hlink⟩ :=
    buildMsgEntries_shape ce.name ce.value_cat se.name se.value_subcat ms 1
      se.msgs hbm
  obtain ⟨hcn, hcv, hsn, hsv⟩ := hlink m hmm
  have hfind1 : (cats.map (fun c => (c.name, c.value_cat))).find?
      (fun nv => ((nv.snd : Int) == (m.category_value : Int)))
      = some (ce.name, ce.value_cat) := by
    apply find_unique _ (fun nv => (nv.snd : Int)) (ce.name, ce.value_cat)
    · exact List.mem_map_of_mem _ hce
    · rw [List.map_map]
      have hcomp : ((fun nv : String × Nat => (nv.snd : Int)) ∘
          (fun c : CatEntry => (c.name, c.value_cat)))
          = fun c : CatEntry => ((c.value_cat : Int)) := rfl
      rw [hcomp, show (cats.map fun c : CatEntry => ((c.value_cat : Int)))
        = (cats.map (fun c => c.value_cat)).map (fun n : Nat => (n : Int)) from by
          rw [List.map_map]; rfl]
      have hnd1 : (cats.map (fun c => c.value_cat)).Nodup := by
        rw [hvc]; exact List.nodup_range' 1 spec.length
      exact hnd1.map (fun a b hab => by exact_mod_cast hab)
    · intro x hx
      simp [hcv]
  have hfind2 : cats.find? (fun ce' => ce'.name == ce.name) = some ce := by
    apply find_unique cats (fun ce' => ce'.name) ce _ hce
    · rw [hnc]; exact hnames
    · intro x hx; simp
  have hfind3 : ce.subs.find?
      (fun se' => ((se'.value_subcat : Int) == (m.value_subcat : Int)))
      = some se := by
    apply find_unique _ (fun se' => (se'.value_subcat : Int)) se
    · exact hse
    · rw [show (ce.subs.map fun se' : SubEntry => ((se'.value_subcat : Int)))
        = (ce.subs.map (fun se' => se'.value_subcat)).map (fun n : Nat => (n : Int)) from by
          rw [List.map_map]; rfl]
      have hnd2 : (ce.subs.map (fun se' => se'.value_subcat)).Nodup := by
        rw [hvs]; exact List.nodup_range' 1 subs.length
      exact hnd2.map (fun a b hab => by exact_mod_cast hab)
    · intro x hx; simp [hsv]
  have hfind4 : se.msgs.find? (fun me => ((me.value : Int) == (m.value : Int)))
      = some m := by
    apply find_unique _ (fun me => (me.value : Int)) m
    · exact hmm
    · rw [show (se.msgs.map fun me : MsgEntry => ((me.value : Int)))
        = (se.msgs.map (fun me => me.value)).map (fun n : Nat => (n : Int)) from by
          rw [List.map_map]; rfl]
      have hnd3 : (se.msgs.map (fun me => me.value)).Nodup := by
        rw [hvm]; exact List.nodup_range' 1 ms.length
      exact hnd3.map (fun a b hab => by exact_mod_cast hab)
    · intro x hx; simp
  simp only [get_message_enum, hmc, hms, hpe, hfind1, hfind2, hfind3, hfind4]

/-- Packing an array succeeds whenever its length fits the largest array
header and its body packs. -/
theorem packVal_marr_ok (xs : List MPVal) (hlen : xs.length < 4294967296)
    (bss : List Nat) (h : packList xs = .ok bss) :
    ∃ bs, packVal (.marr xs) = .ok bs := by
  simp only [packVal]
  rw [h]
  split_ifs with g1 g2 g3 <;>
    first
    | exact ⟨_, rfl⟩
    | omega

/-- Packing the encoder's 4-element frame succeeds whenever its pieces
pack. -/
theorem packVal_frame_ok (a b c : Int) (xs : List MPVal) (b1 b2 b3 b4 : List Nat)
    (h1 : packInt a = .ok b1) (h2 : packInt b = .ok b2) (h3 : packInt c = .ok b3)
    (h4 : packVal (.marr xs) = .ok b4) :
    ∃ bs, packVal (.marr [.mint a, .mint b, .mint c, .marr xs]) = .ok bs := by
  rw [packVal.eq_def]
  dsimp only
  simp only [packList]
  have hmint : ∀ n : Int, packVal (MPVal.mint n) = packInt n := fun _ => rfl
  rw [hmint, hmint, hmint, h1, h2, h3, h4]
  simp only [List.length_cons, List.length_nil]
  norm_num
  exact ⟨_, rfl⟩

/-- `create_payload` succeeds on a strictly conforming assignment with the
right key set (distinct stripped names), returning the provided values in
payload-definition order. -/
theorem create_payload_map (st : RuntimeState) (mc : List (String × Nat))
    (msgs : List CatEntry) (pe : List (String × EnumDef))
    (hmc : st.MessageCategory = some mc) (hms : st.Messages = some msgs)
    (hpe : st.PayloadEnum = some pe) (m : MsgEntry)
    (kwargs : List (String × PyValue))
    (hnd : (m.payload_def.map (fun f => stripPayloadEnumKey f.name)).Nodup)
    (hkw : (kwargs.map Prod.fst).toFinset =
        (m.payload_def.map (fun f => stripPayloadEnumKey f.name)).toFinset)
    (hfields : ∀ f ∈ m.payload_def, ∃ v,
        dlookup kwargs (stripPayloadEnumKey f.name) = some v ∧
        strictFieldOkB pe f v = true) :
    create_payload st m kwargs =
      .ok (m.payload_def.map (fun f =>
        (dlookup kwargs (stripPayloadEnumKey f.name)).getD (.pint 0))) := by
  simp only [create_payload, hmc, hms, hpe]
  have hreq : ((field_defs_of m.payload_def).map Prod.fst).toFinset
      = (kwargs.map Prod.fst).toFinset := by
    rw [field_defs_keys, hkw]
  rw [if_pos hreq]
  apply payload_loop_map
  intro f hf
  obtain ⟨v, hv, hstrict⟩ := hfields f hf
  exact ⟨v, _, hv, field_defs_lookup_of_nodup m.payload_def f hf hnd,
    validate_field_of_strict pe f v hstrict⟩

/-- C1 (amended): for every message descriptor of a loaded catalog (dot-free
distinct names, distinct stripped field names) and every assignment that
strictly satisfies the declared field types AND is msgpack-representable
(ints and enum codes in `[-2^63, 2^64)`, float bit patterns and ids below
`2^64`, byte/text lengths below `2^32`), the decode of the encode of the
constructed payload returns the same enum member and a field map equal to
the assignment, enum values included. -/
theorem claim_C1 (spec : ProtoSpec) (st : RuntimeState)
    (hld : (load initialState spec).snd = .ok ())
    (hst : st = (load initialState spec).fst)
    (hkn : keysNodupB spec.messages = true)
    (m : MsgEntry) (hm : m ∈ msgsOfState st)
    (kwargs : List (String × PyValue))
    (hnd : (m.payload_def.map (fun f => stripPayloadEnumKey f.name)).Nodup)
    (hkw : (kwargs.map Prod.fst).toFinset =
        (m.payload_def.map (fun f => stripPayloadEnumKey f.name)).toFinset)
    (hfields : ∀ f ∈ m.payload_def, ∃ v,
        dlookup kwargs (stripPayloadEnumKey f.name) = some v ∧
        strictFieldOkB (peOfState st) f v = true ∧
        representableB v = true)
    (hplen : m.payload_def.length < 4294967296)
    (hidc : m.category_value < 18446744073709551616)
    (hids : m.value_subcat < 18446744073709551616)
    (hidm : m.value < 18446744073709551616) :
    ∃ pl enc d,
      create_payload st m kwargs = .ok pl ∧
      encode_message st m pl = .ok enc ∧
      decode_message st enc = .ok (m, d) ∧
      ∀ k, dlookup d k = dlookup kwargs k := by
  obtain ⟨pe, cats, hbe, hbc, hrec⟩ := load_ok_state initialState spec hld
  rw [← hst] at hrec
  have hmc' : st.MessageCategory = some (cats.map (fun c => (c.name, c.value_cat))) := by
    rw [hrec]
  have hms' : st.Messages = some cats := by rw [hrec]
  have hpe' : st.PayloadEnum = some pe := by rw [hrec]
  have hpeS : peOfState st = pe := by simp [peOfState, hpe']
  have hmsgs : m ∈ allMsgs cats := by
    simp only [msgsOfState, hms'] at hm
    exact hm
  have hnames : (spec.messages.map Prod.fst).Nodup := by
    simp only [keysNodupB, Bool.and_eq_true, decide_eq_true_eq] at hkn
    exact hkn.1
  have hgf : ∀ f ∈ m.payload_def,
      dlookup kwargs (stripPayloadEnumKey f.name) =
        some ((dlookup kwargs (stripPayloadEnumKey f.name)).getD (.pint 0)) ∧
      strictFieldOkB pe f
        ((dlookup kwargs (stripPayloadEnumKey f.name)).getD (.pint 0)) = true ∧
      representableB
        ((dlookup kwargs (stripPayloadEnumKey f.name)).getD (.pint 0)) = true := by
    intro f hf
    obtain ⟨v, hv, hs, hr⟩ := hfields f hf
    rw [hpeS] at hs
    rw [hv]
    exact ⟨rfl, hs, hr⟩
  have hcp : create_payload st m kwargs =
      .ok (m.payload_def.map (fun f =>
        (dlookup kwargs (stripPayloadEnumKey f.name)).getD (.pint 0))) := by
    apply create_payload_map st _ cats pe hmc' hms' hpe' m kwargs hnd hkw
    intro f hf
    obtain ⟨v, hv, hs, _⟩ := hfields f hf
    rw [hpeS] at hs
    exact ⟨v, hv, hs⟩
  have hrep : ∀ w ∈ m.payload_def.map (fun f =>
      (dlookup kwargs (stripPayloadEnumKey f.name)).getD (.pint 0)),
      representableB w = true := by
    intro w hw
    obtain ⟨f, hf, hfw⟩ := List.mem_map.mp hw
    rw [← hfw]
    exact (hgf f hf).2.2
  obtain ⟨bss, hbss⟩ := packList_ok_of_representable _ hrep
  obtain ⟨b1, hb1⟩ := packInt_ok (m.category_value : Int) (by omega)
    (by exact_mod_cast hidc)
  obtain ⟨b2, hb2⟩ := packInt_ok (m.value_subcat : Int) (by omega)
    (by exact_mod_cast hids)
  obtain ⟨b3, hb3⟩ := packInt_ok (m.value : Int) (by omega)
    (by exact_mod_cast hidm)
  obtain ⟨b4, hb4⟩ := packVal_marr_ok _ (by simpa using hplen) bss hbss
  obtain ⟨enc, hframe⟩ := packVal_frame_ok _ _ _ _ b1 b2 b3 b4 hb1 hb2 hb3 hb4
  have hmid : messageid st m = .ok (m.category_value, m.value_subcat, m.value) := by
    simp [messageid, hmc', hms', hpe']
  have henc : encode_message st m (m.payload_def.map (fun f =>
      (dlookup kwargs (stripPayloadEnumKey f.name)).getD (.pint 0))) = .ok enc := by
    simp only [encode_message, hmid, Bind.bind, Except.bind]
    exact hframe
  have hscal : ∀ x ∈ (m.payload_def.map (fun f =>
      (dlookup kwargs (stripPayloadEnumKey f.name)).getD (.pint 0))).map pyToMP,
      x.isScalar = true ∧ x.wfB = true := by
    intro x hx
    obtain ⟨w, hw, hwx⟩ := List.mem_map.mp hx
    rw [← hwx]
    exact pyToMP_scalar_wf w (hrep w hw)
  have hunp : unpackb enc = .ok (.marr [.mint (m.category_value : Int),
      .mint (m.value_subcat : Int), .mint (m.value : Int),
      .marr ((m.payload_def.map (fun f =>
        (dlookup kwargs (stripPayloadEnumKey f.name)).getD (.pint 0))).map pyToMP)]) :=
    unpackb_pack_frame _ _ _ _ hscal enc hframe
  have hgme := get_message_enum_roundtrip spec.messages cats hbc hnames st
    hmc' hms' pe hpe' m hmsgs
  have hdfv : ∀ f ∈ m.payload_def, decode_field_value pe f
      (pyToMP ((dlookup kwargs (stripPayloadEnumKey f.name)).getD (.pint 0))) =
      .ok ((dlookup kwargs (stripPayloadEnumKey f.name)).getD (.pint 0)) :=
    fun f hf => decode_field_value_roundtrip pe f _ (hgf f hf).2.1
  have hdf := decode_fields_map pe (fun f =>
    (dlookup kwargs (stripPayloadEnumKey f.name)).getD (.pint 0))
    m.payload_def [] hdfv
  have hdec : decode_message st enc = .ok (m,
      m.payload_def.foldl (fun a f => dinsert a (stripPayloadEnumKey f.name)
        ((dlookup kwargs (stripPayloadEnumKey f.name)).getD (.pint 0))) []) := by
    simp only [decode_message, hmc', hms', hpe']
    rw [hunp]
    simp only [Bind.bind, Except.bind]
    rw [show decode_frame (.marr [.mint (m.category_value : Int),
        .mint (m.value_subcat : Int), .mint (m.value : Int),
        .marr ((m.payload_def.map (fun f =>
          (dlookup kwargs (stripPayloadEnumKey f.name)).getD (.pint 0))).map pyToMP)])
      = .ok ((m.category_value : Int), (m.value_subcat : Int), (m.value : Int),
        ((m.payload_def.map (fun f =>
          (dlookup kwargs (stripPayloadEnumKey f.name)).getD (.pint 0))).map pyToMP))
      from rfl]
    simp only [Bind.bind, Except.bind]
    rw [hgme]
    simp only [Bind.bind, Except.bind]
    rw [if_neg (by simp)]
    rw [show ((m.payload_def.map (fun f =>
        (dlookup kwargs (stripPayloadEnumKey f.name)).getD (.pint 0))).map pyToMP)
      = m.payload_def.map (fun f =>
        pyToMP ((dlookup kwargs (stripPayloadEnumKey f.name)).getD (.pint 0)))
      from by rw [List.map_map]; rfl]
    rw [hdf]
  refine ⟨_, enc, _, hcp, henc, hdec, ?_⟩
  intro k
  rw [foldl_dinsert_lookup (fun f => stripPayloadEnumKey f.name)
    (fun f => (dlookup kwargs (stripPayloadEnumKey f.name)).getD (.pint 0))
    m.payload_def [] k hnd]
  cases hfind : m.payload_def.find? (fun f => stripPayloadEnumKey f.name == k) with
  | some f =>
      have hfk : stripPayloadEnumKey f.name = k := by
        have := List.find?_some hfind
        simpa using this
      have hmemf := List.mem_of_find?_eq_some hfind
      obtain ⟨v, hv, _, _⟩ := hfields f hmemf
      dsimp only
      rw [← hfk, hv]
      rfl
  | none =>
      cases hkv : dlookup kwargs k with
      | none => simp [dlookup, hkv]
      | some v =>
          exfalso
          have hk1 : k ∈ kwargs.map Prod.fst := dlookup_mem_keys kwargs k v hkv
          have hk2 : k ∈ m.payload_def.map (fun f => stripPayloadEnumKey f.name) := by
            have h1 : k ∈ (kwargs.map Prod.fst).toFinset := List.mem_toFinset.mpr hk1
            rw [hkw] at h1
            exact List.mem_toFinset.mp h1
          obtain ⟨f, hf, hfk⟩ := List.mem_map.mp hk2
          have hnone := List.find?_eq_none.mp hfind f hf
          simp [hfk] at hnone

/-- C1 counterexample to the unqualified claim: `2^64` is a Python int, so
it satisfies an `int` field's declared type (even strictly) and
`create_payload` accepts it, but `msgpack.packb` raises `OverflowError` on
encoding — the roundtrip does not even reach decoding. -/
theorem claim_C1_counterexample :
    (load initialState ⟨none, none, [],
        [("A", .cmap [("B", .smap [("M", .mlist [⟨"x", some "int"⟩])])])]⟩).snd
      = .ok () ∧
    (⟨"A", 1, "B", 1, "M", 1, [⟨"x", some "int"⟩]⟩ : MsgEntry) ∈
      msgsOfState (load initialState ⟨none, none, [],
        [("A", .cmap [("B", .smap [("M", .mlist [⟨"x", some "int"⟩])])])]⟩).fst ∧
    strictFieldOkB
      (peOfState (load initialState ⟨none, none, [],
        [("A", .cmap [("B", .smap [("M", .mlist [⟨"x", some "int"⟩])])])]⟩).fst)
      ⟨"x", some "int"⟩ (.pint 18446744073709551616) = true ∧
    create_payload
      (load initialState ⟨none, none, [],
        [("A", .cmap [("B", .smap [("M", .mlist [⟨"x", some "int"⟩])])])]⟩).fst
      ⟨"A", 1, "B", 1, "M", 1, [⟨"x", some "int"⟩]⟩
      [("x", .pint 18446744073709551616)]
      = .ok [.pint 18446744073709551616] ∧
    encode_message
      (load initialState ⟨none, none, [],
        [("A", .cmap [("B", .smap [("M", .mlist [⟨"x", some "int"⟩])])])]⟩).fst
      ⟨"A", 1, "B", 1, "M", 1, [⟨"x", some "int"⟩]⟩
      [.pint 18446744073709551616]
      = .error .overflowError := by
  exact ⟨rfl, by decide, rfl, rfl, rfl⟩

/-- C1 witness: a two-field message (an int field and an enum field) whose
strict, representable assignment constructs, encodes, decodes back to the
same member and the same field map. -/
theorem claim_C1_witness :
    ∃ pl enc d,
      create_payload
        (load initialState ⟨none, none, [("E", [("GO", 7)])],
          [("A", .cmap [("B", .smap [("M", .mlist
            [⟨"x", some "int"⟩, ⟨"PayloadEnum_E", some "enum"⟩])])])]⟩).fst
        ⟨"A", 1, "B", 1, "M", 1,
          [⟨"x", some "int"⟩, ⟨"PayloadEnum_E", some "enum"⟩]⟩
        [("x", .pint 5), ("E", .penum "E" 7)] = .ok pl ∧
      encode_message
        (load initialState ⟨none, none, [("E", [("GO", 7)])],
          [("A", .cmap [("B", .smap [("M", .mlist
            [⟨"x", some "int"⟩, ⟨"PayloadEnum_E", some "enum"⟩])])])]⟩).fst
        ⟨"A", 1, "B", 1, "M", 1,
          [⟨"x", some "int"⟩, ⟨"PayloadEnum_E", some "enum"⟩]⟩ pl = .ok enc ∧
      decode_message
        (load initialState ⟨none, none, [("E", [("GO", 7)])],
          [("A", .cmap [("B", .smap [("M", .mlist
            [⟨"x", some "int"⟩, ⟨"PayloadEnum_E", some "enum"⟩])])])]⟩).fst
        enc = .ok (⟨"A", 1, "B", 1, "M", 1,
          [⟨"x", some "int"⟩, ⟨"PayloadEnum_E", some "enum"⟩]⟩, d) ∧
      ∀ k, dlookup d k = dlookup [("x", .pint 5), ("E", .penum "E" 7)] k := by
  apply claim_C1 ⟨none, none, [("E", [("GO", 7)])],
      [("A", .cmap [("B", .smap [("M", .mlist
        [⟨"x", some "int"⟩, ⟨"PayloadEnum_E", some "enum"⟩])])])]⟩
    _ rfl rfl (by decide)
    ⟨"A", 1, "B", 1, "M", 1, [⟨"x", some "int"⟩, ⟨"PayloadEnum_E", some "enum"⟩]⟩
    (by decide) [("x", .pint 5), ("E", .penum "E" 7)] (by decide) (by decide)
    ?_ (by decide) (by decide) (by decide) (by decide)
  intro f hf
  rcases List.mem_cons.mp hf with h | h
  · subst h
    exact ⟨.pint 5, rfl, rfl, rfl⟩
  · rcases List.mem_cons.mp h with h2 | h2
    · subst h2
      exact ⟨.penum "E" 7, rfl, rfl, rfl⟩
    · cases h2

end Frogproto
